import Mathlib

/-!
The class `ftrie`: an arena-backed trie over a fixed alphabet (`ftrie.hpp`)

Shallow embedding of the class template `ftrie<AS, OFFSET>`.

* `AS` (the alphabet size, a template parameter) is an explicit parameter.
* `OFFSET` (a template parameter) is instantiated with the natural numbers.
* A `char` is modelled by its code, a natural number; the translation table has
  256 entries and a code outside the table translates to `-1`.
* `std::vector<node>` is a list; `nodes[i]` with `i` out of range (undefined in
  C++) reads a cleared `EMPTY` node, and a write out of range does nothing.
* `throw std::range_error(...)` and a failed `assert` are explicit error results.
* The recursions of `delete_subtree` and `equal_nodes` and the loop of the stream
  constructor, which the source does not bound, carry a fuel argument; running
  out of fuel is an error result.
* `double size(...)` is computed in the natural numbers.
* An output stream is the list of characters written to it; an input stream is
  the list of characters not yet read together with `eofbit` and `failbit`.

The definitions come first: those of the source, then the notions used to state
and prove the properties (walks through the arena, its invariant, reachability).
The theorems follow; those named `C1` to `C10` settle the claims.
-/

/-- The node states, `enum STATE`. -/
inductive STATE where
  | EMPTY
  | INTERNAL
  | FINAL
deriving DecidableEq

/-- The integer value of a state, as printed by `os << n.state`. -/
def STATE.toNat : STATE → Nat
  | .EMPTY => 0
  | .INTERNAL => 1
  | .FINAL => 2

/-- A node of the arena, `struct node`: a state and `AS` edges. -/
structure node where
  state : STATE
  edges : List Nat
deriving DecidableEq

/-- The constructor `node(STATE s)`: state `s` and cleared edges. -/
def node.ctor (AS : Nat) (s : STATE) : node := ⟨s, List.replicate AS 0⟩

/-- The method `node::clear()`: all `AS` edges set to zero. -/
def node.clear (AS : Nat) (n : node) : node := ⟨n.state, List.replicate AS 0⟩

/-- The ways an operation can fail: the `std::range_error`s thrown by the source
(one constructor per message), a failed `assert`, and exhausted fuel. -/
inductive Error where
  | alphabet_wrong_length
  | invalid_letter
  | incomplete_file
  | invalid_node_state
  | root_not_internal
  | guard_not_final
  | assertion_failed
  | out_of_fuel
deriving DecidableEq

/-- The result of a containment query, `enum FOUND`. -/
inductive FOUND where
  | NOT
  | HAS_PREFIX
  | PREFIX_OF
deriving DecidableEq

/-- The data members of `ftrie<AS, OFFSET>`. -/
structure ftrie (AS : Nat) where
  alphabet : List Nat
  translate : List Int
  empty_head : Nat
  nodes : List node
deriving DecidableEq

/-- Offset of the root node. -/
def root_offset : Nat := 0

/-- Offset of the node holding the `FINAL` state. -/
def final_offset : Nat := 1

/-- The loop `for(i = 0; i < s; ++i) res[a[i]] = i` of `create_translate`, for
the letters with codes `a`. The index `a[i]` is a plain `char`: the write is the
one at the code of the letter for codes below 128, whether `char` is signed or
not. -/
def create_translate_fill : List Nat → Nat → List Int → List Int
  | [], _, res => res
  | c :: cs, i, res => create_translate_fill cs (i + 1) (res.set c (i : Int))

/-- The static method `create_translate(a, s)`. -/
def create_translate (AS : Nat) (a : List Nat) : Except Error (List Int) :=
  if a.length ≠ AS then .error .alphabet_wrong_length
  else .ok (create_translate_fill a 0 (List.replicate 256 (-1)))

/-- The constructor `ftrie(const char* a, size_t s)`. -/
def ftrie.ctor (AS : Nat) (a : List Nat) : Except Error (ftrie AS) :=
  match create_translate AS a with
  | .error e => .error e
  | .ok tr => .ok ⟨a, tr, 0, [node.ctor AS .INTERNAL, node.ctor AS .FINAL]⟩

/-- The read `nodes[i]`. -/
def ftrie.node_at {AS : Nat} (t : ftrie AS) (i : Nat) : node :=
  t.nodes.getD i (node.ctor AS .EMPTY)

/-- The read `nodes[i].edges[v]`. -/
def ftrie.edge {AS : Nat} (t : ftrie AS) (i v : Nat) : Nat :=
  (t.node_at i).edges.getD v 0

/-- The write `nodes[i].edges[v] = x`. -/
def ftrie.set_edge {AS : Nat} (t : ftrie AS) (i v x : Nat) : ftrie AS :=
  ⟨t.alphabet, t.translate, t.empty_head,
    t.nodes.set i ⟨(t.node_at i).state, (t.node_at i).edges.set v x⟩⟩

/-- The read `translate[c]` for the character with code `c`. The source indexes
the table with a plain `char`: for a code below 128 the index is `c` whether
`char` is signed or not, and that is the read this function stands for; a code
from 128 on is an index outside the table where `char` is signed. -/
def ftrie.tr {AS : Nat} (t : ftrie AS) (c : Nat) : Int :=
  t.translate.getD c (-1)

/-- The loop over the edges of `nodes[start]` in `delete_subtree`; `del` is the
recursive call. -/
def delete_edges {AS : Nat} (del : ftrie AS → Nat → Except Error (ftrie AS)) (start : Nat) :
    List Nat → ftrie AS → Except Error (ftrie AS)
  | [], t => .ok t
  | i :: is, t =>
    if t.edge start i ≠ 0 then
      match del t (t.edge start i) with
      | .error e => .error e
      | .ok t1 => delete_edges del start is (t1.set_edge start i 0)
    else delete_edges del start is (t.set_edge start i 0)

/-- The method `delete_subtree(start)`, with fuel for the recursion depth. -/
def ftrie.delete_subtree {AS : Nat} : Nat → ftrie AS → Nat → Except Error (ftrie AS)
  | 0, _, _ => .error .out_of_fuel
  | fuel + 1, t, start =>
    if (t.node_at start).state = .FINAL then
      if start = final_offset then .ok t else .error .assertion_failed
    else
      match delete_edges (ftrie.delete_subtree fuel) start (List.range AS) t with
      | .error e => .error e
      | .ok t1 =>
        .ok ⟨t1.alphabet, t1.translate, start,
          t1.nodes.set start ⟨.EMPTY, (List.replicate AS 0).set 0 t1.empty_head⟩⟩

/-- The method `next_empty_node()`: the offset returned and the new state. -/
def ftrie.next_empty_node {AS : Nat} (t : ftrie AS) : Nat × ftrie AS :=
  if t.empty_head ≠ 0 then
    (t.empty_head,
      ⟨t.alphabet, t.translate, t.edge t.empty_head 0,
        t.nodes.set t.empty_head ⟨.INTERNAL, List.replicate AS 0⟩⟩)
  else
    ((t.nodes ++ [node.ctor AS .INTERNAL]).length - 1,
      ⟨t.alphabet, t.translate, t.empty_head, t.nodes ++ [node.ctor AS .INTERNAL]⟩)

/-- The body of `insert(s, size)` after `cur = 0`: the loop over the letters
`s[0..size-2]` (third case) followed by the last letter (second case). An error
result carries the state of the trie when the exception leaves `insert`. -/
def ftrie.insert_from {AS : Nat} :
    List Nat → ftrie AS → Nat → Except (Error × ftrie AS) (ftrie AS)
  | [], t, _ => .ok t
  | [c], t, cur =>
    if (t.node_at cur).state = .EMPTY then .error (.assertion_failed, t)
    else if (t.node_at cur).state = .FINAL then .ok t
    else if t.tr c < 0 then .error (.invalid_letter, t)
    else if t.edge cur (t.tr c).toNat ≠ 0 then
      match t.delete_subtree t.nodes.length (t.edge cur (t.tr c).toNat) with
      | .error e => .error (e, t)
      | .ok t1 => .ok (t1.set_edge cur (t.tr c).toNat final_offset)
    else .ok (t.set_edge cur (t.tr c).toNat final_offset)
  | c :: c2 :: s, t, cur =>
    if (t.node_at cur).state = .EMPTY then .error (.assertion_failed, t)
    else if (t.node_at cur).state = .FINAL then .ok t
    else if t.tr c < 0 then .error (.invalid_letter, t)
    else if t.edge cur (t.tr c).toNat = 0 then
      ftrie.insert_from (c2 :: s)
        ((t.next_empty_node.2).set_edge cur (t.tr c).toNat t.next_empty_node.1)
        t.next_empty_node.1
    else ftrie.insert_from (c2 :: s) t (t.edge cur (t.tr c).toNat)

/-- The method `insert(s, size)`. -/
def ftrie.insert {AS : Nat} (t : ftrie AS) (s : List Nat) :
    Except (Error × ftrie AS) (ftrie AS) :=
  if s.length = 0 then .ok t else ftrie.insert_from s t root_offset

/-- The loop of `find(s, size)` from the node `cur`, and the final test. -/
def ftrie.find_from {AS : Nat} (t : ftrie AS) : List Nat → Nat → Except Error FOUND
  | [], cur =>
    if (t.node_at cur).state = .EMPTY then .error .assertion_failed
    else if (t.node_at cur).state = .FINAL then .ok .HAS_PREFIX else .ok .PREFIX_OF
  | c :: s, cur =>
    if (t.node_at cur).state = .EMPTY then .error .assertion_failed
    else if (t.node_at cur).state = .FINAL then .ok .HAS_PREFIX
    else if t.tr c < 0 then .error .invalid_letter
    else if t.edge cur (t.tr c).toNat = 0 then .ok .NOT
    else ftrie.find_from t s (t.edge cur (t.tr c).toNat)

/-- The method `find(s, size)`. -/
def ftrie.find {AS : Nat} (t : ftrie AS) (s : List Nat) : Except Error FOUND :=
  t.find_from s root_offset

/-- The recursive method `all_mers(depth, mers, start, mer)`. The container
`mers` and the buffer `mer` are passed by reference: they are threaded through as
a pair. `mers.push_back(mer)` appends a copy of the buffer. -/
def ftrie.all_mers_from {AS : Nat} (t : ftrie AS) :
    Nat → Nat → List (List Nat) × List Nat → List (List Nat) × List Nat
  | 0, _, st => (st.1 ++ [st.2], st.2)
  | depth + 1, start, st =>
    if (t.node_at start).state = .FINAL then
      (List.range AS).foldl
        (fun st i => ftrie.all_mers_from t depth start
          (st.1, st.2.set (st.2.length - (depth + 1)) (t.alphabet.getD i 0))) st
    else
      (List.range AS).foldl
        (fun st i =>
          if t.edge start i ≠ 0 then
            ftrie.all_mers_from t depth (t.edge start i)
              (st.1, st.2.set (st.2.length - (depth + 1)) (t.alphabet.getD i 0))
          else st) st

/-- The method `all_mers(depth)` returning a vector: the buffer starts as `depth`
zero bytes and the walk starts at the root. -/
def ftrie.all_mers {AS : Nat} (t : ftrie AS) (depth : Nat) : List (List Nat) :=
  (t.all_mers_from depth root_offset ([], List.replicate depth 0)).1

/-- The method `size(depth, start)`, with the `double` result computed as an
exact natural number and `std::pow(alphabet.size(), depth)` as an exact power. -/
def ftrie.size_from {AS : Nat} (t : ftrie AS) : Nat → Nat → Nat
  | 0, _ => t.alphabet.length ^ 0
  | depth + 1, start =>
    if (t.node_at start).state = .FINAL then t.alphabet.length ^ (depth + 1)
    else
      (List.range AS).foldl
        (fun res i =>
          if t.edge start i ≠ 0 then res + ftrie.size_from t depth (t.edge start i)
          else res) 0

/-- The call `size(depth)` with the default `start = root_offset`. -/
def ftrie.size {AS : Nat} (t : ftrie AS) (depth : Nat) : Nat :=
  t.size_from depth root_offset

/-- The loop over the edges in `equal_nodes(f1, f2, n1, n2)`; `eq` is the
recursive call. -/
def equal_edges {AS : Nat} (eq : node → node → Except Error Bool) (f1 f2 : ftrie AS)
    (n1 n2 : node) : List Nat → Except Error Bool
  | [] => .ok true
  | i :: is =>
    if decide (n1.edges.getD i 0 = 0) ≠ decide (n2.edges.getD i 0 = 0) then .ok false
    else if n1.edges.getD i 0 ≠ 0 then
      match eq (f1.node_at (n1.edges.getD i 0)) (f2.node_at (n2.edges.getD i 0)) with
      | .error e => .error e
      | .ok false => .ok false
      | .ok true => equal_edges eq f1 f2 n1 n2 is
    else equal_edges eq f1 f2 n1 n2 is

/-- The static method `equal_nodes(f1, f2, n1, n2)`, with fuel for the recursion
depth. -/
def ftrie.equal_nodes {AS : Nat} :
    Nat → ftrie AS → ftrie AS → node → node → Except Error Bool
  | 0, _, _, _, _ => .error .out_of_fuel
  | fuel + 1, f1, f2, n1, n2 =>
    equal_edges (ftrie.equal_nodes fuel f1 f2) f1 f2 n1 n2 (List.range AS)

/-- The method `operator==(rhs)`. -/
def ftrie.operator_eq {AS : Nat} (t rhs : ftrie AS) : Except Error Bool :=
  ftrie.equal_nodes (t.nodes.length + rhs.nodes.length) t rhs
    (t.node_at 0) (rhs.node_at 0)

/-- The strings of edge indices of length `depth` that `all_mers` walks from the
node `start`, in the order it walks them. -/
def ftrie.paths {AS : Nat} (t : ftrie AS) : Nat → Nat → List (List Nat)
  | 0, _ => [[]]
  | depth + 1, start =>
    if (t.node_at start).state = .FINAL then
      (List.range AS).flatMap (fun i => (ftrie.paths t depth start).map (fun w => i :: w))
    else
      (List.range AS).flatMap
        (fun i =>
          if t.edge start i ≠ 0 then
            (ftrie.paths t depth (t.edge start i)).map (fun w => i :: w)
          else [])

/-- The letters of a string of edge indices. -/
def ftrie.letters {AS : Nat} (t : ftrie AS) (w : List Nat) : List Nat :=
  w.map (fun i => t.alphabet.getD i 0)

/-- The order on strings of letters: lexicographic, a letter being smaller than
another when it stands earlier in the alphabet `a`. -/
def lex_lt (a : List Nat) (u v : List Nat) : Prop :=
  List.Lex (· < ·) (u.map (fun c => List.indexOf c a)) (v.map (fun c => List.indexOf c a))

/-- The state of the trie after the call `insert(s)`, whether it returned or threw. -/
def ftrie.after_insert {AS : Nat} (t : ftrie AS) (s : List Nat) : ftrie AS :=
  match t.insert s with
  | .ok t1 => t1
  | .error e => e.2

/-- The alphabet `"ACGT"`, as character codes. -/
def ACGT : List Nat := [65, 67, 71, 84]

/-- The trie over `"ACGT"` after `insert("AC"); insert("GT")`. -/
def demo_trie : ftrie 4 :=
  match ftrie.ctor 4 ACGT with
  | .ok t => (t.after_insert [65, 67]).after_insert [71, 84]
  | .error _ => ⟨[], [], 0, []⟩

/-- The edge index of a letter, `translate[c]` as an unsigned index. -/
def ftrie.idx {AS : Nat} (t : ftrie AS) (c : Nat) : Nat := (t.tr c).toNat

/-- The node reached from `cur` by following the edges `p`, if every edge on the
way is present (non-zero). -/
def ftrie.walk {AS : Nat} (t : ftrie AS) : Nat → List Nat → Option Nat
  | cur, [] => some cur
  | cur, v :: p => if t.edge cur v = 0 then none else ftrie.walk t (t.edge cur v) p

/-- The offsets `fl` form the chain that starts at `h`, follows edge 0 and ends
at `e`. -/
def ftrie.seg {AS : Nat} (t : ftrie AS) : Nat → List Nat → Nat → Prop
  | h, [], e => h = e
  | h, f :: fl, e => h = f ∧ f ≠ 0 ∧ ftrie.seg t (t.edge f 0) fl e

/-- The structural invariant of the arena: root and sentinel in place, every node
with `AS` edges, the part reachable from the root a tree of in-range `INTERNAL`
nodes that shares only the sentinel, the free list a chain of `EMPTY` nodes
that are not reachable, and every other node but the sentinel reachable. -/
structure ftrie.Inv {AS : Nat} (t : ftrie AS) : Prop where
  size : 2 ≤ t.nodes.length
  root : (t.node_at 0).state = .INTERNAL
  final : t.node_at 1 = node.ctor AS .FINAL
  edges_len : ∀ i, i < t.nodes.length → (t.node_at i).edges.length = AS
  reach : ∀ p n, t.walk 0 p = some n →
    n < t.nodes.length ∧ (n ≠ 1 → (t.node_at n).state = .INTERNAL)
  inj : ∀ p q n, t.walk 0 p = some n → t.walk 0 q = some n → n ≠ 1 → p = q
  free : ∃ fl : List Nat, t.seg t.empty_head fl 0 ∧ fl.Nodup ∧
    ∀ f ∈ fl, f < t.nodes.length ∧ (t.node_at f).state = .EMPTY ∧
      ∀ p, t.walk 0 p ≠ some f
  cover : ∃ fl : List Nat, t.seg t.empty_head fl 0 ∧
    ∀ n, n < t.nodes.length → n ≠ 1 → n ∉ fl → ∃ p, t.walk 0 p = some n

/-- The node `m` is reached from the node `n` along present edges. -/
def ftrie.reaches {AS : Nat} (t : ftrie AS) (n m : Nat) : Prop := ∃ p, t.walk n p = some m

/-- What `delete_subtree(n)` needs of the nodes reached from `n`: they are in
range, have `AS` edges, only the sentinel is `FINAL`, no two walks from `n` meet
except at the sentinel, and every walk is shorter than the fuel. -/
structure ftrie.SubOK {AS : Nat} (t : ftrie AS) (n fuel : Nat) : Prop where
  bound : ∀ p m, t.walk n p = some m → m < t.nodes.length
  state : ∀ p m, t.walk n p = some m → m ≠ 1 → (t.node_at m).state ≠ .FINAL
  elen : ∀ p m, t.walk n p = some m → (t.node_at m).edges.length = AS
  fuel : ∀ p m, t.walk n p = some m → p.length < fuel
  inj : ∀ p q m, t.walk n p = some m → t.walk n q = some m → m ≠ 1 → p = q

/-- The effect of a deletion on the free list: the trie `t1` has the size and
alphabet of `t`, and its free list is the chain `L` of cleared `EMPTY` nodes
followed by the free list of `t`. -/
structure ftrie.Freed {AS : Nat} (t t1 : ftrie AS) (L : List Nat) : Prop where
  len : t1.nodes.length = t.nodes.length
  alph : t1.alphabet = t.alphabet
  trans : t1.translate = t.translate
  seg : t1.seg t1.empty_head L t.empty_head
  nodup : L.Nodup
  empty : ∀ m ∈ L, (t1.node_at m).state = .EMPTY ∧ (t1.node_at m).edges.length = AS ∧
    ∀ v, v ≠ 0 → t1.edge m v = 0

/-- The specification of `delete_subtree` with the given fuel: on a subtree that
is in order it returns, the nodes reached from `n` other than the sentinel are
exactly the nodes it puts on the free list, and every other node is untouched. -/
def DelSpec (AS fuel : Nat) : Prop :=
  ∀ (t : ftrie AS) (n : Nat), 0 < AS → n ≠ 0 → 1 < t.nodes.length →
    t.node_at 1 = node.ctor AS .FINAL → t.SubOK n fuel →
    ∃ t1 L, t.delete_subtree fuel n = .ok t1 ∧ t.Freed t1 L ∧
      (∀ m, m ∉ L → t1.node_at m = t.node_at m) ∧
      (∀ m, m ∈ L ↔ m ≠ 1 ∧ t.reaches n m)

/-- The walks of `t1` from the root are those of `t` except below the path `P`:
`P` itself leads to `x`, and nothing lies beyond `P`. -/
def ftrie.Grafted {AS : Nat} (t t1 : ftrie AS) (P : List Nat) (x : Nat) : Prop :=
  t1.walk 0 P = some x ∧ (∀ q, P <+: q → q ≠ P → t1.walk 0 q = none) ∧
    ∀ q, ¬ P <+: q → t1.walk 0 q = t.walk 0 q

/-- The edge indices of a string of letters. -/
def ftrie.idxs {AS : Nat} (t : ftrie AS) (s : List Nat) : List Nat := s.map t.idx

/-- The walks of `t1` from the root are those of `t` with the path `P` inserted:
`P` leads to the sentinel, its proper prefixes lead to other nodes, and the walks
along paths that are neither a prefix nor an extension of `P` are unchanged. -/
def ftrie.InsRel {AS : Nat} (t t1 : ftrie AS) (P : List Nat) : Prop :=
  t1.walk 0 P = some 1 ∧ (∀ q, q <+: P → q ≠ P → ∃ m, t1.walk 0 q = some m ∧ m ≠ 1) ∧
    ∀ q, ¬ q <+: P → ¬ P <+: q → t1.walk 0 q = t.walk 0 q

/-- Some prefix of the path `p` leads from the root to the sentinel. -/
def ftrie.has_final {AS : Nat} (t : ftrie AS) (p : List Nat) : Prop :=
  ∃ f, f <+: p ∧ t.walk 0 f = some 1

/-- The path `p` can be walked from the root. -/
def ftrie.live {AS : Nat} (t : ftrie AS) (p : List Nat) : Prop := t.walk 0 p ≠ none

/-- A trie over the alphabet `a` whose arena is in order. -/
structure ftrie.Good {AS : Nat} (a : List Nat) (t : ftrie AS) : Prop where
  inv : t.Inv
  alph : t.alphabet = a
  trans : create_translate AS a = .ok t.translate

/-- The tries obtained from a freshly constructed trie over the alphabet `a` by
calls of `insert` that return. -/
inductive ftrie.ReachableOk {AS : Nat} (a : List Nat) : ftrie AS → Prop
  | fresh (t : ftrie AS) : ftrie.ctor AS a = .ok t → ftrie.ReachableOk a t
  | insert (t t1 : ftrie AS) (s : List Nat) :
      ftrie.ReachableOk a t → t.insert s = .ok t1 → ftrie.ReachableOk a t1

/-- The tries obtained from a freshly constructed trie over the alphabet `a` by
calls of `insert`, whether they return or throw, on strings of characters with
codes below 128: for these `translate[s[i]]` is a read inside the table whether
`char` is signed or not. -/
inductive ftrie.Reachable {AS : Nat} (a : List Nat) : ftrie AS → Prop
  | fresh (t : ftrie AS) : ftrie.ctor AS a = .ok t → ftrie.Reachable a t
  | insert (t : ftrie AS) (s : List Nat) :
      ftrie.Reachable a t → (∀ c ∈ s, c < 128) → ftrie.Reachable a (t.after_insert s)

deriving instance DecidableEq for Except

/-- The freshly constructed trie over `"ACGT"`. -/
def fresh_ACGT : ftrie 4 :=
  ⟨ACGT, create_translate_fill ACGT 0 (List.replicate 256 (-1)), 0,
    [node.ctor 4 .INTERNAL, node.ctor 4 .FINAL]⟩

/-- The trie over `"ACGT"` after `insert("AC")`. -/
def trie_AC : ftrie 4 := fresh_ACGT.after_insert [65, 67]

/-- The calls `insert(s1); ...; insert(sn)` in sequence; an exception ends the
sequence. -/
def ftrie.insert_all {AS : Nat} : ftrie AS → List (List Nat) → Except (Error × ftrie AS) (ftrie AS)
  | t, [] => .ok t
  | t, s :: ss =>
    match t.insert s with
    | .ok t1 => ftrie.insert_all t1 ss
    | .error e => .error e

/-- The walks of `t` are those of a trie holding the strings `D`: a path meets the
sentinel when it has a string of `D` as a prefix, and otherwise can be walked
when it is empty or a prefix of a string of `D`. -/
def ftrie.Holds {AS : Nat} (t : ftrie AS) (D : List (List Nat)) : Prop :=
  (∀ p, t.has_final p ↔ ∃ s ∈ D, t.idxs s <+: p) ∧
    (∀ p, ¬ t.has_final p → (t.live p ↔ p = [] ∨ ∃ s ∈ D, p <+: t.idxs s))

/-- The digits of `n`, least significant first, as character codes. -/
def decimal_rev : Nat → Nat → List Nat
  | 0, _ => []
  | fuel + 1, n => if n < 10 then [48 + n] else (48 + n % 10) :: decimal_rev fuel (n / 10)

/-- The text `os << n` writes for an unsigned integer: its decimal digits. -/
def decimal (n : Nat) : List Nat := (decimal_rev (n + 1) n).reverse

/-- The text that the body of the loop of `dump` writes for one node. -/
def dump_node (AS : Nat) (n : node) : List Nat :=
  decimal n.state.toNat ++
    (List.range AS).flatMap (fun i => 32 :: decimal (n.edges.getD i 0)) ++ [10]

/-- The text that `dump(os)` writes to the stream. -/
def ftrie.dump {AS : Nat} (t : ftrie AS) : List Nat :=
  t.alphabet ++ [10] ++ decimal t.empty_head ++ [10] ++ t.nodes.flatMap (dump_node AS)

/-- An input stream, `std::istream`: the characters not yet read and the state
flags `eofbit` and `failbit`. -/
structure istream where
  buf : List Nat
  eofbit : Bool
  failbit : Bool
deriving DecidableEq

/-- The test `is.good()`. -/
def istream.good (is : istream) : Bool := !is.eofbit && !is.failbit

/-- White space in the classic locale: space, tab, line feed, vertical tab, form
feed, carriage return. -/
def isspace (c : Nat) : Bool := c == 32 || (9 ≤ c && c ≤ 13)

/-- A decimal digit. -/
def isdigit (c : Nat) : Bool := 48 ≤ c && c ≤ 57

/-- The digits at the head of the input, accumulated onto `acc`, and the rest of
the input. -/
def read_digits : List Nat → Nat → Nat × List Nat
  | [], acc => (acc, [])
  | c :: cs, acc => if isdigit c then read_digits cs (acc * 10 + (c - 48)) else (acc, c :: cs)

/-- The extraction `is >> x` of an unsigned integer of unbounded range. A stream
that is not good fails and leaves `x` as it is; so does the end of the input after
the white space; a character that is not a digit fails and sets `x` to 0; the end
of the input after the digits sets `eofbit`. A sign is taken as a character that
is not a digit. -/
def istream.extract (is : istream) (x : Nat) : istream × Nat :=
  if is.good then
    match is.buf.dropWhile isspace with
    | [] => (⟨[], true, true⟩, x)
    | c :: cs =>
      if isdigit c then
        (⟨(read_digits (c :: cs) 0).2, (read_digits (c :: cs) 0).2.isEmpty, false⟩,
          (read_digits (c :: cs) 0).1)
      else (⟨c :: cs, false, true⟩, 0)
  else (⟨is.buf, is.eofbit, true⟩, x)

/-- The extraction `is >> s` for `unsigned s` of 32 bits: as `extract`, but a
value out of range fails and gives the largest value. -/
def istream.extract_unsigned (is : istream) (x : Nat) : istream × Nat :=
  if (is.extract x).2 < 2 ^ 32 then is.extract x
  else (⟨(is.extract x).1.buf, (is.extract x).1.eofbit, true⟩, 2 ^ 32 - 1)

/-- The call `std::getline(is, res)`: the characters up to the first line feed,
which is read and dropped; the end of the input sets `eofbit`, and also `failbit`
when no character was read. -/
def istream.getline (is : istream) : istream × List Nat :=
  if is.good then
    match is.buf.dropWhile (fun c => c != 10) with
    | [] => (⟨[], true, is.buf.isEmpty⟩, is.buf)
    | _ :: rest => (⟨rest, false, false⟩, is.buf.takeWhile (fun c => c != 10))
  else (⟨is.buf, is.eofbit, true⟩, [])

/-- The cast `static_cast<STATE>(s)` for `s ≤ FINAL`. -/
def STATE.cast : Nat → STATE
  | 0 => .EMPTY
  | 1 => .INTERNAL
  | _ => .FINAL

/-- The loop `for(i = 0; i < AS; ++i) is >> n.edges[i]` of the stream
constructor. -/
def read_edges : List Nat → istream → List Nat → istream × List Nat
  | [], is, es => (is, es)
  | i :: rest, is, es =>
    read_edges rest (is.extract (es.getD i 0)).1 (es.set i (is.extract (es.getD i 0)).2)

/-- The loop `for( ; true; ++cur)` of the stream constructor. The local
`unsigned s` is declared in the body of the loop without a value: at the turn
`cur` it starts with the indeterminate value `s cur % 2 ^ 32`, and keeps it when
the extraction fails before it writes. The node `n` is declared before the loop
and is reused from one turn to the next. The fuel bounds the number of turns. -/
def load_loop (AS : Nat) :
    Nat → istream → Nat → (Nat → Nat) → node → List node → Except Error (List node)
  | 0, _, _, _, _, _ => .error .out_of_fuel
  | fuel + 1, is, cur, s, n, nodes =>
    if (is.extract_unsigned (s cur % 2 ^ 32)).2 > STATE.FINAL.toNat then
      .error .invalid_node_state
    else if cur = 0 ∧ STATE.cast (is.extract_unsigned (s cur % 2 ^ 32)).2 ≠ .INTERNAL then
      .error .root_not_internal
    else if cur = 1 ∧ STATE.cast (is.extract_unsigned (s cur % 2 ^ 32)).2 ≠ .FINAL then
      .error .guard_not_final
    else if (read_edges (List.range AS)
        (is.extract_unsigned (s cur % 2 ^ 32)).1 n.edges).1.eofbit then
      .ok nodes
    else if !(read_edges (List.range AS)
        (is.extract_unsigned (s cur % 2 ^ 32)).1 n.edges).1.good then
      .error .incomplete_file
    else
      load_loop AS fuel
        (read_edges (List.range AS) (is.extract_unsigned (s cur % 2 ^ 32)).1 n.edges).1
        (cur + 1) s
        ⟨STATE.cast (is.extract_unsigned (s cur % 2 ^ 32)).2,
          (read_edges (List.range AS) (is.extract_unsigned (s cur % 2 ^ 32)).1 n.edges).2⟩
        (nodes ++ [⟨STATE.cast (is.extract_unsigned (s cur % 2 ^ 32)).2,
          (read_edges (List.range AS) (is.extract_unsigned (s cur % 2 ^ 32)).1 n.edges).2⟩])

/-- The constructor `ftrie(std::istream& is)`; `s cur` gives the indeterminate
value that the local `s` of the loop holds at the start of the turn `cur`. -/
def ftrie.load (AS : Nat) (s : Nat → Nat) (is : istream) : Except Error (ftrie AS) :=
  match ftrie.ctor AS is.getline.2 with
  | .error e => .error e
  | .ok t0 =>
    if !(is.getline.1.extract t0.empty_head).1.good then .error .incomplete_file
    else
      match load_loop AS ((is.getline.1.extract t0.empty_head).1.buf.length + 1)
          (is.getline.1.extract t0.empty_head).1 0 s (node.ctor AS .EMPTY) [] with
      | .error e => .error e
      | .ok nodes => .ok ⟨t0.alphabet, t0.translate, (is.getline.1.extract t0.empty_head).2, nodes⟩

/-- The text `"ACGT\n0\n1 0 0 0 0\n2 0 0 0 0\n1 0 0"`: a dump over `"ACGT"` whose
third node ends after two of its four edges. -/
def truncated_dump : List Nat :=
  [65, 67, 71, 84, 10, 48, 10, 49, 32, 48, 32, 48, 32, 48, 32, 48, 10,
    50, 32, 48, 32, 48, 32, 48, 32, 48, 10, 49, 32, 48, 32, 48]

/-! ## Enumeration and counting -/

theorem take_set_succ (mer : List Nat) (k : Nat) (x : Nat) (h : k < mer.length) :
    (mer.set k x).take (k + 1) = mer.take k ++ [x] := by
  induction mer generalizing k with
  | nil => simp at h
  | cons a l ih =>
    cases k with
    | zero => simp
    | succ k =>
      simp only [List.set_cons_succ, List.take_succ_cons, List.cons_append]
      rw [ih k (by simpa using h)]

theorem take_set_same (mer : List Nat) (k : Nat) (x : Nat) :
    (mer.set k x).take k = mer.take k := by
  induction mer generalizing k with
  | nil => simp
  | cons a l ih =>
    cases k with
    | zero => simp
    | succ k => simp [ih k]

theorem all_mers_from_eq {AS : Nat} (t : ftrie AS) (depth : Nat) :
    ∀ (start : Nat) (mers : List (List Nat)) (mer : List Nat), depth ≤ mer.length →
      ∃ mer2, t.all_mers_from depth start (mers, mer) =
          (mers ++ (t.paths depth start).map
            (fun w => mer.take (mer.length - depth) ++ t.letters w), mer2) ∧
        mer2.length = mer.length ∧
        mer2.take (mer.length - depth) = mer.take (mer.length - depth) := by
  induction depth with
  | zero =>
    intro start mers mer _
    refine ⟨mer, ?_, rfl, rfl⟩
    simp [ftrie.all_mers_from, ftrie.paths, ftrie.letters]
  | succ d ih =>
    intro start mers mer hlen
    -- a generic statement about the two loops
    have loop : ∀ (c : Nat → Prop) [DecidablePred c] (g : Nat → Nat) (is : List Nat)
        (mers : List (List Nat)) (mer1 : List Nat),
        mer1.length = mer.length →
        mer1.take (mer.length - (d + 1)) = mer.take (mer.length - (d + 1)) →
        ∃ mer2, is.foldl (fun st i =>
            if c i then t.all_mers_from d (g i)
                (st.1, st.2.set (st.2.length - (d + 1)) (t.alphabet.getD i 0))
            else st) (mers, mer1) =
          (mers ++ (is.flatMap (fun i =>
            if c i then (t.paths d (g i)).map (fun w => i :: w) else [])).map
            (fun w => mer.take (mer.length - (d + 1)) ++ t.letters w), mer2) ∧
          mer2.length = mer.length ∧
          mer2.take (mer.length - (d + 1)) = mer.take (mer.length - (d + 1)) := by
      intro c _ g is
      induction is with
      | nil => intro mers mer1 h1 h2; exact ⟨mer1, by simp, h1, h2⟩
      | cons i is ihs =>
        intro mers mer1 h1 h2
        simp only [List.foldl_cons, List.flatMap_cons, List.map_append]
        by_cases hg : c i
        · simp only [hg, if_true]
          have hk : mer.length - (d + 1) < mer1.length := by omega
          obtain ⟨mer3, e3, l3, t3⟩ := ih (g i) mers
            (mer1.set (mer1.length - (d + 1)) (t.alphabet.getD i 0)) (by simp; omega)
          rw [e3]
          simp only [List.length_set] at l3 t3 ⊢
          have hd : mer1.length - d = (mer.length - (d + 1)) + 1 := by omega
          have t3b : mer3.take (mer.length - (d + 1)) = mer.take (mer.length - (d + 1)) := by
            have := congrArg (List.take (mer.length - (d + 1))) t3
            rw [List.take_take, List.take_take, h1] at this
            rw [min_eq_left (by omega)] at this
            rw [this, take_set_same, ← h1]
            rw [h1]; exact h2
          obtain ⟨mer2, e, l2, t2⟩ := ihs _ mer3 (by omega) t3b
          refine ⟨mer2, ?_, l2, t2⟩
          rw [e]
          congr 1
          rw [List.append_assoc]
          congr 1
          congr 1
          rw [List.map_map]
          apply List.map_congr_left
          intro w _
          simp only [Function.comp, ftrie.letters, List.map_cons]
          rw [hd, h1, take_set_succ _ _ _ (by omega), ← h1, h1, h2]
          simp
        · simp only [hg, if_false]
          obtain ⟨mer2, e, l2, t2⟩ := ihs mers mer1 h1 h2
          exact ⟨mer2, by simpa using e, l2, t2⟩
    by_cases hf : (t.node_at start).state = .FINAL
    · obtain ⟨mer2, e, l2, t2⟩ := loop (fun _ => True) (fun _ => start) (List.range AS)
        mers mer rfl rfl
      refine ⟨mer2, ?_, l2, t2⟩
      simp only [ftrie.all_mers_from, ftrie.paths, hf, if_true]
      simpa using e
    · obtain ⟨mer2, e, l2, t2⟩ := loop (fun i => t.edge start i ≠ 0) (fun i => t.edge start i)
        (List.range AS) mers mer rfl rfl
      refine ⟨mer2, ?_, l2, t2⟩
      simp only [ftrie.all_mers_from, ftrie.paths, hf, if_false]
      exact e

theorem all_mers_eq_paths {AS : Nat} (t : ftrie AS) (depth : Nat) :
    t.all_mers depth = (t.paths depth root_offset).map t.letters := by
  obtain ⟨mer2, e, _, _⟩ := all_mers_from_eq t depth root_offset [] (List.replicate depth 0)
    (by simp)
  simp only [ftrie.all_mers, e]
  simp

theorem paths_mem {AS : Nat} (t : ftrie AS) (depth : Nat) :
    ∀ (start : Nat) (w : List Nat), w ∈ t.paths depth start →
      w.length = depth ∧ ∀ i ∈ w, i < AS := by
  induction depth with
  | zero => intro start w h; simp [ftrie.paths] at h; simp [h]
  | succ d ih =>
    intro start w h
    simp only [ftrie.paths] at h
    split at h
    · simp only [List.mem_flatMap, List.mem_range, List.mem_map] at h
      obtain ⟨i, hi, u, hu, rfl⟩ := h
      obtain ⟨h1, h2⟩ := ih start u hu
      simp only [List.length_cons, h1, List.mem_cons, true_and]
      rintro j (rfl | hj)
      · exact hi
      · exact h2 j hj
    · simp only [List.mem_flatMap, List.mem_range] at h
      obtain ⟨i, hi, hw⟩ := h
      split at hw
      · simp only [List.mem_map] at hw
        obtain ⟨u, hu, rfl⟩ := hw
        obtain ⟨h1, h2⟩ := ih _ u hu
        simp only [List.length_cons, h1, List.mem_cons, true_and]
        rintro j (rfl | hj)
        · exact hi
        · exact h2 j hj
      · simp at hw

theorem paths_sorted {AS : Nat} (t : ftrie AS) (depth : Nat) :
    ∀ (start : Nat), (t.paths depth start).Pairwise (List.Lex (· < ·)) := by
  induction depth with
  | zero => intro start; simp [ftrie.paths]
  | succ d ih =>
    intro start
    have key : ∀ (f : Nat → List (List Nat)),
        (∀ i, (f i).Pairwise (List.Lex (· < ·))) →
        ((List.range AS).flatMap (fun i => (f i).map (fun w => i :: w))).Pairwise
          (List.Lex (· < ·)) := by
      intro f hf
      rw [List.pairwise_flatMap]
      constructor
      · intro i _
        rw [List.pairwise_map]
        exact (hf i).imp (fun h => List.Lex.cons h)
      · refine (List.pairwise_lt_range AS).imp ?_
        intro i j hij x hx y hy
        simp only [List.mem_map] at hx hy
        obtain ⟨u, _, rfl⟩ := hx
        obtain ⟨v, _, rfl⟩ := hy
        exact List.Lex.rel hij
    simp only [ftrie.paths]
    split
    · exact key (fun _ => t.paths d start) (fun _ => ih start)
    · have := key (fun i => if t.edge start i ≠ 0 then t.paths d (t.edge start i) else [])
        (fun i => by by_cases h : t.edge start i = 0 <;> simp [h, ih])
      convert this using 2
      funext i
      by_cases h : t.edge start i = 0 <;> simp [h]

theorem foldl_add_eq_sum (c : Nat → Prop) [DecidablePred c] (f : Nat → Nat) (is : List Nat)
    (r : Nat) :
    is.foldl (fun res i => if c i then res + f i else res) r =
      r + (is.map (fun i => if c i then f i else 0)).sum := by
  induction is generalizing r with
  | nil => simp
  | cons i is ih =>
    simp only [List.foldl_cons, List.map_cons, List.sum_cons]
    rw [ih]
    split <;> omega

theorem length_flatMap_eq_sum {α β : Type} (l : List α) (f : α → List β) :
    (l.flatMap f).length = (l.map (fun a => (f a).length)).sum := by
  induction l with
  | nil => simp
  | cons a l ih => simp [ih]

theorem size_from_eq_length {AS : Nat} (t : ftrie AS) (hA : t.alphabet.length = AS)
    (depth : Nat) :
    ∀ (start : Nat), t.size_from depth start = (t.paths depth start).length := by
  induction depth with
  | zero => intro start; simp [ftrie.size_from, ftrie.paths]
  | succ d ih =>
    intro start
    simp only [ftrie.size_from, ftrie.paths]
    split
    · rename_i hf
      have h1 : (t.paths d start).length = AS ^ d := by
        rw [← ih start]
        cases d with
        | zero => simp [ftrie.size_from]
        | succ k => simp [ftrie.size_from, hf, hA]
      rw [length_flatMap_eq_sum]
      simp [h1, hA, pow_succ, Nat.mul_comm]
    · rw [foldl_add_eq_sum (fun i => t.edge start i ≠ 0), length_flatMap_eq_sum, Nat.zero_add]
      congr 1
      apply List.map_congr_left
      intro i _
      split <;> simp [ih]

theorem lex_lt_irrefl (l : List Nat) : ¬ List.Lex (· < ·) l l := by
  induction l with
  | nil => intro h; cases h
  | cons a l ih =>
    intro h
    cases h with
    | cons h => exact ih h
    | rel h => exact Nat.lt_irrefl _ h

theorem letters_indexOf {AS : Nat} (t : ftrie AS) (hlen : t.alphabet.length = AS)
    (hnd : t.alphabet.Nodup) (w : List Nat) (hw : ∀ i ∈ w, i < AS) :
    (t.letters w).map (fun c => List.indexOf c t.alphabet) = w := by
  induction w with
  | nil => rfl
  | cons i w ih =>
    have hi : i < t.alphabet.length := by rw [hlen]; exact hw i (by simp)
    simp only [ftrie.letters, List.map_cons, List.map_map] at ih ⊢
    rw [ih (fun j hj => hw j (by simp [hj]))]
    congr 1
    rw [List.getD_eq_getElem _ _ hi]
    exact List.indexOf_getElem hnd i hi

/-- C4: on a trie whose alphabet consists of `AS` distinct letters, `all_mers(d)`
is strictly increasing in the lexicographic order given by the positions of the
letters in the alphabet; in particular it has no duplicates. -/
theorem C4_all_mers_strictly_increasing {AS : Nat} (t : ftrie AS)
    (hlen : t.alphabet.length = AS) (hnd : t.alphabet.Nodup) (d : Nat) :
    (t.all_mers d).Pairwise (lex_lt t.alphabet) ∧ (t.all_mers d).Nodup := by
  have h1 : (t.all_mers d).Pairwise (lex_lt t.alphabet) := by
    rw [all_mers_eq_paths, List.pairwise_map]
    refine (paths_sorted t d root_offset).imp_of_mem ?_
    intro u v hu hv huv
    unfold lex_lt
    rw [letters_indexOf t hlen hnd u (paths_mem t d _ u hu).2,
      letters_indexOf t hlen hnd v (paths_mem t d _ v hv).2]
    exact huv
  refine ⟨h1, h1.imp ?_⟩
  intro u v huv heq
  subst heq
  exact lex_lt_irrefl _ huv

/-- C5: `size(d)`, computed exactly, is the number of strings that `all_mers(d)`
produces, and `size(0)` is 1. -/
theorem C5_size_eq_length_all_mers {AS : Nat} (t : ftrie AS)
    (hlen : t.alphabet.length = AS) (d : Nat) :
    t.size d = (t.all_mers d).length ∧ t.size 0 = 1 := by
  constructor
  · rw [all_mers_eq_paths, List.length_map]
    exact size_from_eq_length t hlen d root_offset
  · simp [ftrie.size, ftrie.size_from]

/-- C4 at the trie holding "AC" and "GT", depth 3. -/
theorem C4_witness :
    (demo_trie.alphabet.length = 4 ∧ demo_trie.alphabet.Nodup) ∧
      ((demo_trie.all_mers 3).Pairwise (lex_lt demo_trie.alphabet) ∧
        (demo_trie.all_mers 3).Nodup) :=
  ⟨⟨by decide, by decide⟩, C4_all_mers_strictly_increasing demo_trie (by decide) (by decide) 3⟩

/-- C5 at the trie holding "AC" and "GT", depth 3. -/
theorem C5_witness :
    demo_trie.alphabet.length = 4 ∧
      (demo_trie.size 3 = (demo_trie.all_mers 3).length ∧ demo_trie.size 0 = 1) :=
  ⟨by decide, C5_size_eq_length_all_mers demo_trie (by decide) 3⟩

theorem fill_not_mem (a : List Nat) (i : Nat) (res : List Int) (c : Nat) (d : Int)
    (h : c ∉ a) : (create_translate_fill a i res).getD c d = res.getD c d := by
  induction a generalizing i res with
  | nil => rfl
  | cons x xs ih =>
    simp only [List.mem_cons, not_or] at h
    simp only [create_translate_fill]
    rw [ih _ _ h.2]
    simp only [List.getD_eq_getElem?_getD]
    rw [List.getElem?_set_ne (Ne.symm h.1)]

theorem fill_mem (a : List Nat) (i : Nat) (res : List Int) (c : Nat) (d : Int)
    (h : c ∈ a) (hc : c < res.length) :
    ∃ k, i ≤ k ∧ k < i + a.length ∧ a.getD (k - i) 0 = c ∧
      (create_translate_fill a i res).getD c d = (k : Int) := by
  induction a generalizing i res with
  | nil => simp at h
  | cons x xs ih =>
    simp only [create_translate_fill]
    by_cases hx : c ∈ xs
    · obtain ⟨k, h1, h2, h3, h4⟩ := ih (i + 1) (res.set x (i : Int)) hx (by simpa using hc)
      refine ⟨k, by omega, by simp; omega, ?_, h4⟩
      have : k - i = (k - (i + 1)) + 1 := by omega
      rw [this]
      simpa using h3
    · have hcx : c = x := by
        rcases List.mem_cons.1 h with h | h
        · exact h
        · exact absurd h hx
      subst hcx
      refine ⟨i, le_refl _, by simp, by simp, ?_⟩
      rw [fill_not_mem _ _ _ _ _ hx]
      simp only [List.getD_eq_getElem?_getD]
      rw [List.getElem?_set_self hc]
      rfl

theorem replicate_getD_neg (n c : Nat) : (List.replicate n (-1 : Int)).getD c (-1) = -1 := by
  induction n generalizing c with
  | zero => rfl
  | succ n ih =>
    cases c with
    | zero => rfl
    | succ c => simp [List.replicate_succ]

theorem tr_mem_fill {AS : Nat} (t : ftrie AS) (a : List Nat)
    (htr : t.translate = create_translate_fill a 0 (List.replicate 256 (-1)))
    (c : Nat) (h : c ∈ a) (hc : c < 256) :
    0 ≤ t.tr c ∧ t.idx c < a.length ∧ a.getD (t.idx c) 0 = c := by
  obtain ⟨k, _, h2, h3, h4⟩ := fill_mem a 0 (List.replicate 256 (-1)) c (-1) h
    (by rw [List.length_replicate]; exact hc)
  simp only [ftrie.idx, ftrie.tr, htr, h4]
  simp only [Nat.zero_add, Nat.sub_zero] at h2 h3
  exact ⟨Int.ofNat_nonneg k, by simpa using h2, by simpa using h3⟩

theorem tr_not_mem_fill {AS : Nat} (t : ftrie AS) (a : List Nat)
    (htr : t.translate = create_translate_fill a 0 (List.replicate 256 (-1)))
    (c : Nat) (h : c ∉ a) : t.tr c < 0 := by
  simp only [ftrie.tr, htr]
  rw [fill_not_mem _ _ _ _ _ h, replicate_getD_neg]
  decide

theorem walk_append {AS : Nat} (t : ftrie AS) (p q : List Nat) :
    ∀ c, t.walk c (p ++ q) = (t.walk c p).bind (fun m => t.walk m q) := by
  induction p with
  | nil => intro c; rfl
  | cons v p ih =>
    intro c
    simp only [List.cons_append, ftrie.walk]
    split
    · rfl
    · exact ih _

theorem walk_snoc {AS : Nat} (t : ftrie AS) (p : List Nat) (v c : Nat) :
    t.walk c (p ++ [v]) =
      (t.walk c p).bind (fun m => if t.edge m v = 0 then none else some (t.edge m v)) := by
  rw [walk_append]
  rfl

theorem walk_ne_zero {AS : Nat} (t : ftrie AS) (p : List Nat) :
    ∀ c n, t.walk c p = some n → p ≠ [] → n ≠ 0 := by
  induction p with
  | nil => intro c n _ h; exact absurd rfl h
  | cons v p ih =>
    intro c n h _
    simp only [ftrie.walk] at h
    split at h
    · cases h
    · rename_i he
      cases p with
      | nil => simp only [ftrie.walk, Option.some.injEq] at h; rw [← h]; exact he
      | cons w p => exact ih _ n h (by simp)

theorem walk_congr {AS : Nat} (t t1 : ftrie AS) (p : List Nat) :
    ∀ c, (∀ q m, q <+: p → q ≠ p → t.walk c q = some m →
        (t1.node_at m).edges = (t.node_at m).edges) →
      t1.walk c p = t.walk c p := by
  induction p with
  | nil => intro c _; rfl
  | cons v p ih =>
    intro c h
    have h0 : t1.edge c v = t.edge c v := by
      simp only [ftrie.edge]
      rw [h [] c (by simp) (by simp) rfl]
    simp only [ftrie.walk, h0]
    split
    · rfl
    · rename_i he
      apply ih
      intro q m hq hne hw
      apply h (v :: q) m
      · exact List.cons_prefix_cons.2 ⟨rfl, hq⟩
      · simpa using hne
      · simp only [ftrie.walk, he, if_false]
        exact hw

theorem create_translate_ok (AS : Nat) (a : List Nat) (tr : List Int)
    (h : create_translate AS a = .ok tr) :
    a.length = AS ∧ tr = create_translate_fill a 0 (List.replicate 256 (-1)) := by
  unfold create_translate at h
  split at h
  · cases h
  · rename_i hlen
    cases h
    exact ⟨not_not.1 hlen, rfl⟩

theorem tr_mem {AS : Nat} (t : ftrie AS) (a : List Nat)
    (htr : create_translate AS a = .ok t.translate)
    (c : Nat) (h : c ∈ a) (hc : c < 256) :
    0 ≤ t.tr c ∧ t.idx c < AS ∧ a.getD (t.idx c) 0 = c := by
  obtain ⟨hlen, h2⟩ := create_translate_ok AS a _ htr
  have := tr_mem_fill t a h2 c h hc
  rw [hlen] at this
  exact this

theorem tr_not_mem {AS : Nat} (t : ftrie AS) (a : List Nat)
    (htr : create_translate AS a = .ok t.translate)
    (c : Nat) (h : c ∉ a) : t.tr c < 0 :=
  tr_not_mem_fill t a (create_translate_ok AS a _ htr).2 c h

theorem getD_set_list {α : Type} (l : List α) (i j : Nat) (x d : α) :
    (l.set i x).getD j d = if i = j ∧ i < l.length then x else l.getD j d := by
  simp only [List.getD_eq_getElem?_getD, List.getElem?_set]
  by_cases h : i = j
  · subst h
    by_cases h2 : i < l.length
    · simp [h2]
    · simp [h2, List.getElem?_eq_none (Nat.le_of_not_lt h2)]
  · simp [h]

theorem node_at_mk_set {AS : Nat} (t : ftrie AS) (a : List Nat) (tr : List Int) (h : Nat)
    (i j : Nat) (x : node) :
    (ftrie.mk a tr h (t.nodes.set i x) : ftrie AS).node_at j =
      if i = j ∧ i < t.nodes.length then x else t.node_at j := by
  simp only [ftrie.node_at]
  exact getD_set_list _ _ _ _ _

theorem node_at_set_edge {AS : Nat} (t : ftrie AS) (i v x j : Nat) :
    (t.set_edge i v x).node_at j =
      if i = j ∧ i < t.nodes.length then ⟨(t.node_at i).state, (t.node_at i).edges.set v x⟩
      else t.node_at j := by
  simp only [ftrie.set_edge]
  exact node_at_mk_set t _ _ _ _ _ _

theorem node_at_set_edge_ne {AS : Nat} (t : ftrie AS) (i v x j : Nat) (h : j ≠ i) :
    (t.set_edge i v x).node_at j = t.node_at j := by
  rw [node_at_set_edge]
  simp [Ne.symm h]

theorem length_set_edge {AS : Nat} (t : ftrie AS) (i v x : Nat) :
    (t.set_edge i v x).nodes.length = t.nodes.length := by
  simp [ftrie.set_edge]

theorem node_at_ge {AS : Nat} (t : ftrie AS) (i : Nat) (h : t.nodes.length ≤ i) :
    t.node_at i = node.ctor AS .EMPTY := by
  simp only [ftrie.node_at, List.getD_eq_getElem?_getD, List.getElem?_eq_none h]
  rfl

theorem edge_set_edge {AS : Nat} (t : ftrie AS) (i v x j w : Nat) :
    (t.set_edge i v x).edge j w =
      if i = j ∧ v = w ∧ i < t.nodes.length ∧ v < (t.node_at i).edges.length then x
      else t.edge j w := by
  simp only [ftrie.edge, node_at_set_edge]
  by_cases h : i = j ∧ i < t.nodes.length
  · rw [if_pos h]
    obtain ⟨rfl, h2⟩ := h
    simp only [getD_set_list, true_and, h2]
  · rw [if_neg h]
    have : ¬ (i = j ∧ v = w ∧ i < t.nodes.length ∧ v < (t.node_at i).edges.length) := by
      intro h3; exact h ⟨h3.1, h3.2.2.1⟩
    rw [if_neg this]

theorem edge_ge {AS : Nat} (t : ftrie AS) (i v : Nat) (h : (t.node_at i).edges.length ≤ v) :
    t.edge i v = 0 := by
  simp only [ftrie.edge, List.getD_eq_getElem?_getD, List.getElem?_eq_none h]
  rfl

theorem edge_ctor {AS : Nat} (t : ftrie AS) (i v : Nat) (s : STATE)
    (h : t.node_at i = node.ctor AS s) : t.edge i v = 0 := by
  simp only [ftrie.edge, h, node.ctor, List.getD_eq_getElem?_getD, List.getElem?_replicate]
  split <;> rfl

theorem walk_nil {AS : Nat} (t : ftrie AS) (c : Nat) : t.walk c [] = some c := rfl

theorem walk_cons {AS : Nat} (t : ftrie AS) (c v : Nat) (p : List Nat) :
    t.walk c (v :: p) = if t.edge c v = 0 then none else t.walk (t.edge c v) p := rfl

theorem walk_leaf {AS : Nat} (t : ftrie AS) (c : Nat) (s : STATE)
    (h : t.node_at c = node.ctor AS s) (p : List Nat) (n : Nat)
    (hw : t.walk c p = some n) : p = [] ∧ n = c := by
  cases p with
  | nil => simp only [walk_nil, Option.some.injEq] at hw; exact ⟨rfl, hw.symm⟩
  | cons v p => simp [walk_cons, edge_ctor t c v s h] at hw

theorem walk_prefix {AS : Nat} (t : ftrie AS) (c : Nat) (p q : List Nat) (n : Nat)
    (hw : t.walk c (p ++ q) = some n) :
    ∃ m, t.walk c p = some m ∧ t.walk m q = some n := by
  rw [walk_append] at hw
  cases h : t.walk c p with
  | none => simp [h] at hw
  | some m => exact ⟨m, rfl, by simpa [h] using hw⟩

theorem fresh_inv (AS : Nat) (a : List Nat) (t : ftrie AS) (h : ftrie.ctor AS a = .ok t) :
    t.Inv ∧ t.alphabet = a ∧ create_translate AS a = .ok t.translate ∧ t.nodes.length = 2 ∧
      ∀ p, t.walk 0 p = if p = [] then some 0 else none := by
  unfold ftrie.ctor at h
  cases hc : create_translate AS a with
  | error e => rw [hc] at h; cases h
  | ok tr =>
    rw [hc] at h
    cases h
    have hw : ∀ p, (ftrie.mk a tr 0
        [node.ctor AS .INTERNAL, node.ctor AS .FINAL] : ftrie AS).walk 0 p =
        if p = [] then some 0 else none := by
      intro p
      cases p with
      | nil => rfl
      | cons v p =>
        rw [walk_cons, edge_ctor (ftrie.mk a tr 0
          [node.ctor AS .INTERNAL, node.ctor AS .FINAL] : ftrie AS) 0 v .INTERNAL rfl]
        simp
    refine ⟨⟨by simp, rfl, rfl, ?_, ?_, ?_, ⟨[], rfl, List.nodup_nil, by simp⟩,
      ⟨[], rfl, fun n hn h1 _ => ⟨[], ?_⟩⟩⟩, rfl, rfl, rfl, hw⟩
    · intro i hi
      simp only [List.length_cons, List.length_nil] at hi
      have : i = 0 ∨ i = 1 := by omega
      rcases this with rfl | rfl <;> simp [ftrie.node_at, node.ctor]
    · intro p n hp
      rw [hw] at hp
      split at hp
      · cases hp; exact ⟨by simp, fun _ => rfl⟩
      · cases hp
    · intro p q n hp hq _
      rw [hw] at hp hq
      split at hp
      · split at hq
        · simp_all
        · cases hq
      · cases hp
    · simp only [List.length_cons, List.length_nil] at hn
      have : n = 0 := by omega
      rw [this]
      rfl

theorem walk_final_cons {AS : Nat} (t : ftrie AS) (h : t.node_at 1 = node.ctor AS .FINAL)
    (v : Nat) (p : List Nat) : t.walk 1 (v :: p) = none := by
  rw [walk_cons, edge_ctor t 1 v .FINAL h]
  simp

theorem walk_take {AS : Nat} (t : ftrie AS) (c : Nat) (p : List Nat) (n : Nat)
    (hw : t.walk c p = some n) (k : Nat) :
    ∃ m, t.walk c (p.take k) = some m ∧ t.walk m (p.drop k) = some n := by
  apply walk_prefix
  rw [List.take_append_drop]
  exact hw

/-- Every walk from the root is shorter than the arena. -/
theorem ftrie.Inv.walk_length_lt {AS : Nat} {t : ftrie AS} (hI : t.Inv) (p : List Nat) (n : Nat)
    (hw : t.walk 0 p = some n) : p.length < t.nodes.length := by
  have hinj : Set.InjOn (fun k => (t.walk 0 (p.take k)).getD 0)
      (Finset.range (p.length + 1) : Set Nat) := by
    intro j hj k hk hjk
    simp only [Finset.coe_range, Set.mem_Iio] at hj hk
    obtain ⟨mj, hmj, hdj⟩ := walk_take t 0 p n hw j
    obtain ⟨mk, hmk, hdk⟩ := walk_take t 0 p n hw k
    simp only [hmj, hmk, Option.getD_some] at hjk
    subst hjk
    by_cases h1 : mj = 1
    · subst h1
      have hj2 : ¬ j < p.length := by
        intro hlt
        obtain ⟨v, r, hvr⟩ : ∃ v r, p.drop j = v :: r := by
          cases hd : p.drop j with
          | nil => simp at hd; omega
          | cons v r => exact ⟨v, r, rfl⟩
        rw [hvr, walk_final_cons t hI.final] at hdj
        cases hdj
      have hk2 : ¬ k < p.length := by
        intro hlt
        obtain ⟨v, r, hvr⟩ : ∃ v r, p.drop k = v :: r := by
          cases hd : p.drop k with
          | nil => simp at hd; omega
          | cons v r => exact ⟨v, r, rfl⟩
        rw [hvr, walk_final_cons t hI.final] at hdk
        cases hdk
      omega
    · have := hI.inj _ _ _ hmj hmk h1
      have hl := congrArg List.length this
      simp only [List.length_take] at hl
      omega
  have hmaps : ∀ k ∈ Finset.range (p.length + 1),
      (fun k => (t.walk 0 (p.take k)).getD 0) k ∈ Finset.range t.nodes.length := by
    intro k _
    obtain ⟨mk, hmk, _⟩ := walk_take t 0 p n hw k
    simp only [hmk, Option.getD_some, Finset.mem_range]
    exact (hI.reach _ _ hmk).1
  have := Finset.card_le_card_of_injOn _ hmaps hinj
  simp only [Finset.card_range] at this
  omega

theorem reaches_refl {AS : Nat} (t : ftrie AS) (n : Nat) : t.reaches n n := ⟨[], rfl⟩

theorem reaches_edge {AS : Nat} (t : ftrie AS) (n i m : Nat) (he : t.edge n i ≠ 0)
    (h : t.reaches (t.edge n i) m) : t.reaches n m := by
  obtain ⟨p, hp⟩ := h
  exact ⟨i :: p, by rw [walk_cons, if_neg he]; exact hp⟩

theorem walk_cons_of_ne {AS : Nat} (t : ftrie AS) (n i : Nat) (p : List Nat)
    (he : t.edge n i ≠ 0) : t.walk n (i :: p) = t.walk (t.edge n i) p := by
  rw [walk_cons, if_neg he]

theorem reaches_cases {AS : Nat} (t : ftrie AS) (n m : Nat) (h : t.reaches n m) :
    m = n ∨ ∃ i, t.edge n i ≠ 0 ∧ t.reaches (t.edge n i) m := by
  obtain ⟨p, hp⟩ := h
  cases p with
  | nil => left; simpa [walk_nil] using hp.symm
  | cons i p =>
    right
    rw [walk_cons] at hp
    split at hp
    · cases hp
    · rename_i he
      exact ⟨i, he, p, hp⟩

theorem seg_append {AS : Nat} (t : ftrie AS) (L1 L2 : List Nat) (e1 e2 : Nat) :
    ∀ h, t.seg h L1 e1 → t.seg e1 L2 e2 → t.seg h (L1 ++ L2) e2 := by
  induction L1 with
  | nil => intro h h1 h2; simp only [ftrie.seg] at h1; subst h1; exact h2
  | cons f L1 ih =>
    intro h h1 h2
    simp only [ftrie.seg, List.cons_append] at h1 ⊢
    exact ⟨h1.1, h1.2.1, ih _ h1.2.2 h2⟩

theorem seg_congr {AS : Nat} (t t1 : ftrie AS) (L : List Nat) (e : Nat)
    (hs : ∀ m ∈ L, t1.edge m 0 = t.edge m 0) :
    ∀ h, t.seg h L e → t1.seg h L e := by
  induction L with
  | nil => intro h h1; exact h1
  | cons f L ih =>
    intro h h1
    simp only [ftrie.seg] at h1 ⊢
    refine ⟨h1.1, h1.2.1, ?_⟩
    rw [hs f (by simp)]
    exact ih (fun m hm => hs m (by simp [hm])) _ h1.2.2

/-- Walks agree in two tries that agree on every node reached. -/
theorem walk_same {AS : Nat} (t t1 : ftrie AS) (c : Nat)
    (h : ∀ m, t.reaches c m → t1.node_at m = t.node_at m) (p : List Nat) :
    t1.walk c p = t.walk c p := by
  apply walk_congr
  intro q m _ _ hw
  rw [h m ⟨q, hw⟩]

theorem ftrie.SubOK.child {AS : Nat} {t : ftrie AS} {n fuel : Nat} (h : t.SubOK n (fuel + 1))
    (i : Nat) (he : t.edge n i ≠ 0) : t.SubOK (t.edge n i) fuel := by
  have hw : ∀ p, t.walk (t.edge n i) p = t.walk n (i :: p) := fun p =>
    (walk_cons_of_ne t n i p he).symm
  refine ⟨?_, ?_, ?_, ?_, ?_⟩
  · intro p m hp; rw [hw] at hp; exact h.bound _ _ hp
  · intro p m hp; rw [hw] at hp; exact h.state _ _ hp
  · intro p m hp; rw [hw] at hp; exact h.elen _ _ hp
  · intro p m hp; rw [hw] at hp; have := h.fuel _ _ hp; simp at this; omega
  · intro p q m hp hq hm
    rw [hw] at hp hq
    have := h.inj _ _ _ hp hq hm
    simpa using this

theorem ftrie.SubOK.not_back {AS : Nat} {t : ftrie AS} {n fuel : Nat} (h : t.SubOK n fuel)
    (hn : n ≠ 1) (i : Nat) (he : t.edge n i ≠ 0) : ¬ t.reaches (t.edge n i) n := by
  rintro ⟨p, hp⟩
  rw [← walk_cons_of_ne t n i p he] at hp
  have := h.inj _ _ _ hp (walk_nil t n) hn
  cases this

theorem ftrie.SubOK.disjoint {AS : Nat} {t : ftrie AS} {n fuel : Nat} (h : t.SubOK n fuel)
    (i j : Nat) (hij : i ≠ j) (hi : t.edge n i ≠ 0) (hj : t.edge n j ≠ 0) (m : Nat)
    (hm : m ≠ 1) (h1 : t.reaches (t.edge n i) m) : ¬ t.reaches (t.edge n j) m := by
  rintro ⟨q, hq⟩
  obtain ⟨p, hp⟩ := h1
  rw [← walk_cons_of_ne t n i p hi] at hp
  rw [← walk_cons_of_ne t n j q hj] at hq
  have := h.inj _ _ _ hp hq hm
  simp only [List.cons.injEq] at this
  exact hij this.1

theorem ftrie.SubOK.transfer {AS : Nat} {t t1 : ftrie AS} {c fuel : Nat} (h : t.SubOK c fuel)
    (hlen : t1.nodes.length = t.nodes.length)
    (hs : ∀ m, t.reaches c m → t1.node_at m = t.node_at m) : t1.SubOK c fuel := by
  have hw := walk_same t t1 c hs
  refine ⟨?_, ?_, ?_, ?_, ?_⟩
  · intro p m hp; rw [hw] at hp; rw [hlen]; exact h.bound _ _ hp
  · intro p m hp; rw [hw] at hp; rw [hs m ⟨p, hp⟩]; exact h.state _ _ hp
  · intro p m hp; rw [hw] at hp; rw [hs m ⟨p, hp⟩]; exact h.elen _ _ hp
  · intro p m hp; rw [hw] at hp; exact h.fuel _ _ hp
  · intro p q m hp hq; rw [hw] at hp hq; exact h.inj _ _ _ hp hq

theorem edge_eq_of_node_eq {AS : Nat} (t t1 : ftrie AS) (m : Nat)
    (h : t1.node_at m = t.node_at m) (v : Nat) : t1.edge m v = t.edge m v := by
  simp only [ftrie.edge, h]

theorem reaches_same {AS : Nat} (t t1 : ftrie AS) (c : Nat)
    (h : ∀ m, t.reaches c m → t1.node_at m = t.node_at m) (m : Nat) :
    t1.reaches c m ↔ t.reaches c m := by
  constructor
  · rintro ⟨p, hp⟩; exact ⟨p, by rw [← walk_same t t1 c h]; exact hp⟩
  · rintro ⟨p, hp⟩; exact ⟨p, by rw [walk_same t t1 c h]; exact hp⟩

theorem delete_edges_spec {AS : Nat} (fuel : Nat) (IH : DelSpec AS fuel) (n : Nat)
    (hAS : 0 < AS) (hn1 : n ≠ 1) :
    ∀ (is : List Nat) (t : ftrie AS), is.Nodup → 1 < t.nodes.length →
      t.node_at 1 = node.ctor AS .FINAL →
      (∀ i ∈ is, t.edge n i ≠ 0 →
        t.SubOK (t.edge n i) fuel ∧ ¬ t.reaches (t.edge n i) n) →
      (∀ i ∈ is, ∀ j ∈ is, i ≠ j → t.edge n i ≠ 0 → t.edge n j ≠ 0 →
        ∀ m, m ≠ 1 → t.reaches (t.edge n i) m → ¬ t.reaches (t.edge n j) m) →
      ∃ t1 L, delete_edges (ftrie.delete_subtree fuel) n is t = .ok t1 ∧ t.Freed t1 L ∧
        (∀ m, m ≠ n → m ∉ L → t1.node_at m = t.node_at m) ∧
        (∀ m, m ∈ L ↔ m ≠ 1 ∧ ∃ i ∈ is, t.edge n i ≠ 0 ∧ t.reaches (t.edge n i) m) := by
  intro is
  induction is with
  | nil =>
    intro t _ _ _ _ _
    exact ⟨t, [], rfl, ⟨rfl, rfl, rfl, rfl, List.nodup_nil, by simp⟩, by simp, by simp⟩
  | cons i is ih =>
    intro t hnd hsz hfin hsub hdis
    have hnd2 := List.nodup_cons.1 hnd
    have key : ∀ (t1 : ftrie AS) (L1 : List Nat), t.Freed t1 L1 →
        (∀ m, m ∉ L1 → t1.node_at m = t.node_at m) →
        (∀ m, m ∈ L1 ↔ m ≠ 1 ∧ t.edge n i ≠ 0 ∧ t.reaches (t.edge n i) m) →
        ∃ t2 L, delete_edges (ftrie.delete_subtree fuel) n is (t1.set_edge n i 0) = .ok t2 ∧
          t.Freed t2 L ∧
          (∀ m, m ≠ n → m ∉ L → t2.node_at m = t.node_at m) ∧
          (∀ m, m ∈ L ↔ m ≠ 1 ∧ ∃ j ∈ i :: is, t.edge n j ≠ 0 ∧ t.reaches (t.edge n j) m) := by
      intro t1 L1 hF hfr hmem
      have hnL1 : n ∉ L1 := by
        intro h
        have := (hmem n).1 h
        exact (hsub i (by simp) this.2.1).2 this.2.2
      have h2node : ∀ m, m ≠ n → (t1.set_edge n i 0).node_at m = t1.node_at m :=
        fun m hm => node_at_set_edge_ne t1 n i 0 m hm
      have h2len : (t1.set_edge n i 0).nodes.length = t.nodes.length := by
        rw [length_set_edge, hF.len]
      have hedge : ∀ j ∈ is, (t1.set_edge n i 0).edge n j = t.edge n j := by
        intro j hj
        have hji : i ≠ j := by rintro rfl; exact hnd2.1 hj
        rw [edge_set_edge, if_neg (by intro h; exact hji h.2.1)]
        exact edge_eq_of_node_eq t t1 n (hfr n hnL1) j
      have hsame : ∀ j ∈ is, t.edge n j ≠ 0 → ∀ m, t.reaches (t.edge n j) m →
          (t1.set_edge n i 0).node_at m = t.node_at m := by
        intro j hj hej m hm
        have hji : i ≠ j := by rintro rfl; exact hnd2.1 hj
        have hmn : m ≠ n := by rintro rfl; exact (hsub j (by simp [hj]) hej).2 hm
        rw [h2node m hmn]
        apply hfr
        intro hmL
        obtain ⟨hm1, hei, hri⟩ := (hmem m).1 hmL
        exact hdis i (by simp) j (by simp [hj]) hji hei hej m hm1 hri hm
      have hfin2 : (t1.set_edge n i 0).node_at 1 = node.ctor AS .FINAL := by
        rw [h2node 1 (Ne.symm hn1), hfr 1 (by intro h; exact ((hmem 1).1 h).1 rfl)]
        exact hfin
      obtain ⟨t2, L2, hd2, hF2, hfr2, hmem2⟩ := ih (t1.set_edge n i 0) hnd2.2
        (by rw [h2len]; exact hsz) hfin2
        (by
          intro j hj hej
          rw [hedge j hj] at hej ⊢
          have hs := hsub j (by simp [hj]) hej
          refine ⟨hs.1.transfer h2len (hsame j hj hej), ?_⟩
          rw [reaches_same t _ _ (hsame j hj hej)]
          exact hs.2)
        (by
          intro j hj k hk hjk hej hek m hm1
          rw [hedge j hj] at hej ⊢
          rw [hedge k hk] at hek ⊢
          rw [reaches_same t _ _ (hsame j hj hej), reaches_same t _ _ (hsame k hk hek)]
          exact hdis j (by simp [hj]) k (by simp [hk]) hjk hej hek m hm1)
      have hmem2b : ∀ m, m ∈ L2 ↔ m ≠ 1 ∧ ∃ j ∈ is, t.edge n j ≠ 0 ∧ t.reaches (t.edge n j) m := by
        intro m
        rw [hmem2]
        constructor
        · rintro ⟨h1, j, hj, hej, hr⟩
          rw [hedge j hj] at hej hr
          rw [reaches_same t _ _ (hsame j hj hej)] at hr
          exact ⟨h1, j, hj, hej, hr⟩
        · rintro ⟨h1, j, hj, hej, hr⟩
          refine ⟨h1, j, hj, ?_, ?_⟩
          · rw [hedge j hj]; exact hej
          · rw [hedge j hj, reaches_same t _ _ (hsame j hj hej)]; exact hr
      have hdisj : ∀ m, m ∈ L2 → m ∈ L1 → False := by
        intro m h2 h1
        obtain ⟨hm1, j, hj, hej, hr⟩ := (hmem2b m).1 h2
        obtain ⟨_, hei, hri⟩ := (hmem m).1 h1
        have hji : i ≠ j := by rintro rfl; exact hnd2.1 hj
        exact hdis i (by simp) j (by simp [hj]) hji hei hej m hm1 hri hr
      have hnL2 : n ∉ L2 := by
        intro h
        obtain ⟨_, j, hj, hej, hr⟩ := (hmem2b n).1 h
        exact (hsub j (by simp [hj]) hej).2 hr
      have hL1same : ∀ m ∈ L1, t2.node_at m = t1.node_at m := by
        intro m hm
        have hmn : m ≠ n := by rintro rfl; exact hnL1 hm
        rw [hfr2 m hmn (fun h => hdisj m h hm), h2node m hmn]
      refine ⟨t2, L2 ++ L1, hd2, ⟨?_, ?_, ?_, ?_, ?_, ?_⟩, ?_, ?_⟩
      · rw [hF2.len, h2len]
      · rw [hF2.alph]; exact hF.alph
      · rw [hF2.trans]; exact hF.trans
      · refine seg_append t2 L2 L1 _ _ _ hF2.seg ?_
        refine seg_congr t1 t2 L1 _ ?_ _ hF.seg
        intro m hm
        exact edge_eq_of_node_eq t1 t2 m (hL1same m hm) 0
      · rw [List.nodup_append]
        exact ⟨hF2.nodup, hF.nodup, fun m h2 h1 => hdisj m h2 h1⟩
      · intro m hm
        rcases List.mem_append.1 hm with h | h
        · exact hF2.empty m h
        · have := hF.empty m h
          rw [hL1same m h]
          refine ⟨this.1, this.2.1, fun v hv => ?_⟩
          rw [edge_eq_of_node_eq t1 t2 m (hL1same m h) v]
          exact this.2.2 v hv
      · intro m hmn hmL
        simp only [List.mem_append, not_or] at hmL
        rw [hfr2 m hmn hmL.1, h2node m hmn, hfr m hmL.2]
      · intro m
        rw [List.mem_append, hmem2b, hmem]
        constructor
        · rintro (⟨h1, j, hj, hej, hr⟩ | ⟨h1, hei, hr⟩)
          · exact ⟨h1, j, by simp [hj], hej, hr⟩
          · exact ⟨h1, i, by simp, hei, hr⟩
        · rintro ⟨h1, j, hj, hej, hr⟩
          rcases List.mem_cons.1 hj with rfl | hj
          · right; exact ⟨h1, hej, hr⟩
          · left; exact ⟨h1, j, hj, hej, hr⟩
    simp only [delete_edges]
    by_cases he : t.edge n i = 0
    · rw [if_neg (by simpa using he)]
      exact key t [] ⟨rfl, rfl, rfl, rfl, List.nodup_nil, by simp⟩ (by simp) (by simp [he])
    · rw [if_pos he]
      obtain ⟨t1, L1, hd, hF, hfr, hmem⟩ := IH t (t.edge n i) hAS he hsz hfin
        (hsub i (by simp) he).1
      rw [hd]
      exact key t1 L1 hF hfr (fun m => by rw [hmem]; simp [he])

theorem delete_subtree_spec {AS : Nat} : ∀ fuel, DelSpec AS fuel := by
  intro fuel
  induction fuel with
  | zero =>
    intro t n _ _ _ _ hs
    exact absurd (hs.fuel [] n rfl) (by simp)
  | succ fuel IH =>
    intro t n hAS hn0 hsz hfin hs
    by_cases hn1 : n = 1
    · subst hn1
      refine ⟨t, [], ?_, ⟨rfl, rfl, rfl, rfl, List.nodup_nil, by simp⟩, by simp, ?_⟩
      · simp [ftrie.delete_subtree, hfin, node.ctor, final_offset]
      · intro m
        simp only [List.not_mem_nil, false_iff, not_and]
        rintro hm1 ⟨p, hp⟩
        exact hm1 (walk_leaf t 1 .FINAL hfin p m hp).2
    · have hst : (t.node_at n).state ≠ .FINAL := hs.state [] n rfl hn1
      have hnlen : n < t.nodes.length := hs.bound [] n rfl
      obtain ⟨t1, L, hd, hF, hfr, hmem⟩ := delete_edges_spec fuel IH n hAS hn1 (List.range AS) t
        (List.nodup_range AS) hsz hfin
        (fun i _ he => ⟨hs.child i he, hs.not_back hn1 i he⟩)
        (fun i _ j _ hij hi hj m hm => hs.disjoint i j hij hi hj m hm)
      have hnL : n ∉ L := by
        intro h
        obtain ⟨_, i, _, he, hr⟩ := (hmem n).1 h
        exact hs.not_back hn1 i he hr
      obtain ⟨t2, ht2⟩ : ∃ t2 : ftrie AS, t2 = ftrie.mk t1.alphabet t1.translate n
          (t1.nodes.set n ⟨.EMPTY, (List.replicate AS 0).set 0 t1.empty_head⟩) := ⟨_, rfl⟩
      have hnode : ∀ m, t2.node_at m =
          if n = m then ⟨.EMPTY, (List.replicate AS 0).set 0 t1.empty_head⟩
          else t1.node_at m := by
        intro m
        rw [ht2, node_at_mk_set]
        by_cases h : n = m
        · subst h
          rw [if_pos ⟨rfl, by rw [hF.len]; exact hnlen⟩, if_pos rfl]
        · rw [if_neg (fun h2 => h h2.1), if_neg h]
      have hhead : t2.empty_head = n := by rw [ht2]
      refine ⟨t2, n :: L, ?_, ⟨?_, by rw [ht2]; exact hF.alph, by rw [ht2]; exact hF.trans,
        ?_, ?_, ?_⟩, ?_, ?_⟩
      · simp only [ftrie.delete_subtree, hst, if_false, hd, ht2]
      · rw [ht2]; simp only [List.length_set]; exact hF.len
      · rw [hhead]
        refine ⟨rfl, hn0, ?_⟩
        have h0 : t2.edge n 0 = t1.empty_head := by
          simp only [ftrie.edge, hnode, if_true]
          rw [getD_set_list]
          simp [hAS]
        rw [h0]
        refine seg_congr t1 _ L _ ?_ _ hF.seg
        intro m hm
        apply edge_eq_of_node_eq
        rw [hnode, if_neg (by rintro rfl; exact hnL hm)]
      · exact List.nodup_cons.2 ⟨hnL, hF.nodup⟩
      · intro m hm
        rcases List.mem_cons.1 hm with rfl | hm
        · simp only [ftrie.edge, hnode, if_true, List.length_set, List.length_replicate, true_and]
          intro v hv
          rw [getD_set_list, if_neg (by intro h; exact hv h.1.symm)]
          simp only [List.getD_eq_getElem?_getD, List.getElem?_replicate]
          split <;> rfl
        · have hmn : n ≠ m := by rintro rfl; exact hnL hm
          have := hF.empty m hm
          simp only [ftrie.edge, hnode, if_neg hmn]
          exact this
      · intro m hm
        simp only [List.mem_cons, not_or] at hm
        rw [hnode, if_neg (Ne.symm hm.1)]
        exact hfr m hm.1 hm.2
      · intro m
        rw [List.mem_cons, hmem]
        constructor
        · rintro (rfl | ⟨h1, i, _, he, hr⟩)
          · exact ⟨hn1, reaches_refl t m⟩
          · exact ⟨h1, reaches_edge t n i m he hr⟩
        · rintro ⟨h1, hr⟩
          rcases reaches_cases t n m hr with rfl | ⟨i, he, hr2⟩
          · left; rfl
          · right
            refine ⟨h1, i, ?_, he, hr2⟩
            rw [List.mem_range]
            by_contra hlt
            apply he
            apply edge_ge
            rw [hs.elen [] n rfl]
            omega

theorem ftrie.Inv.state_final_iff {AS : Nat} {t : ftrie AS} (hI : t.Inv) (p : List Nat) (n : Nat)
    (h : t.walk 0 p = some n) : (t.node_at n).state = .FINAL ↔ n = 1 := by
  constructor
  · intro hs
    by_contra hn
    rw [(hI.reach p n h).2 hn] at hs
    cases hs
  · rintro rfl
    rw [hI.final]
    rfl

theorem graft {AS : Nat} {t t1 : ftrie AS} (hI : t.Inv) (pc : List Nat) (cur v x : Nat)
    (hcur : t.walk 0 pc = some cur) (hc1 : cur ≠ 1)
    (hlen : t.nodes.length ≤ t1.nodes.length)
    (hx0 : x ≠ 0) (hxlen : x < t1.nodes.length)
    (hxst : x ≠ 1 → (t1.node_at x).state = .INTERNAL)
    (hxleaf : ∀ w, t1.edge x w = 0)
    (hxnew : x ≠ 1 → ∀ q, ¬ (pc ++ [v]) <+: q → t.walk 0 q ≠ some x)
    (hedge : t1.edge cur v = x)
    (hsame : ∀ q m, t.walk 0 q = some m → ¬ (pc ++ [v]) <+: q →
      (t1.node_at m).state = (t.node_at m).state ∧
        ∀ w, (m = cur → w ≠ v) → t1.edge m w = t.edge m w)
    (hfin : t1.node_at 1 = node.ctor AS .FINAL)
    (hel : ∀ i, i < t1.nodes.length → (t1.node_at i).edges.length = AS)
    (hfree : ∃ fl : List Nat, t1.seg t1.empty_head fl 0 ∧ fl.Nodup ∧
      (∀ f ∈ fl, f < t1.nodes.length ∧ (t1.node_at f).state = .EMPTY ∧ f ≠ x ∧
        ∀ q, ¬ (pc ++ [v]) <+: q → t.walk 0 q ≠ some f) ∧
      ∀ n, n < t1.nodes.length → n ≠ 1 → n ∉ fl →
        n = x ∨ ∃ q, ¬ (pc ++ [v]) <+: q ∧ t.walk 0 q = some n) :
    t1.Inv ∧ t.Grafted t1 (pc ++ [v]) x := by
  obtain ⟨fl, hseg, hnd, hf, hcv⟩ := hfree
  -- the walks outside `P`
  have hout : ∀ q, ¬ (pc ++ [v]) <+: q → t1.walk 0 q = t.walk 0 q := by
    intro q
    induction q using List.reverseRecOn with
    | nil => intro _; rfl
    | append_singleton q w ih =>
      intro hq
      have hq2 : ¬ (pc ++ [v]) <+: q := fun h => hq (h.trans (List.prefix_append q [w]))
      rw [walk_snoc, walk_snoc, ih hq2]
      cases hw : t.walk 0 q with
      | none => rfl
      | some m =>
        simp only [Option.some_bind]
        have hmw : m = cur → w ≠ v := by
          rintro rfl rfl
          have := hI.inj _ _ _ hw hcur hc1
          subst this
          exact hq (List.prefix_refl _)
        rw [(hsame q m hw hq2).2 w hmw]
  have hP : t1.walk 0 (pc ++ [v]) = some x := by
    have hpc : ¬ (pc ++ [v]) <+: pc := by
      intro h
      have := h.length_le
      simp at this
    rw [walk_snoc, hout pc hpc, hcur]
    simp only [Option.some_bind, hedge, hx0, if_false]
  have hbeyond : ∀ q, (pc ++ [v]) <+: q → q ≠ pc ++ [v] → t1.walk 0 q = none := by
    rintro q ⟨r, rfl⟩ hne
    cases r with
    | nil => simp at hne
    | cons w r =>
      rw [walk_append, hP]
      simp only [Option.some_bind, walk_cons, hxleaf, if_true]
  have hG : t.Grafted t1 (pc ++ [v]) x := ⟨hP, hbeyond, hout⟩
  -- every walk of `t1` ends at `x` through `P` or is a walk of `t` outside `P`
  have hcases : ∀ q n, t1.walk 0 q = some n →
      (q = pc ++ [v] ∧ n = x) ∨ (¬ (pc ++ [v]) <+: q ∧ t.walk 0 q = some n) := by
    intro q n hq
    by_cases h1 : (pc ++ [v]) <+: q
    · by_cases h2 : q = pc ++ [v]
      · left
        subst h2
        rw [hP] at hq
        exact ⟨rfl, (Option.some.inj hq).symm⟩
      · rw [hbeyond q h1 h2] at hq
        cases hq
    · right
      rw [hout q h1] at hq
      exact ⟨h1, hq⟩
  refine ⟨⟨?_, ?_, hfin, hel, ?_, ?_, ?_, ?_⟩, hG⟩
  · exact le_trans hI.size hlen
  · have := (hsame [] 0 rfl (by simp)).1
    rw [this]
    exact hI.root
  · intro q n hq
    rcases hcases q n hq with ⟨_, rfl⟩ | ⟨h1, h2⟩
    · exact ⟨hxlen, hxst⟩
    · refine ⟨lt_of_lt_of_le (hI.reach q n h2).1 hlen, fun hn => ?_⟩
      rw [(hsame q n h2 h1).1]
      exact (hI.reach q n h2).2 hn
  · intro q r n hq hr hn
    rcases hcases q n hq with ⟨rfl, rfl⟩ | ⟨h1, h2⟩
    · rcases hcases r n hr with ⟨rfl, _⟩ | ⟨h3, h4⟩
      · rfl
      · exact absurd h4 (hxnew hn r h3)
    · rcases hcases r n hr with ⟨rfl, rfl⟩ | ⟨h3, h4⟩
      · exact absurd h2 (hxnew hn q h1)
      · exact hI.inj q r n h2 h4 hn
  · refine ⟨fl, hseg, hnd, fun f hfm => ?_⟩
    obtain ⟨h1, h2, h3, h4⟩ := hf f hfm
    refine ⟨h1, h2, fun q hq => ?_⟩
    rcases hcases q f hq with ⟨_, rfl⟩ | ⟨h5, h6⟩
    · exact h3 rfl
    · exact h4 q h5 h6
  · refine ⟨fl, hseg, fun n hn h1 hnfl => ?_⟩
    rcases hcv n hn h1 hnfl with rfl | ⟨q, hq, hw⟩
    · exact ⟨pc ++ [v], hP⟩
    · exact ⟨q, by rw [hout q hq]; exact hw⟩

theorem node_at_mk_append {AS : Nat} (t : ftrie AS) (a : List Nat) (tr : List Int) (h : Nat)
    (x : node) (j : Nat) :
    (ftrie.mk a tr h (t.nodes ++ [x]) : ftrie AS).node_at j =
      if j = t.nodes.length then x else t.node_at j := by
  simp only [ftrie.node_at, List.getD_eq_getElem?_getD]
  by_cases h1 : j < t.nodes.length
  · rw [List.getElem?_append_left h1, if_neg (by omega)]
  · rw [List.getElem?_append_right (by omega)]
    by_cases h2 : j = t.nodes.length
    · subst h2; simp
    · rw [if_neg h2]
      have : j - t.nodes.length = (j - t.nodes.length - 1) + 1 := by omega
      rw [this, List.getElem?_eq_none (by omega : t.nodes.length ≤ j)]
      simp

theorem edge_zeros (AS w : Nat) : (List.replicate AS 0).getD w 0 = 0 := by
  simp only [List.getD_eq_getElem?_getD, List.getElem?_replicate]
  split <;> rfl

theorem seg_head_zero {AS : Nat} (t : ftrie AS) (fl : List Nat) (h : t.seg 0 fl 0) : fl = [] := by
  cases fl with
  | nil => rfl
  | cons f fl => simp only [ftrie.seg] at h; exact absurd h.1.symm h.2.1

theorem seg_head_ne_zero {AS : Nat} (t : ftrie AS) (fl : List Nat) (hd : Nat) (h0 : hd ≠ 0)
    (h : t.seg hd fl 0) : ∃ fl2, fl = hd :: fl2 ∧ t.seg (t.edge hd 0) fl2 0 := by
  cases fl with
  | nil => simp only [ftrie.seg] at h; exact absurd h h0
  | cons f fl =>
    simp only [ftrie.seg] at h
    obtain ⟨rfl, _, h3⟩ := h
    exact ⟨fl, rfl, h3⟩

theorem seg_unique {AS : Nat} (t : ftrie AS) (fl : List Nat) :
    ∀ (h : Nat) (fl2 : List Nat), t.seg h fl 0 → t.seg h fl2 0 → fl = fl2 := by
  induction fl with
  | nil =>
    intro h fl2 h1 h2
    simp only [ftrie.seg] at h1
    subst h1
    exact (seg_head_zero t fl2 h2).symm
  | cons f fl ih =>
    intro h fl2 h1 h2
    simp only [ftrie.seg] at h1
    obtain ⟨rfl, hf0, h3⟩ := h1
    obtain ⟨fl3, rfl, h4⟩ := seg_head_ne_zero t fl2 h hf0 h2
    rw [ih _ fl3 h3 h4]

/-- The free list of a trie in order, with all that the invariant says of it. -/
theorem ftrie.Inv.free_cover {AS : Nat} {t : ftrie AS} (hI : t.Inv) :
    ∃ fl : List Nat, t.seg t.empty_head fl 0 ∧ fl.Nodup ∧
      (∀ f ∈ fl, f < t.nodes.length ∧ (t.node_at f).state = .EMPTY ∧
        ∀ p, t.walk 0 p ≠ some f) ∧
      ∀ n, n < t.nodes.length → n ≠ 1 → n ∉ fl → ∃ p, t.walk 0 p = some n := by
  obtain ⟨fl, hseg, hnd, hfl⟩ := hI.free
  obtain ⟨fl2, hseg2, hcov⟩ := hI.cover
  rw [← seg_unique t fl _ fl2 hseg hseg2] at hcov
  exact ⟨fl, hseg, hnd, hfl, hcov⟩

/-- The step of the loop of `insert` that allocates a node and links it below
`cur` keeps the invariant and adds exactly the path to the new node. -/
theorem link_spec {AS : Nat} {t : ftrie AS} (hI : t.Inv) (pc : List Nat) (cur v : Nat)
    (hcur : t.walk 0 pc = some cur) (hc1 : cur ≠ 1) (hv : v < AS) (he : t.edge cur v = 0) :
    ((t.next_empty_node.2).set_edge cur v t.next_empty_node.1).Inv ∧
      t.Grafted ((t.next_empty_node.2).set_edge cur v t.next_empty_node.1) (pc ++ [v])
        t.next_empty_node.1 ∧
      t.next_empty_node.1 ≠ 1 ∧
      ((t.next_empty_node.2).set_edge cur v t.next_empty_node.1).alphabet = t.alphabet ∧
      ((t.next_empty_node.2).set_edge cur v t.next_empty_node.1).translate = t.translate := by
  obtain ⟨fl, hseg, hnd, hfl, hcov⟩ := hI.free_cover
  have hcl : cur < t.nodes.length := (hI.reach pc cur hcur).1
  have hcel : (t.node_at cur).edges.length = AS := hI.edges_len cur hcl
  have hnoP : ∀ q n, t.walk 0 q = some n → ¬ (pc ++ [v]) <+: q := by
    rintro q n hq ⟨r, rfl⟩
    have hPn : t.walk 0 (pc ++ [v]) = none := by
      rw [walk_snoc, hcur]
      simp [he]
    rw [walk_append, hPn] at hq
    cases hq
  by_cases hh : t.empty_head = 0
  · -- a new node at the end of the arena
    have hfl0 : fl = [] := seg_head_zero t fl (by rw [hh] at hseg; exact hseg)
    have hr1 : t.next_empty_node.1 = t.nodes.length := by
      simp [ftrie.next_empty_node, hh]
    have hr2 : t.next_empty_node.2 =
        ⟨t.alphabet, t.translate, t.empty_head, t.nodes ++ [node.ctor AS .INTERNAL]⟩ := by
      simp [ftrie.next_empty_node, hh]
    rw [hr1, hr2]
    obtain ⟨t2, ht2⟩ : ∃ t2 : ftrie AS, t2 =
      ⟨t.alphabet, t.translate, t.empty_head, t.nodes ++ [node.ctor AS .INTERNAL]⟩ := ⟨_, rfl⟩
    rw [← ht2]
    have h2node : ∀ m, t2.node_at m =
        if m = t.nodes.length then node.ctor AS .INTERNAL else t.node_at m := by
      intro m; rw [ht2]; exact node_at_mk_append t _ _ _ _ m
    have h2len : t2.nodes.length = t.nodes.length + 1 := by rw [ht2]; simp
    have h1node : ∀ m, (t2.set_edge cur v t.nodes.length).node_at m =
        if m = cur then ⟨(t.node_at cur).state, (t.node_at cur).edges.set v t.nodes.length⟩
        else if m = t.nodes.length then node.ctor AS .INTERNAL else t.node_at m := by
      intro m
      rw [node_at_set_edge]
      by_cases hm : m = cur
      · subst hm
        rw [if_pos ⟨rfl, by omega⟩, if_pos rfl, h2node, if_neg (by omega)]
      · rw [if_neg (fun h => hm h.1.symm), if_neg hm, h2node]
    have hsz := hI.size
    suffices hG : (t2.set_edge cur v t.nodes.length).Inv ∧
        t.Grafted (t2.set_edge cur v t.nodes.length) (pc ++ [v]) t.nodes.length from
      ⟨hG.1, hG.2, by omega, by rw [ht2]; rfl, by rw [ht2]; rfl⟩
    refine graft hI pc cur v t.nodes.length hcur hc1 (by rw [length_set_edge]; omega)
      (by omega) (by rw [length_set_edge]; omega) ?_ ?_ ?_ ?_ ?_ ?_ ?_ ?_
    · intro _
      rw [h1node, if_neg (by omega), if_pos rfl]; rfl
    · intro w
      apply edge_ctor _ _ _ .INTERNAL
      rw [h1node, if_neg (by omega), if_pos rfl]
    · intro _ q _ hq
      have := (hI.reach q _ hq).1
      omega
    · simp only [ftrie.edge, h1node, if_true]
      rw [getD_set_list, if_pos ⟨rfl, by omega⟩]
    · intro q m hq _
      have hml := (hI.reach q m hq).1
      by_cases hm : m = cur
      · subst hm
        refine ⟨by rw [h1node, if_pos rfl], fun w hw => ?_⟩
        unfold ftrie.edge
        rw [h1node, if_pos rfl]
        show ((t.node_at m).edges.set v _).getD w 0 = _
        rw [getD_set_list, if_neg (fun h => hw rfl h.1.symm)]
      · have hnode : (t2.set_edge cur v t.nodes.length).node_at m = t.node_at m := by
          rw [h1node, if_neg hm, if_neg (by omega : m ≠ t.nodes.length)]
        exact ⟨by rw [hnode], fun w _ => edge_eq_of_node_eq _ _ m hnode w⟩
    · rw [h1node, if_neg (Ne.symm hc1), if_neg (by omega)]
      exact hI.final
    · intro i hi
      rw [length_set_edge, h2len] at hi
      rw [h1node]
      by_cases h1 : i = cur
      · rw [if_pos h1]; simp [hcel]
      · rw [if_neg h1]
        by_cases h2 : i = t.nodes.length
        · rw [if_pos h2]; simp [node.ctor]
        · rw [if_neg h2]; exact hI.edges_len i (by omega)
    · refine ⟨[], ?_, List.nodup_nil, by simp, ?_⟩
      · have : (t2.set_edge cur v t.nodes.length).empty_head = 0 := by rw [ht2]; exact hh
        rw [this]
        rfl
      · intro n hn h1 _
        rw [length_set_edge, h2len] at hn
        by_cases hx : n = t.nodes.length
        · exact Or.inl hx
        · right
          obtain ⟨p, hp⟩ := hcov n (by omega) h1 (by rw [hfl0]; simp)
          exact ⟨p, hnoP p n hp, hp⟩
  · -- the head of the free list
    obtain ⟨fl2, rfl, hseg2⟩ := seg_head_ne_zero t fl _ hh hseg
    obtain ⟨hfl1, hfst, hfun⟩ := hfl t.empty_head (by simp)
    have hnd2 := List.nodup_cons.1 hnd
    have hf1 : t.empty_head ≠ 1 := by
      intro h
      rw [h, hI.final] at hfst
      cases hfst
    have hfc : t.empty_head ≠ cur := by
      intro h
      exact hfun pc (by rw [h]; exact hcur)
    have hr1 : t.next_empty_node.1 = t.empty_head := by
      simp [ftrie.next_empty_node, hh]
    have hr2 : t.next_empty_node.2 =
        ⟨t.alphabet, t.translate, t.edge t.empty_head 0,
          t.nodes.set t.empty_head ⟨.INTERNAL, List.replicate AS 0⟩⟩ := by
      simp [ftrie.next_empty_node, hh]
    rw [hr1, hr2]
    obtain ⟨t2, ht2⟩ : ∃ t2 : ftrie AS, t2 =
      ⟨t.alphabet, t.translate, t.edge t.empty_head 0,
          t.nodes.set t.empty_head ⟨.INTERNAL, List.replicate AS 0⟩⟩ := ⟨_, rfl⟩
    rw [← ht2]
    have h2node : ∀ m, t2.node_at m =
        if m = t.empty_head then ⟨.INTERNAL, List.replicate AS 0⟩ else t.node_at m := by
      intro m
      rw [ht2, node_at_mk_set]
      by_cases hm : m = t.empty_head
      · rw [if_pos ⟨hm.symm, hfl1⟩, if_pos hm]
      · rw [if_neg (fun h => hm h.1.symm), if_neg hm]
    have h2len : t2.nodes.length = t.nodes.length := by rw [ht2]; simp
    have h1node : ∀ m, (t2.set_edge cur v t.empty_head).node_at m =
        if m = cur then ⟨(t.node_at cur).state, (t.node_at cur).edges.set v t.empty_head⟩
        else if m = t.empty_head then ⟨.INTERNAL, List.replicate AS 0⟩ else t.node_at m := by
      intro m
      rw [node_at_set_edge]
      by_cases hm : m = cur
      · subst hm
        rw [if_pos ⟨rfl, by omega⟩, if_pos rfl, h2node, if_neg (Ne.symm hfc)]
      · rw [if_neg (fun h => hm h.1.symm), if_neg hm, h2node]
    suffices hG : (t2.set_edge cur v t.empty_head).Inv ∧
        t.Grafted (t2.set_edge cur v t.empty_head) (pc ++ [v]) t.empty_head from
      ⟨hG.1, hG.2, hf1, by rw [ht2]; rfl, by rw [ht2]; rfl⟩
    refine graft hI pc cur v t.empty_head hcur hc1 (by rw [length_set_edge]; omega)
      hh (by rw [length_set_edge]; omega) ?_ ?_ ?_ ?_ ?_ ?_ ?_ ?_
    · intro _
      rw [h1node, if_neg hfc, if_pos rfl]
    · intro w
      simp only [ftrie.edge, h1node, if_neg hfc, if_true]
      exact edge_zeros AS w
    · intro _ q _ hq
      exact hfun q hq
    · simp only [ftrie.edge, h1node, if_true]
      rw [getD_set_list, if_pos ⟨rfl, by omega⟩]
    · intro q m hq _
      have hmf : m ≠ t.empty_head := by rintro rfl; exact hfun q hq
      by_cases hm : m = cur
      · subst hm
        refine ⟨by rw [h1node, if_pos rfl], fun w hw => ?_⟩
        unfold ftrie.edge
        rw [h1node, if_pos rfl]
        show ((t.node_at m).edges.set v _).getD w 0 = _
        rw [getD_set_list, if_neg (fun h => hw rfl h.1.symm)]
      · have hnode : (t2.set_edge cur v t.empty_head).node_at m = t.node_at m := by
          rw [h1node, if_neg hm, if_neg hmf]
        exact ⟨by rw [hnode], fun w _ => edge_eq_of_node_eq _ _ m hnode w⟩
    · rw [h1node, if_neg (Ne.symm hc1), if_neg (Ne.symm hf1)]
      exact hI.final
    · intro i hi
      rw [length_set_edge, h2len] at hi
      rw [h1node]
      by_cases h1 : i = cur
      · rw [if_pos h1]; simp [hcel]
      · rw [if_neg h1]
        by_cases h2 : i = t.empty_head
        · rw [if_pos h2]; simp
        · rw [if_neg h2]; exact hI.edges_len i hi
    · refine ⟨fl2, ?_, hnd2.2, ?_, ?_⟩
      · have : (t2.set_edge cur v t.empty_head).empty_head = t.edge t.empty_head 0 := by
          rw [ht2]; rfl
        rw [this]
        refine seg_congr t _ fl2 _ ?_ _ hseg2
        intro m hm
        apply edge_eq_of_node_eq
        have hmc : m ≠ cur := by
          rintro rfl
          exact (hfl m (by simp [hm])).2.2 pc hcur
        have hmf : m ≠ t.empty_head := by rintro rfl; exact hnd2.1 hm
        rw [h1node, if_neg hmc, if_neg hmf]
      · intro f hf
        have hfc2 : f ≠ cur := by
          rintro rfl
          exact (hfl f (by simp [hf])).2.2 pc hcur
        have hff : f ≠ t.empty_head := by rintro rfl; exact hnd2.1 hf
        obtain ⟨g1, g2, g3⟩ := hfl f (by simp [hf])
        refine ⟨by rw [length_set_edge, h2len]; exact g1, ?_, hff, fun q _ => g3 q⟩
        rw [h1node, if_neg hfc2, if_neg hff]
        exact g2
      · intro n hn h1 hnfl
        rw [length_set_edge, h2len] at hn
        by_cases hx : n = t.empty_head
        · exact Or.inl hx
        · right
          obtain ⟨p, hp⟩ := hcov n hn h1 (by simp [hx, hnfl])
          exact ⟨p, hnoP p n hp, hp⟩

theorem ftrie.Inv.subOK {AS : Nat} {t : ftrie AS} (hI : t.Inv) (P : List Nat) (e : Nat)
    (hP : t.walk 0 P = some e) : t.SubOK e t.nodes.length := by
  have hw : ∀ p m, t.walk e p = some m → t.walk 0 (P ++ p) = some m := by
    intro p m h
    rw [walk_append, hP]
    exact h
  refine ⟨?_, ?_, ?_, ?_, ?_⟩
  · intro p m h; exact (hI.reach _ _ (hw p m h)).1
  · intro p m h hm
    rw [(hI.reach _ _ (hw p m h)).2 hm]
    intro h2; cases h2
  · intro p m h; exact hI.edges_len m (hI.reach _ _ (hw p m h)).1
  · intro p m h
    have := hI.walk_length_lt _ _ (hw p m h)
    simp at this
    omega
  · intro p q m hp hq hm
    have := hI.inj _ _ _ (hw p m hp) (hw q m hq) hm
    simpa using this

theorem terminate_core {AS : Nat} {t t2 : ftrie AS} (hI : t.Inv) (pc : List Nat)
    (cur v : Nat) (L : List Nat)
    (hcur : t.walk 0 pc = some cur) (hc1 : cur ≠ 1) (hv : v < AS)
    (hF : t.Freed t2 L) (hfr : ∀ m, m ∉ L → t2.node_at m = t.node_at m)
    (hmem : ∀ m, m ∈ L ↔ m ≠ 1 ∧ t.edge cur v ≠ 0 ∧ t.reaches (t.edge cur v) m) :
    (t2.set_edge cur v 1).Inv ∧ t.Grafted (t2.set_edge cur v 1) (pc ++ [v]) 1 := by
  obtain ⟨fl, hseg, hnd, hfl, hcov⟩ := hI.free_cover
  have hcl : cur < t.nodes.length := (hI.reach pc cur hcur).1
  have hcel : (t.node_at cur).edges.length = AS := hI.edges_len cur hcl
  -- the nodes of `L` are reached only through `P`
  have hLpath : ∀ m, m ∈ L → ∃ r, t.walk 0 (pc ++ [v] ++ r) = some m := by
    intro m hm
    obtain ⟨_, he, r, hr⟩ := (hmem m).1 hm
    refine ⟨r, ?_⟩
    rw [List.append_assoc, walk_append, hcur]
    simp only [Option.some_bind, List.singleton_append, walk_cons, if_neg he]
    exact hr
  have hLout : ∀ m, m ∈ L → ∀ q, ¬ (pc ++ [v]) <+: q → t.walk 0 q ≠ some m := by
    intro m hm q hq hw
    obtain ⟨r, hr⟩ := hLpath m hm
    have := hI.inj _ _ _ hw hr ((hmem m).1 hm).1
    exact hq ⟨r, this.symm⟩
  have hcL : cur ∉ L := by
    intro h
    exact hLout cur h pc (by intro h2; have := h2.length_le; simp at this) hcur
  have h1L : (1 : Nat) ∉ L := fun h => ((hmem 1).1 h).1 rfl
  have hflL : ∀ f, f ∈ fl → f ∉ L := by
    intro f hf hL
    obtain ⟨r, hr⟩ := hLpath f hL
    exact (hfl f hf).2.2 _ hr
  have hflc : ∀ f, f ∈ fl → f ≠ cur := by
    rintro f hf rfl
    exact (hfl f hf).2.2 pc hcur
  have h2c : t2.node_at cur = t.node_at cur := hfr cur hcL
  have h1node : ∀ m, (t2.set_edge cur v 1).node_at m =
      if m = cur then ⟨(t.node_at cur).state, (t.node_at cur).edges.set v 1⟩
      else t2.node_at m := by
    intro m
    rw [node_at_set_edge]
    by_cases hm : m = cur
    · subst hm
      rw [if_pos ⟨rfl, by rw [hF.len]; exact hcl⟩, if_pos rfl, h2c]
    · rw [if_neg (fun h => hm h.1.symm), if_neg hm]
  have hsz := hI.size
  refine graft hI pc cur v 1 hcur hc1 (by rw [length_set_edge, hF.len])
    (by omega) (by rw [length_set_edge, hF.len]; omega) (fun h => absurd rfl h) ?_
    (fun h => absurd rfl h) ?_ ?_ ?_ ?_ ?_
  · intro w
    apply edge_ctor _ _ _ .FINAL
    rw [h1node, if_neg (Ne.symm hc1), hfr 1 h1L]
    exact hI.final
  · unfold ftrie.edge
    rw [h1node, if_pos rfl]
    show ((t.node_at cur).edges.set v 1).getD v 0 = 1
    rw [getD_set_list, if_pos ⟨rfl, by omega⟩]
  · intro q m hq hqP
    have hmL : m ∉ L := fun h => hLout m h q hqP hq
    by_cases hm : m = cur
    · subst hm
      refine ⟨by rw [h1node, if_pos rfl], fun w hw => ?_⟩
      unfold ftrie.edge
      rw [h1node, if_pos rfl]
      show ((t.node_at m).edges.set v _).getD w 0 = _
      rw [getD_set_list, if_neg (fun h => hw rfl h.1.symm)]
    · have hnode : (t2.set_edge cur v 1).node_at m = t.node_at m := by
        rw [h1node, if_neg hm, hfr m hmL]
      exact ⟨by rw [hnode], fun w _ => edge_eq_of_node_eq _ _ m hnode w⟩
  · rw [h1node, if_neg (Ne.symm hc1), hfr 1 h1L]
    exact hI.final
  · intro i hi
    rw [length_set_edge, hF.len] at hi
    rw [h1node]
    by_cases h1 : i = cur
    · rw [if_pos h1]; simp [hcel]
    · rw [if_neg h1]
      by_cases h2 : i ∈ L
      · exact (hF.empty i h2).2.1
      · rw [hfr i h2]; exact hI.edges_len i hi
  · refine ⟨L ++ fl, ?_, ?_, ?_, ?_⟩
    · have hh : (t2.set_edge cur v 1).empty_head = t2.empty_head := rfl
      rw [hh]
      have hs2 : t2.seg t2.empty_head (L ++ fl) 0 := by
        refine seg_append t2 L fl _ _ _ hF.seg ?_
        refine seg_congr t t2 fl _ ?_ _ hseg
        intro m hm
        exact edge_eq_of_node_eq _ _ m (hfr m (hflL m hm)) 0
      refine seg_congr t2 _ (L ++ fl) _ ?_ _ hs2
      intro m hm
      apply edge_eq_of_node_eq
      rw [h1node, if_neg]
      rintro rfl
      rcases List.mem_append.1 hm with h | h
      · exact hcL h
      · exact hflc _ h rfl
    · rw [List.nodup_append]
      exact ⟨hF.nodup, hnd, fun m h1 h2 => hflL m h2 h1⟩
    · intro f hf
      rcases List.mem_append.1 hf with h | h
      · obtain ⟨r, hr⟩ := hLpath f h
        have hfc : f ≠ cur := by rintro rfl; exact hcL h
        refine ⟨by rw [length_set_edge, hF.len]; exact (hI.reach _ _ hr).1, ?_,
          ((hmem f).1 h).1, hLout f h⟩
        rw [h1node, if_neg hfc]
        exact (hF.empty f h).1
      · obtain ⟨g1, g2, g3⟩ := hfl f h
        refine ⟨by rw [length_set_edge, hF.len]; exact g1, ?_, ?_, fun q _ => g3 q⟩
        · rw [h1node, if_neg (hflc f h), hfr f (hflL f h)]
          exact g2
        · rintro rfl
          rw [hI.final] at g2
          cases g2
    · intro n hn h1 hnL
      rw [length_set_edge, hF.len] at hn
      right
      have hnL1 : n ∉ L := fun h => hnL (List.mem_append_left _ h)
      have hnfl : n ∉ fl := fun h => hnL (List.mem_append_right _ h)
      obtain ⟨p, hp⟩ := hcov n hn h1 hnfl
      refine ⟨p, ?_, hp⟩
      rintro ⟨r, rfl⟩
      apply hnL1
      rw [hmem]
      rw [List.append_assoc, walk_append, hcur] at hp
      simp only [Option.some_bind, List.singleton_append, walk_cons] at hp
      by_cases he : t.edge cur v = 0
      · rw [if_pos he] at hp; cases hp
      · rw [if_neg he] at hp; exact ⟨h1, he, r, hp⟩

theorem list_set_getD_self {α : Type} (l : List α) (i : Nat) (d : α) (h : i < l.length) :
    l.set i (l.getD i d) = l := by
  induction l generalizing i with
  | nil => simp at h
  | cons a l ih =>
    cases i with
    | zero => simp
    | succ i =>
      simp only [List.set_cons_succ, List.cons.injEq, true_and]
      have := ih i (by simpa using h)
      simpa using this

theorem set_edge_self {AS : Nat} (t : ftrie AS) (i v x : Nat) (hi : i < t.nodes.length)
    (hv : v < (t.node_at i).edges.length) (h : t.edge i v = x) : t.set_edge i v x = t := by
  cases t with
  | mk a tr hd nodes =>
    simp only [ftrie.set_edge, ftrie.mk.injEq, true_and]
    have h1 : (ftrie.node_at ⟨a, tr, hd, nodes⟩ i : node) = nodes.getD i (node.ctor AS .EMPTY) :=
      rfl
    rw [← h]
    unfold ftrie.edge
    rw [list_set_getD_self _ _ _ hv, h1]
    exact list_set_getD_self _ _ _ hi

theorem delete_subtree_final {AS : Nat} (t : ftrie AS) (fuel : Nat)
    (h : t.node_at 1 = node.ctor AS .FINAL) :
    t.delete_subtree (fuel + 1) 1 = .ok t := by
  simp [ftrie.delete_subtree, h, node.ctor, final_offset]

theorem walk_none_append {AS : Nat} (t : ftrie AS) (c : Nat) (p r : List Nat)
    (h : t.walk c p = none) : t.walk c (p ++ r) = none := by
  rw [walk_append, h]
  rfl

theorem ftrie.Inv.walk_proper_ne_one {AS : Nat} {t : ftrie AS} (hI : t.Inv) (c : Nat)
    (q r : List Nat) (n m : Nat) (hr : r ≠ [])
    (hq : t.walk c q = some m) (hw : t.walk c (q ++ r) = some n) : m ≠ 1 := by
  rintro rfl
  rw [walk_append, hq] at hw
  cases r with
  | nil => exact hr rfl
  | cons w r =>
    simp only [Option.some_bind] at hw
    rw [walk_final_cons t hI.final] at hw
    cases hw

theorem grafted_insRel {AS : Nat} {t t1 : ftrie AS} (hI : t.Inv) (pc : List Nat) (cur v : Nat)
    (hcur : t.walk 0 pc = some cur) (hc1 : cur ≠ 1)
    (hG : t.Grafted t1 (pc ++ [v]) 1) : t.InsRel t1 (pc ++ [v]) := by
  refine ⟨hG.1, ?_, fun q _ h2 => hG.2.2 q h2⟩
  intro q hq hne
  have hq2 : q <+: pc := by
    rcases List.prefix_concat_iff.1 hq with h | h
    · exact absurd h hne
    · exact h
  have hnp : ¬ (pc ++ [v]) <+: q := by
    intro h
    have := h.length_le
    have := hq2.length_le
    simp at *
    omega
  obtain ⟨r, rfl⟩ := hq2
  obtain ⟨m, hm, hm2⟩ := walk_prefix t 0 q r cur hcur
  refine ⟨m, by rw [hG.2.2 q hnp]; exact hm, ?_⟩
  by_cases hr : r = []
  · subst hr
    simp only [walk_nil, Option.some.injEq] at hm2
    rw [hm2]; exact hc1
  · exact hI.walk_proper_ne_one 0 q r cur m hr hm hcur

theorem ftrie.Inv.state_of_walk {AS : Nat} {t : ftrie AS} (hI : t.Inv) (p : List Nat) (n : Nat)
    (h : t.walk 0 p = some n) :
    (n = 1 ∧ (t.node_at n).state = .FINAL) ∨ (n ≠ 1 ∧ (t.node_at n).state = .INTERNAL) := by
  by_cases hn : n = 1
  · left; subst hn; rw [hI.final]; exact ⟨rfl, rfl⟩
  · right; exact ⟨hn, (hI.reach p n h).2 hn⟩

/-- `insert` from the node `cur` reached along `pc`, on letters of the alphabet:
it returns, keeps the invariant, changes nothing when the walk along the string
meets the sentinel, and otherwise inserts the path. -/
theorem insert_from_spec {AS : Nat} (hAS : 0 < AS) (s : List Nat) :
    ∀ (t : ftrie AS) (pc : List Nat) (cur : Nat), s ≠ [] → t.Inv →
      (∀ c ∈ s, 0 ≤ t.tr c ∧ t.idx c < AS) → t.walk 0 pc = some cur →
      ∃ t1, ftrie.insert_from s t cur = .ok t1 ∧ t1.Inv ∧ t1.alphabet = t.alphabet ∧
        t1.translate = t.translate ∧
        ((∃ f, f <+: t.idxs s ∧ t.walk cur f = some 1) → t1 = t) ∧
        ((¬ ∃ f, f <+: t.idxs s ∧ t.walk cur f = some 1) → t.InsRel t1 (pc ++ t.idxs s)) := by
  induction s with
  | nil => intro t pc cur h; exact absurd rfl h
  | cons c s ih =>
    intro t pc cur _ hI hs hcur
    have hc := hs c (by simp)
    have htr : ¬ t.tr c < 0 := by omega
    rcases hI.state_of_walk pc cur hcur with ⟨hc1, hst⟩ | ⟨hc1, hst⟩
    · -- the walk is already at the sentinel
      refine ⟨t, ?_, hI, rfl, rfl, fun _ => rfl, fun h => absurd ⟨[], by simp, by rw [hc1]; rfl⟩ h⟩
      cases s with
      | nil => simp [ftrie.insert_from, hst]
      | cons c2 s => simp [ftrie.insert_from, hst]
    · have hst1 : (t.node_at cur).state ≠ .EMPTY := by rw [hst]; intro h; cases h
      have hst2 : (t.node_at cur).state ≠ .FINAL := by rw [hst]; intro h; cases h
      cases s with
      | nil =>
        -- the last letter
        have hidx : t.idxs [c] = [t.idx c] := rfl
        have hA : (∃ f, f <+: t.idxs [c] ∧ t.walk cur f = some 1) → t.edge cur (t.idx c) = 1 := by
          rintro ⟨f, hf, hw⟩
          rw [hidx] at hf
          rcases List.prefix_cons_iff.1 hf with rfl | ⟨r, rfl, hr⟩
          · simp only [walk_nil, Option.some.injEq] at hw; exact absurd hw hc1
          · simp only [List.prefix_nil] at hr
            subst hr
            rw [walk_cons] at hw
            split at hw
            · cases hw
            · simpa [walk_nil] using hw
        by_cases he : t.edge cur (t.idx c) = 0
        · have hT := terminate_core hI pc cur (t.idx c) [] hcur hc1 hc.2
            ⟨rfl, rfl, rfl, rfl, List.nodup_nil, by simp⟩ (by simp) (by simp [he])
          refine ⟨t.set_edge cur (t.idx c) 1, ?_, hT.1, rfl, rfl, ?_, ?_⟩
          · simp only [ftrie.insert_from, hst1, hst2, htr, if_false]
            rw [if_neg (by simpa [ftrie.idx] using he)]
            rfl
          · intro h
            have := hA h
            rw [he] at this
            cases this
          · intro _
            exact grafted_insRel hI pc cur _ hcur hc1 hT.2
        · have hP : t.walk 0 (pc ++ [t.idx c]) = some (t.edge cur (t.idx c)) := by
            rw [walk_snoc, hcur]
            simp [he]
          obtain ⟨t2, L, hd, hF, hfr, hmem⟩ := delete_subtree_spec t.nodes.length t
            (t.edge cur (t.idx c)) hAS he (by have := hI.size; omega) hI.final (hI.subOK _ _ hP)
          have hT := terminate_core hI pc cur (t.idx c) L hcur hc1 hc.2 hF hfr
            (fun m => by rw [hmem]; simp [he])
          refine ⟨t2.set_edge cur (t.idx c) 1, ?_, hT.1, hF.alph, hF.trans, ?_, ?_⟩
          · simp only [ftrie.insert_from, hst1, hst2, htr, if_false]
            rw [if_pos (by simpa [ftrie.idx] using he)]
            have hd2 : t.delete_subtree t.nodes.length (t.edge cur (t.tr c).toNat) = .ok t2 := hd
            rw [hd2]
            rfl
          · intro h
            have h1 := hA h
            have hsz := hI.size
            obtain ⟨k, hk⟩ : ∃ k, t.nodes.length = k + 1 := ⟨t.nodes.length - 1, by omega⟩
            rw [h1, hk, delete_subtree_final t k hI.final] at hd
            cases hd
            exact set_edge_self t cur (t.idx c) 1 (hI.reach pc cur hcur).1
              (by rw [hI.edges_len cur (hI.reach pc cur hcur).1]; exact hc.2) h1
          · intro _
            exact grafted_insRel hI pc cur _ hcur hc1 hT.2
      | cons c2 s =>
        have hidx : t.idxs (c :: c2 :: s) = t.idx c :: t.idxs (c2 :: s) := rfl
        by_cases he : t.edge cur (t.idx c) = 0
        · -- allocate a node and descend
          obtain ⟨hI1, hG, hn1, ha1, htr1⟩ := link_spec hI pc cur (t.idx c) hcur hc1 hc.2 he
          obtain ⟨t1, ht1⟩ : ∃ t1 : ftrie AS,
            t1 = (t.next_empty_node.2).set_edge cur (t.idx c) t.next_empty_node.1 := ⟨_, rfl⟩
          rw [← ht1] at hI1 hG ha1 htr1
          have hidx1 : ∀ x, t1.idx x = t.idx x := by
            intro x; simp only [ftrie.idx, ftrie.tr, htr1]
          have htr1b : ∀ x, t1.tr x = t.tr x := by
            intro x; simp only [ftrie.tr, htr1]
          have hidxs1 : t1.idxs (c2 :: s) = t.idxs (c2 :: s) := by
            simp only [ftrie.idxs]
            exact List.map_congr_left (fun x _ => hidx1 x)
          obtain ⟨t2, hi2, hI2, ha2, htr2, _, hB⟩ := ih t1 (pc ++ [t.idx c]) t.next_empty_node.1
            (by simp) hI1
            (fun x hx => by rw [htr1b, hidx1]; exact hs x (by simp [hx])) hG.1
          refine ⟨t2, ?_, hI2, by rw [ha2, ha1], by rw [htr2, htr1], ?_, ?_⟩
          · simp only [ftrie.insert_from, hst1, hst2, htr, if_false]
            rw [if_pos (by simpa [ftrie.idx] using he)]
            rw [ht1] at hi2
            exact hi2
          · rintro ⟨f, hf, hw⟩
            rw [hidx] at hf
            rcases List.prefix_cons_iff.1 hf with rfl | ⟨r, rfl, hr⟩
            · simp only [walk_nil, Option.some.injEq] at hw; exact absurd hw hc1
            · rw [walk_cons, if_pos he] at hw
              cases hw
          · intro _
            have hnoA : ¬ ∃ f, f <+: t1.idxs (c2 :: s) ∧ t1.walk t.next_empty_node.1 f = some 1 := by
              rintro ⟨f, hf, hw⟩
              cases f with
              | nil => simp only [walk_nil, Option.some.injEq] at hw; exact hn1 hw
              | cons w f =>
                have h1 := hG.2.1 (pc ++ [t.idx c] ++ w :: f) (List.prefix_append _ _) (by simp)
                rw [walk_append, hG.1] at h1
                simp only [Option.some_bind] at h1
                rw [h1] at hw
                cases hw
            have hR := hB hnoA
            rw [hidxs1, List.append_assoc, List.singleton_append, ← hidx] at hR
            refine ⟨hR.1, hR.2.1, fun q h1 h2 => ?_⟩
            rw [hR.2.2 q h1 h2]
            by_cases h3 : (pc ++ [t.idx c]) <+: q
            · have hne : q ≠ pc ++ [t.idx c] := by
                rintro rfl
                apply h1
                rw [hidx]
                exact ⟨t.idxs (c2 :: s), by simp⟩
              rw [hG.2.1 q h3 hne]
              obtain ⟨r, rfl⟩ := h3
              symm
              apply walk_none_append
              rw [walk_snoc, hcur]
              simp [he]
            · exact hG.2.2 q h3
        · -- follow the edge
          have hP : t.walk 0 (pc ++ [t.idx c]) = some (t.edge cur (t.idx c)) := by
            rw [walk_snoc, hcur]
            simp [he]
          obtain ⟨t2, hi2, hI2, ha2, htr2, hA, hB⟩ := ih t (pc ++ [t.idx c])
            (t.edge cur (t.idx c)) (by simp) hI (fun x hx => hs x (by simp [hx])) hP
          have hiff : (∃ f, f <+: t.idxs (c :: c2 :: s) ∧ t.walk cur f = some 1) ↔
              ∃ f, f <+: t.idxs (c2 :: s) ∧ t.walk (t.edge cur (t.idx c)) f = some 1 := by
            constructor
            · rintro ⟨f, hf, hw⟩
              rw [hidx] at hf
              rcases List.prefix_cons_iff.1 hf with rfl | ⟨r, rfl, hr⟩
              · simp only [walk_nil, Option.some.injEq] at hw; exact absurd hw hc1
              · rw [walk_cons, if_neg he] at hw
                exact ⟨r, hr, hw⟩
            · rintro ⟨f, hf, hw⟩
              refine ⟨t.idx c :: f, ?_, ?_⟩
              · rw [hidx]; exact List.cons_prefix_cons.2 ⟨rfl, hf⟩
              · rw [walk_cons, if_neg he]; exact hw
          refine ⟨t2, ?_, hI2, ha2, htr2, fun h => hA (hiff.1 h), fun h => ?_⟩
          · simp only [ftrie.insert_from, hst1, hst2, htr, if_false]
            rw [if_neg (by simpa [ftrie.idx] using he)]
            exact hi2
          · have hR := hB (fun h2 => h (hiff.2 h2))
            rw [List.append_assoc, List.singleton_append, ← hidx] at hR
            exact hR

/-- What `find` returns from the node `cur` on letters of the alphabet. -/
theorem find_from_spec {AS : Nat} {t : ftrie AS} (hI : t.Inv) (s : List Nat) :
    ∀ (pc : List Nat) (cur : Nat), (∀ c ∈ s, 0 ≤ t.tr c) → t.walk 0 pc = some cur →
      ((∃ f, f <+: t.idxs s ∧ t.walk cur f = some 1) → t.find_from s cur = .ok .HAS_PREFIX) ∧
      ((¬ ∃ f, f <+: t.idxs s ∧ t.walk cur f = some 1) →
        (t.walk cur (t.idxs s) = none → t.find_from s cur = .ok .NOT) ∧
        (t.walk cur (t.idxs s) ≠ none → t.find_from s cur = .ok .PREFIX_OF)) := by
  induction s with
  | nil =>
    intro pc cur _ hcur
    rcases hI.state_of_walk pc cur hcur with ⟨hc1, hst⟩ | ⟨hc1, hst⟩
    · refine ⟨fun _ => by simp [ftrie.find_from, hst], fun h => ?_⟩
      exact absurd ⟨[], by simp, by rw [hc1]; rfl⟩ h
    · refine ⟨?_, fun _ => ⟨?_, fun _ => by simp [ftrie.find_from, hst]⟩⟩
      · rintro ⟨f, hf, hw⟩
        simp only [ftrie.idxs, List.map_nil, List.prefix_nil] at hf
        subst hf
        simp only [walk_nil, Option.some.injEq] at hw
        exact absurd hw hc1
      · intro h
        simp [ftrie.idxs, walk_nil] at h
  | cons c s ih =>
    intro pc cur hs hcur
    have htr : ¬ t.tr c < 0 := by have := hs c (by simp); omega
    have hidx : t.idxs (c :: s) = t.idx c :: t.idxs s := rfl
    rcases hI.state_of_walk pc cur hcur with ⟨hc1, hst⟩ | ⟨hc1, hst⟩
    · refine ⟨fun _ => by simp [ftrie.find_from, hst], fun h => ?_⟩
      exact absurd ⟨[], by simp, by rw [hc1]; rfl⟩ h
    · have hst1 : (t.node_at cur).state ≠ .EMPTY := by rw [hst]; intro h; cases h
      have hst2 : (t.node_at cur).state ≠ .FINAL := by rw [hst]; intro h; cases h
      by_cases he : t.edge cur (t.idx c) = 0
      · have hf : t.find_from (c :: s) cur = .ok .NOT := by
          simp only [ftrie.find_from, hst1, hst2, htr, if_false]
          rw [if_pos (by simpa [ftrie.idx] using he)]
        refine ⟨?_, fun _ => ⟨fun _ => hf, fun h => ?_⟩⟩
        · rintro ⟨f, hf, hw⟩
          rw [hidx] at hf
          rcases List.prefix_cons_iff.1 hf with rfl | ⟨r, rfl, hr⟩
          · simp only [walk_nil, Option.some.injEq] at hw; exact absurd hw hc1
          · rw [walk_cons, if_pos he] at hw
            cases hw
        · rw [hidx, walk_cons, if_pos he] at h
          exact absurd rfl h
      · have hP : t.walk 0 (pc ++ [t.idx c]) = some (t.edge cur (t.idx c)) := by
          rw [walk_snoc, hcur]
          simp [he]
        have hf : t.find_from (c :: s) cur = t.find_from s (t.edge cur (t.idx c)) := by
          simp only [ftrie.find_from, hst1, hst2, htr, if_false]
          rw [if_neg (by simpa [ftrie.idx] using he)]
          rfl
        obtain ⟨h1, h2⟩ := ih (pc ++ [t.idx c]) (t.edge cur (t.idx c))
          (fun x hx => hs x (by simp [hx])) hP
        have hiff : (∃ f, f <+: t.idxs (c :: s) ∧ t.walk cur f = some 1) ↔
            ∃ f, f <+: t.idxs s ∧ t.walk (t.edge cur (t.idx c)) f = some 1 := by
          constructor
          · rintro ⟨f, hf, hw⟩
            rw [hidx] at hf
            rcases List.prefix_cons_iff.1 hf with rfl | ⟨r, rfl, hr⟩
            · simp only [walk_nil, Option.some.injEq] at hw; exact absurd hw hc1
            · rw [walk_cons, if_neg he] at hw
              exact ⟨r, hr, hw⟩
          · rintro ⟨f, hf, hw⟩
            refine ⟨t.idx c :: f, ?_, ?_⟩
            · rw [hidx]; exact List.cons_prefix_cons.2 ⟨rfl, hf⟩
            · rw [walk_cons, if_neg he]; exact hw
        rw [hf, hiff, hidx, walk_cons, if_neg he]
        exact ⟨h1, h2⟩

/-- What `find` returns on letters of the alphabet, in terms of the walks. -/
theorem find_spec {AS : Nat} {t : ftrie AS} (hI : t.Inv) (s : List Nat)
    (hs : ∀ c ∈ s, 0 ≤ t.tr c) :
    (t.has_final (t.idxs s) → t.find s = .ok .HAS_PREFIX) ∧
      (¬ t.has_final (t.idxs s) →
        (¬ t.live (t.idxs s) → t.find s = .ok .NOT) ∧
        (t.live (t.idxs s) → t.find s = .ok .PREFIX_OF)) := by
  have := find_from_spec hI s [] 0 hs rfl
  refine ⟨this.1, fun h => ⟨fun h2 => (this.2 h).1 (not_not.1 h2), (this.2 h).2⟩⟩

theorem live_of_prefix {AS : Nat} (t : ftrie AS) (p q : List Nat) (h : p <+: q)
    (hq : t.live q) : t.live p := by
  obtain ⟨r, rfl⟩ := h
  intro hp
  exact hq (walk_none_append t 0 p r hp)

/-- The effect of `insert` on the walks from the root: the string becomes a path
to the sentinel, everything beyond it goes, and nothing else changes. -/
theorem insert_abs {AS : Nat} (hAS : 0 < AS) {t : ftrie AS} (hI : t.Inv) (s : List Nat)
    (hne : s ≠ []) (hs : ∀ c ∈ s, 0 ≤ t.tr c ∧ t.idx c < AS) :
    ∃ t1, t.insert s = .ok t1 ∧ t1.Inv ∧ t1.alphabet = t.alphabet ∧
      t1.translate = t.translate ∧
      (t.has_final (t.idxs s) → t1 = t) ∧
      (∀ p, t1.has_final p ↔ t.idxs s <+: p ∨ t.has_final p) ∧
      (∀ p, ¬ t1.has_final p → (t1.live p ↔ p <+: t.idxs s ∨ t.live p)) := by
  obtain ⟨t1, hi, hI1, ha, htr, hA, hB⟩ := insert_from_spec hAS s t [] 0 hne hI hs rfl
  have hins : t.insert s = .ok t1 := by
    unfold ftrie.insert
    rw [if_neg (by simpa using hne)]
    exact hi
  refine ⟨t1, hins, hI1, ha, htr, hA, ?_⟩
  by_cases hf : t.has_final (t.idxs s)
  · have := hA hf
    subst this
    obtain ⟨f, hfP, hfw⟩ := hf
    refine ⟨fun p => ⟨fun h => Or.inr h, ?_⟩, fun p hp => ⟨fun h => Or.inr h, ?_⟩⟩
    · rintro (h | h)
      · exact ⟨f, hfP.trans h, hfw⟩
      · exact h
    · rintro (h | h)
      · rcases List.prefix_or_prefix_of_prefix hfP h with h2 | h2
        · exact absurd ⟨f, h2, hfw⟩ hp
        · exact live_of_prefix t1 p f h2 (by unfold ftrie.live; rw [hfw]; simp)
      · exact h
  · obtain ⟨h1, h2, h3⟩ := hB hf
    simp only [List.nil_append] at h1 h2 h3
    have hS1 : ∀ p, t1.has_final p ↔ t.idxs s <+: p ∨ t.has_final p := by
      intro p
      constructor
      · rintro ⟨f, hfp, hfw⟩
        by_cases hPp : t.idxs s <+: p
        · exact Or.inl hPp
        · right
          have hPf : ¬ t.idxs s <+: f := fun h => hPp (h.trans hfp)
          have hfP : ¬ f <+: t.idxs s := by
            intro h
            have hne2 : f ≠ t.idxs s := by rintro rfl; exact hPp hfp
            obtain ⟨m, hm, hm1⟩ := h2 f h hne2
            rw [hfw] at hm
            exact hm1 (Option.some.inj hm).symm
          exact ⟨f, hfp, by rw [← h3 f hfP hPf]; exact hfw⟩
      · rintro (h | ⟨f, hfp, hfw⟩)
        · exact ⟨t.idxs s, h, h1⟩
        · by_cases hPp : t.idxs s <+: p
          · exact ⟨t.idxs s, hPp, h1⟩
          · have hPf : ¬ t.idxs s <+: f := fun h => hPp (h.trans hfp)
            have hfP : ¬ f <+: t.idxs s := fun h => hf ⟨f, h, hfw⟩
            exact ⟨f, hfp, by rw [h3 f hfP hPf]; exact hfw⟩
    refine ⟨hS1, fun p hp => ?_⟩
    have hPp : ¬ t.idxs s <+: p := fun h => hp ((hS1 p).2 (Or.inl h))
    by_cases hpP : p <+: t.idxs s
    · have hne2 : p ≠ t.idxs s := by rintro rfl; exact hPp (List.prefix_refl _)
      obtain ⟨m, hm, _⟩ := h2 p hpP hne2
      exact ⟨fun _ => Or.inl hpP, fun _ => by unfold ftrie.live; rw [hm]; simp⟩
    · unfold ftrie.live
      rw [h3 p hpP hPp]
      exact ⟨fun h => Or.inr h, fun h => h.resolve_left hpP⟩

theorem ftrie.Inv.prefix_ne_one {AS : Nat} {t : ftrie AS} (hI : t.Inv) (pc : List Nat)
    (cur : Nat) (hcur : t.walk 0 pc = some cur) (hc1 : cur ≠ 1) (q : List Nat)
    (hq : q <+: pc) : ∃ m, t.walk 0 q = some m ∧ m ≠ 1 := by
  obtain ⟨r, rfl⟩ := hq
  obtain ⟨m, hm, hm2⟩ := walk_prefix t 0 q r cur hcur
  refine ⟨m, hm, ?_⟩
  by_cases hr : r = []
  · subst hr
    simp only [walk_nil, Option.some.injEq] at hm2
    rw [hm2]; exact hc1
  · exact hI.walk_proper_ne_one 0 q r cur m hr hm hcur

/-- `insert` from the node `cur` reached along `pc`, on a string whose first
letter outside the alphabet is `x`, after the letters `u`: it returns without a
change when the walk along `u` meets the sentinel, and otherwise throws
`invalid_letter`, having made `u` a path of the trie. -/
theorem insert_from_invalid {AS : Nat} (u : List Nat) :
    ∀ (t : ftrie AS) (pc : List Nat) (cur : Nat) (x : Nat) (r : List Nat), t.Inv →
      (∀ c ∈ u, 0 ≤ t.tr c ∧ t.idx c < AS) → t.tr x < 0 → t.walk 0 pc = some cur →
      ((∃ f, f <+: t.idxs u ∧ t.walk cur f = some 1) →
        ftrie.insert_from (u ++ x :: r) t cur = .ok t) ∧
      ((¬ ∃ f, f <+: t.idxs u ∧ t.walk cur f = some 1) →
        ∃ t1, ftrie.insert_from (u ++ x :: r) t cur = .error (.invalid_letter, t1) ∧
          t1.Inv ∧ t1.alphabet = t.alphabet ∧ t1.translate = t.translate ∧
          (∀ q, q <+: pc ++ t.idxs u → ∃ m, t1.walk 0 q = some m ∧ m ≠ 1) ∧
          (∀ q, ¬ q <+: pc ++ t.idxs u → t1.walk 0 q = t.walk 0 q)) := by
  induction u with
  | nil =>
    intro t pc cur x r hI _ hx hcur
    rcases hI.state_of_walk pc cur hcur with ⟨hc1, hst⟩ | ⟨hc1, hst⟩
    · refine ⟨fun _ => ?_, fun h => absurd ⟨[], by simp, by rw [hc1]; rfl⟩ h⟩
      cases r with
      | nil => simp [ftrie.insert_from, hst]
      | cons c2 r => simp [ftrie.insert_from, hst]
    · have hst1 : (t.node_at cur).state ≠ .EMPTY := by rw [hst]; intro h; cases h
      have hst2 : (t.node_at cur).state ≠ .FINAL := by rw [hst]; intro h; cases h
      refine ⟨?_, fun _ => ⟨t, ?_, hI, rfl, rfl, ?_, fun _ _ => rfl⟩⟩
      · rintro ⟨f, hf, hw⟩
        simp only [ftrie.idxs, List.map_nil, List.prefix_nil] at hf
        subst hf
        simp only [walk_nil, Option.some.injEq] at hw
        exact absurd hw hc1
      · cases r with
        | nil => simp [ftrie.insert_from, hst1, hst2, hx]
        | cons c2 r => simp [ftrie.insert_from, hst1, hst2, hx]
      · intro q hq
        simp only [ftrie.idxs, List.map_nil, List.append_nil] at hq
        exact hI.prefix_ne_one pc cur hcur hc1 q hq
  | cons c u ih =>
    intro t pc cur x r hI hs hx hcur
    have hc := hs c (by simp)
    have htr : ¬ t.tr c < 0 := by omega
    have hidx : t.idxs (c :: u) = t.idx c :: t.idxs u := rfl
    obtain ⟨c2, rest, hrest⟩ : ∃ c2 rest, u ++ x :: r = c2 :: rest := by
      cases u with
      | nil => exact ⟨x, r, rfl⟩
      | cons c2 u => exact ⟨c2, u ++ x :: r, rfl⟩
    rcases hI.state_of_walk pc cur hcur with ⟨hc1, hst⟩ | ⟨hc1, hst⟩
    · refine ⟨fun _ => ?_, fun h => absurd ⟨[], by simp, by rw [hc1]; rfl⟩ h⟩
      rw [List.cons_append, hrest]
      simp [ftrie.insert_from, hst]
    · have hst1 : (t.node_at cur).state ≠ .EMPTY := by rw [hst]; intro h; cases h
      have hst2 : (t.node_at cur).state ≠ .FINAL := by rw [hst]; intro h; cases h
      by_cases he : t.edge cur (t.idx c) = 0
      · obtain ⟨hI1, hG, hn1, ha1, htr1⟩ := link_spec hI pc cur (t.idx c) hcur hc1 hc.2 he
        obtain ⟨t1, ht1⟩ : ∃ t1 : ftrie AS,
          t1 = (t.next_empty_node.2).set_edge cur (t.idx c) t.next_empty_node.1 := ⟨_, rfl⟩
        rw [← ht1] at hI1 hG ha1 htr1
        have hidx1 : ∀ y, t1.idx y = t.idx y := by
          intro y; simp only [ftrie.idx, ftrie.tr, htr1]
        have htr1b : ∀ y, t1.tr y = t.tr y := by
          intro y; simp only [ftrie.tr, htr1]
        have hidxs1 : t1.idxs u = t.idxs u := by
          simp only [ftrie.idxs]
          exact List.map_congr_left (fun y _ => hidx1 y)
        have hstep : ftrie.insert_from (c :: u ++ x :: r) t cur =
            ftrie.insert_from (u ++ x :: r) t1 t.next_empty_node.1 := by
          rw [List.cons_append, hrest]
          simp only [ftrie.insert_from, hst1, hst2, htr, if_false]
          rw [if_pos (by simpa [ftrie.idx] using he), ht1]
          rfl
        obtain ⟨_, hB⟩ := ih t1 (pc ++ [t.idx c]) t.next_empty_node.1 x r hI1
          (fun y hy => by rw [htr1b, hidx1]; exact hs y (by simp [hy]))
          (by rw [htr1b]; exact hx) hG.1
        refine ⟨?_, fun _ => ?_⟩
        · rintro ⟨f, hf, hw⟩
          rw [hidx] at hf
          rcases List.prefix_cons_iff.1 hf with rfl | ⟨r2, rfl, hr⟩
          · simp only [walk_nil, Option.some.injEq] at hw; exact absurd hw hc1
          · rw [walk_cons, if_pos he] at hw
            cases hw
        · have hnoA : ¬ ∃ f, f <+: t1.idxs u ∧ t1.walk t.next_empty_node.1 f = some 1 := by
            rintro ⟨f, hf, hw⟩
            cases f with
            | nil => simp only [walk_nil, Option.some.injEq] at hw; exact hn1 hw
            | cons w f =>
              have h1 := hG.2.1 (pc ++ [t.idx c] ++ w :: f) (List.prefix_append _ _) (by simp)
              rw [walk_append, hG.1] at h1
              simp only [Option.some_bind] at h1
              rw [h1] at hw
              cases hw
          obtain ⟨t2, hi2, hI2, ha2, htr2, hR1, hR2⟩ := hB hnoA
          rw [hidxs1, List.append_assoc, List.singleton_append, ← hidx] at hR1 hR2
          refine ⟨t2, by rw [hstep]; exact hi2, hI2, by rw [ha2, ha1], by rw [htr2, htr1],
            hR1, fun q h1 => ?_⟩
          rw [hR2 q h1]
          by_cases h3 : (pc ++ [t.idx c]) <+: q
          · have hne : q ≠ pc ++ [t.idx c] := by
              rintro rfl
              apply h1
              rw [hidx]
              exact ⟨t.idxs u, by simp⟩
            rw [hG.2.1 q h3 hne]
            obtain ⟨r3, rfl⟩ := h3
            symm
            apply walk_none_append
            rw [walk_snoc, hcur]
            simp [he]
          · exact hG.2.2 q h3
      · have hP : t.walk 0 (pc ++ [t.idx c]) = some (t.edge cur (t.idx c)) := by
          rw [walk_snoc, hcur]
          simp [he]
        have hstep : ftrie.insert_from (c :: u ++ x :: r) t cur =
            ftrie.insert_from (u ++ x :: r) t (t.edge cur (t.idx c)) := by
          rw [List.cons_append, hrest]
          simp only [ftrie.insert_from, hst1, hst2, htr, if_false]
          rw [if_neg (by simpa [ftrie.idx] using he)]
          rfl
        obtain ⟨hA, hB⟩ := ih t (pc ++ [t.idx c]) (t.edge cur (t.idx c)) x r hI
          (fun y hy => hs y (by simp [hy])) hx hP
        have hiff : (∃ f, f <+: t.idxs (c :: u) ∧ t.walk cur f = some 1) ↔
            ∃ f, f <+: t.idxs u ∧ t.walk (t.edge cur (t.idx c)) f = some 1 := by
          constructor
          · rintro ⟨f, hf, hw⟩
            rw [hidx] at hf
            rcases List.prefix_cons_iff.1 hf with rfl | ⟨r2, rfl, hr⟩
            · simp only [walk_nil, Option.some.injEq] at hw; exact absurd hw hc1
            · rw [walk_cons, if_neg he] at hw
              exact ⟨r2, hr, hw⟩
          · rintro ⟨f, hf, hw⟩
            refine ⟨t.idx c :: f, ?_, ?_⟩
            · rw [hidx]; exact List.cons_prefix_cons.2 ⟨rfl, hf⟩
            · rw [walk_cons, if_neg he]; exact hw
        refine ⟨fun h => by rw [hstep]; exact hA (hiff.1 h), fun h => ?_⟩
        obtain ⟨t2, hi2, hI2, ha2, htr2, hR1, hR2⟩ := hB (fun h2 => h (hiff.2 h2))
        rw [List.append_assoc, List.singleton_append, ← hidx] at hR1 hR2
        exact ⟨t2, by rw [hstep]; exact hi2, hI2, ha2, htr2, hR1, hR2⟩

theorem fill_length (a : List Nat) (i : Nat) (res : List Int) :
    (create_translate_fill a i res).length = res.length := by
  induction a generalizing i res with
  | nil => rfl
  | cons x xs ih => simp only [create_translate_fill]; rw [ih]; simp

theorem ftrie.Good.tr_nonneg {AS : Nat} {a : List Nat} {t : ftrie AS} (hG : t.Good a)
    (c : Nat) (h : 0 ≤ t.tr c) : c ∈ a ∧ c < 256 ∧ t.idx c < AS := by
  have hmem : c ∈ a := by
    by_contra hc
    have := tr_not_mem t a hG.trans c hc
    omega
  have hlt : c < 256 := by
    by_contra hc
    obtain ⟨_, h2⟩ := create_translate_ok AS a _ hG.trans
    have hl : t.translate.length = 256 := by
      rw [h2, fill_length, List.length_replicate]
    have : t.tr c = -1 := by
      simp only [ftrie.tr, List.getD_eq_getElem?_getD]
      rw [List.getElem?_eq_none (by omega)]
      rfl
    omega
  exact ⟨hmem, hlt, (tr_mem t a hG.trans c hmem hlt).2.1⟩

theorem ftrie.Good.tr_valid {AS : Nat} {a : List Nat} {t : ftrie AS} (hG : t.Good a)
    (hbytes : ∀ c ∈ a, c < 256) (s : List Nat) (hs : ∀ c ∈ s, c ∈ a) :
    ∀ c ∈ s, 0 ≤ t.tr c ∧ t.idx c < AS := by
  intro c hc
  have := tr_mem t a hG.trans c (hs c hc) (hbytes c (hs c hc))
  exact ⟨this.1, this.2.1⟩

theorem split_invalid {AS : Nat} (t : ftrie AS) (s : List Nat) :
    (∀ c ∈ s, 0 ≤ t.tr c) ∨
      ∃ u x r, s = u ++ x :: r ∧ (∀ c ∈ u, 0 ≤ t.tr c) ∧ t.tr x < 0 := by
  induction s with
  | nil => left; simp
  | cons c s ih =>
    by_cases hc : 0 ≤ t.tr c
    · rcases ih with h | ⟨u, x, r, rfl, hu, hx⟩
      · left
        intro y hy
        rcases List.mem_cons.1 hy with rfl | hy
        · exact hc
        · exact h y hy
      · right
        refine ⟨c :: u, x, r, rfl, ?_, hx⟩
        intro y hy
        rcases List.mem_cons.1 hy with rfl | hy
        · exact hc
        · exact hu y hy
    · right
      exact ⟨[], c, s, rfl, by simp, by omega⟩

theorem fresh_good {AS : Nat} (a : List Nat) (t : ftrie AS) (h : ftrie.ctor AS a = .ok t) :
    t.Good a := by
  obtain ⟨h1, h2, h3, _⟩ := fresh_inv AS a t h
  exact ⟨h1, h2, h3⟩

/-- Every call of `insert` on a trie in order either returns or throws
`invalid_letter`, and leaves a trie in order. -/
theorem ftrie.Good.insert_cases {AS : Nat} (hAS : 0 < AS) {a : List Nat} {t : ftrie AS}
    (hG : t.Good a) (s : List Nat) :
    (∃ t1, t.insert s = .ok t1 ∧ t1.Good a) ∨
      (∃ t1, t.insert s = .error (.invalid_letter, t1) ∧ t1.Good a) := by
  by_cases hne : s = []
  · left
    subst hne
    exact ⟨t, rfl, hG⟩
  · rcases split_invalid t s with h | ⟨u, x, r, rfl, hu, hx⟩
    · obtain ⟨t1, hi, hI1, ha, htr, _⟩ := insert_abs hAS hG.inv s hne
        (fun c hc => ⟨h c hc, (hG.tr_nonneg c (h c hc)).2.2⟩)
      left
      exact ⟨t1, hi, hI1, by rw [ha]; exact hG.alph, by rw [htr]; exact hG.trans⟩
    · have hins : t.insert (u ++ x :: r) = ftrie.insert_from (u ++ x :: r) t 0 := by
        unfold ftrie.insert
        rw [if_neg (by simp)]
        rfl
      obtain ⟨hA, hB⟩ := insert_from_invalid u t [] 0 x r hG.inv
        (fun c hc => ⟨hu c hc, (hG.tr_nonneg c (hu c hc)).2.2⟩) hx rfl
      by_cases hf : ∃ f, f <+: t.idxs u ∧ t.walk 0 f = some 1
      · left
        exact ⟨t, by rw [hins]; exact hA hf, hG⟩
      · right
        obtain ⟨t1, hi, hI1, ha, htr, _⟩ := hB hf
        exact ⟨t1, by rw [hins]; exact hi, hI1, by rw [ha]; exact hG.alph,
          by rw [htr]; exact hG.trans⟩

theorem reachableOk_good {AS : Nat} (hAS : 0 < AS) {a : List Nat} {t : ftrie AS}
    (h : t.ReachableOk a) : t.Good a := by
  induction h with
  | fresh t h => exact fresh_good a t h
  | insert t t1 s _ hi ih =>
    rcases ih.insert_cases hAS s with ⟨t2, h2, hG2⟩ | ⟨t2, h2, _⟩
    · rw [hi] at h2
      cases h2
      exact hG2
    · rw [hi] at h2
      cases h2

theorem reachable_good {AS : Nat} (hAS : 0 < AS) {a : List Nat} {t : ftrie AS}
    (h : t.Reachable a) : t.Good a := by
  induction h with
  | fresh t h => exact fresh_good a t h
  | insert t s _ _ ih =>
    rcases ih.insert_cases hAS s with ⟨t2, h2, hG2⟩ | ⟨t2, h2, hG2⟩
    · simp only [ftrie.after_insert, h2]
      exact hG2
    · simp only [ftrie.after_insert, h2]
      exact hG2

theorem idxs_congr {AS : Nat} (t t1 : ftrie AS) (h : t1.translate = t.translate)
    (s : List Nat) : t1.idxs s = t.idxs s := by
  apply List.map_congr_left
  intro c _
  simp only [ftrie.idx, ftrie.tr, h]

theorem tr_congr {AS : Nat} (t t1 : ftrie AS) (h : t1.translate = t.translate)
    (c : Nat) : t1.tr c = t.tr c := by
  simp only [ftrie.tr, h]

theorem trie_AC_reachableOk : trie_AC.ReachableOk ACGT :=
  ftrie.ReachableOk.insert fresh_ACGT trie_AC [65, 67]
    (ftrie.ReachableOk.fresh fresh_ACGT rfl) rfl

theorem trie_AC_reachable : trie_AC.Reachable ACGT :=
  ftrie.Reachable.insert fresh_ACGT [65, 67] (ftrie.Reachable.fresh fresh_ACGT rfl)
    (by decide)

/-- C2: on a trie reached by successful inserts, `insert(s)` of a non-empty string
over the alphabet returns, and `find(s)` then returns `HAS_PREFIX`. -/
theorem C2_find_after_insert {AS : Nat} (hAS : 0 < AS) (a : List Nat)
    (hbytes : ∀ c ∈ a, c < 256) (t : ftrie AS) (ht : t.ReachableOk a) (s : List Nat)
    (hne : s ≠ []) (hs : ∀ c ∈ s, c ∈ a) :
    ∃ t1, t.insert s = .ok t1 ∧ t1.find s = .ok .HAS_PREFIX := by
  have hG := reachableOk_good hAS ht
  have hv := hG.tr_valid hbytes s hs
  obtain ⟨t1, hi, hI1, _, htr, _, hS1, _⟩ := insert_abs hAS hG.inv s hne hv
  refine ⟨t1, hi, ?_⟩
  apply (find_spec hI1 s (fun c hc => by rw [tr_congr t t1 htr]; exact (hv c hc).1)).1
  rw [idxs_congr t t1 htr, hS1]
  exact Or.inl (List.prefix_refl _)

/-- C2 on the trie holding "AC", for the string "ACG". -/
theorem C2_witness :
    ∃ t1, trie_AC.insert [65, 67, 71] = .ok t1 ∧ t1.find [65, 67, 71] = .ok .HAS_PREFIX :=
  C2_find_after_insert (by decide) ACGT (by decide) trie_AC trie_AC_reachableOk
    [65, 67, 71] (by decide) (by decide)

/-- C6: on a trie reached by successful inserts, after `insert(s)` of a non-empty
string over the alphabet the call `insert(s·u)`, for any string `u` over the
alphabet, returns and leaves the trie (arena, free list head and all) as it was. -/
theorem C6_insert_extension_noop {AS : Nat} (hAS : 0 < AS) (a : List Nat)
    (hbytes : ∀ c ∈ a, c < 256) (t : ftrie AS) (ht : t.ReachableOk a) (s u : List Nat)
    (hne : s ≠ []) (hs : ∀ c ∈ s, c ∈ a) (hu : ∀ c ∈ u, c ∈ a) :
    ∃ t1, t.insert s = .ok t1 ∧ t1.insert (s ++ u) = .ok t1 := by
  have hG := reachableOk_good hAS ht
  have hv := hG.tr_valid hbytes s hs
  obtain ⟨t1, hi, hI1, ha, htr, _, hS1, _⟩ := insert_abs hAS hG.inv s hne hv
  have hG1 : t1.Good a := ⟨hI1, by rw [ha]; exact hG.alph, by rw [htr]; exact hG.trans⟩
  have hv1 := hG1.tr_valid hbytes (s ++ u) (fun c hc => by
    rcases List.mem_append.1 hc with h | h
    · exact hs c h
    · exact hu c h)
  obtain ⟨t2, hi2, _, _, _, hA, _⟩ := insert_abs hAS hI1 (s ++ u) (by simp [hne]) hv1
  refine ⟨t1, hi, ?_⟩
  have : t2 = t1 := by
    apply hA
    obtain ⟨f, hf, hw⟩ := (hS1 (t.idxs s)).2 (Or.inl (List.prefix_refl _))
    refine ⟨f, hf.trans ?_, hw⟩
    rw [← idxs_congr t t1 htr]
    simp only [ftrie.idxs, List.map_append]
    exact List.prefix_append _ _
  rw [this] at hi2
  exact hi2

/-- C6 on the trie holding "AC", for the string "GT" and its extension "GTA". -/
theorem C6_witness :
    ∃ t1, trie_AC.insert [71, 84] = .ok t1 ∧ t1.insert ([71, 84] ++ [65]) = .ok t1 :=
  C6_insert_extension_noop (by decide) ACGT (by decide) trie_AC trie_AC_reachableOk
    [71, 84] [65] (by decide) (by decide) (by decide)

/-- C9 fails as stated: on the trie holding "AC" the string "ACX" contains the
letter `X`, which is not in `"ACGT"`, and `insert("ACX")` returns without an error
(and without a change). -/
theorem C9_counterexample :
    (∃ c ∈ [65, 67, 88], c ∉ trie_AC.alphabet) ∧
      trie_AC.insert [65, 67, 88] = .ok trie_AC :=
  ⟨by decide, by rfl⟩

/-- C9, amended: on a trie reached by inserts of strings of characters with codes
below 128, let `x` be the first letter of the string that is not in the alphabet,
with a code below 128, and `u` the letters before it. `insert` throws
`invalid_letter` when `find(u)` is not `HAS_PREFIX`, and returns without an error
and without a change when `find(u)` is `HAS_PREFIX`. -/
theorem C9_insert_invalid_letter {AS : Nat} (hAS : 0 < AS) (a : List Nat)
    (hbytes : ∀ c ∈ a, c < 256) (t : ftrie AS) (ht : t.Reachable a)
    (u : List Nat) (x : Nat) (r : List Nat) (hu : ∀ c ∈ u, c ∈ a)
    (hx : x < 128 ∧ x ∉ a) :
    (t.find u = .ok .HAS_PREFIX → t.insert (u ++ x :: r) = .ok t) ∧
      (t.find u ≠ .ok .HAS_PREFIX →
        ∃ t1, t.insert (u ++ x :: r) = .error (.invalid_letter, t1)) := by
  have hG := reachable_good hAS ht
  have hv := hG.tr_valid hbytes u hu
  have hins : t.insert (u ++ x :: r) = ftrie.insert_from (u ++ x :: r) t 0 := by
    unfold ftrie.insert
    rw [if_neg (by simp)]
    rfl
  obtain ⟨hA, hB⟩ := insert_from_invalid u t [] 0 x r hG.inv hv
    (tr_not_mem t a hG.trans x hx.2) rfl
  obtain ⟨hF1, hF2⟩ := find_spec hG.inv u (fun c hc => (hv c hc).1)
  have hiff : t.find u = .ok .HAS_PREFIX ↔ t.has_final (t.idxs u) := by
    constructor
    · intro h
      by_contra hf
      by_cases hl : t.live (t.idxs u)
      · rw [(hF2 hf).2 hl] at h; cases h
      · rw [(hF2 hf).1 hl] at h; cases h
    · exact hF1
  refine ⟨fun h => by rw [hins]; exact hA (hiff.1 h), fun h => ?_⟩
  obtain ⟨t1, hi, _⟩ := hB (fun hf => h (hiff.2 hf))
  exact ⟨t1, by rw [hins]; exact hi⟩

/-- C9, amended, on the trie holding "AC": `insert("AX")` throws, since `find("A")`
is `PREFIX_OF`. -/
theorem C9_witness : ∃ t1, trie_AC.insert ([65] ++ 88 :: []) = .error (.invalid_letter, t1) :=
  (C9_insert_invalid_letter (by decide) ACGT (by decide) trie_AC trie_AC_reachable
    [65] 88 [] (by decide) (by decide)).2 (by decide)

/-- C10: on the fresh trie over `"ACGT"` the call `insert("AX")` throws
`invalid_letter` and leaves the node it allocated linked below the root:
`find("A")` changes from `NOT` to `PREFIX_OF`, `all_mers(1)` from nothing to
`["A"]`, and `size(1)` from 0 to 1. -/
theorem C10_failed_insert_is_visible :
    fresh_ACGT.insert [65, 88] = .error (.invalid_letter, fresh_ACGT.after_insert [65, 88]) ∧
      (fresh_ACGT.after_insert [65, 88]).walk 0 [0] = some 2 ∧
      fresh_ACGT.find [65] = .ok .NOT ∧
      (fresh_ACGT.after_insert [65, 88]).find [65] = .ok .PREFIX_OF ∧
      fresh_ACGT.all_mers 1 = [] ∧
      (fresh_ACGT.after_insert [65, 88]).all_mers 1 = [[65]] ∧
      fresh_ACGT.size 1 = 0 ∧
      (fresh_ACGT.after_insert [65, 88]).size 1 = 1 := by
  refine ⟨by rfl, by rfl, by rfl, by rfl, by rfl, by rfl, by rfl, by rfl⟩

theorem holds_fresh {AS : Nat} (a : List Nat) (t : ftrie AS) (h : ftrie.ctor AS a = .ok t) :
    t.Holds [] := by
  obtain ⟨_, _, _, _, hw⟩ := fresh_inv AS a t h
  refine ⟨fun p => ⟨?_, by simp⟩, fun p _ => ?_⟩
  · rintro ⟨f, _, hf⟩
    rw [hw] at hf
    split at hf
    · cases hf
    · cases hf
  · unfold ftrie.live
    rw [hw]
    by_cases hp : p = [] <;> simp [hp]

theorem holds_insert {AS : Nat} (hAS : 0 < AS) {a : List Nat} {t : ftrie AS} (hG : t.Good a)
    (hbytes : ∀ c ∈ a, c < 256) (D : List (List Nat)) (hD : t.Holds D) (s : List Nat)
    (hne : s ≠ []) (hs : ∀ c ∈ s, c ∈ a) :
    ∃ t1, t.insert s = .ok t1 ∧ t1.Good a ∧ t1.Holds (s :: D) := by
  obtain ⟨t1, hi, hI1, ha, htr, _, hS1, hS2⟩ := insert_abs hAS hG.inv s hne
    (hG.tr_valid hbytes s hs)
  have hidx : ∀ x, t1.idxs x = t.idxs x := idxs_congr t t1 htr
  refine ⟨t1, hi, ⟨hI1, by rw [ha]; exact hG.alph, by rw [htr]; exact hG.trans⟩, ?_, ?_⟩
  · intro p
    rw [hS1, hD.1]
    simp only [List.mem_cons, exists_eq_or_imp, hidx]
  · intro p hp
    have hp2 : ¬ t.has_final p := fun h => hp ((hS1 p).2 (Or.inr h))
    rw [hS2 p hp, hD.2 p hp2]
    simp only [List.mem_cons, exists_eq_or_imp, hidx]
    tauto

theorem holds_insert_all {AS : Nat} (hAS : 0 < AS) {a : List Nat}
    (hbytes : ∀ c ∈ a, c < 256) (ss : List (List Nat)) :
    ∀ (t : ftrie AS) (D : List (List Nat)), t.Good a → t.Holds D →
      (∀ s ∈ ss, s ≠ [] ∧ ∀ c ∈ s, c ∈ a) →
      ∃ t1 D1, t.insert_all ss = .ok t1 ∧ t1.Good a ∧ t1.Holds D1 ∧
        ∀ s, s ∈ D1 ↔ s ∈ ss ∨ s ∈ D := by
  induction ss with
  | nil =>
    intro t D hG hD _
    exact ⟨t, D, rfl, hG, hD, by simp⟩
  | cons s ss ih =>
    intro t D hG hD hss
    obtain ⟨t1, hi, hG1, hD1⟩ := holds_insert hAS hG hbytes D hD s (hss s (by simp)).1
      (hss s (by simp)).2
    obtain ⟨t2, D2, hi2, hG2, hD2, hm⟩ := ih t1 (s :: D) hG1 hD1
      (fun x hx => hss x (by simp [hx]))
    refine ⟨t2, D2, ?_, hG2, hD2, ?_⟩
    · simp only [ftrie.insert_all, hi]
      exact hi2
    · intro x
      rw [hm]
      simp only [List.mem_cons]
      tauto

theorem map_prefix_iff {α β : Type} (f : α → β) (s q : List α)
    (hinj : ∀ x ∈ s, ∀ y ∈ q, f x = f y → x = y) : s.map f <+: q.map f ↔ s <+: q := by
  constructor
  · intro h
    induction s generalizing q with
    | nil => simp
    | cons x s ih =>
      cases q with
      | nil => simp at h
      | cons y q =>
        simp only [List.map_cons, List.cons_prefix_cons] at h ⊢
        refine ⟨hinj x (by simp) y (by simp) h.1, ih q ?_ h.2⟩
        intro x2 hx2 y2 hy2
        exact hinj x2 (by simp [hx2]) y2 (by simp [hy2])
  · rintro ⟨r, rfl⟩
    simp

theorem ftrie.Good.idx_inj {AS : Nat} {a : List Nat} {t : ftrie AS} (hG : t.Good a)
    (hbytes : ∀ c ∈ a, c < 256) (x y : Nat) (hx : x ∈ a) (hy : y ∈ a)
    (h : t.idx x = t.idx y) : x = y := by
  have h1 := (tr_mem t a hG.trans x hx (hbytes x hx)).2.2
  have h2 := (tr_mem t a hG.trans y hy (hbytes y hy)).2.2
  rw [← h1, ← h2, h]

theorem ftrie.Good.idxs_prefix_iff {AS : Nat} {a : List Nat} {t : ftrie AS} (hG : t.Good a)
    (hbytes : ∀ c ∈ a, c < 256) (s q : List Nat) (hs : ∀ c ∈ s, c ∈ a)
    (hq : ∀ c ∈ q, c ∈ a) : t.idxs s <+: t.idxs q ↔ s <+: q :=
  map_prefix_iff t.idx s q (fun x hx y hy h => hG.idx_inj hbytes x y (hs x hx) (hq y hy) h)

/-- The walks of the trie built by inserting the strings `ss`, for paths that
spell strings over the alphabet. -/
theorem insert_all_spec {AS : Nat} (hAS : 0 < AS) (a : List Nat)
    (hbytes : ∀ c ∈ a, c < 256) (t0 : ftrie AS) (h0 : ftrie.ctor AS a = .ok t0)
    (ss : List (List Nat)) (hss : ∀ s ∈ ss, s ≠ [] ∧ ∀ c ∈ s, c ∈ a) :
    ∃ t, t0.insert_all ss = .ok t ∧ t.Good a ∧
      ∀ q, (∀ c ∈ q, c ∈ a) →
        (t.has_final (t.idxs q) ↔ ∃ s ∈ ss, s <+: q) ∧
        (¬ t.has_final (t.idxs q) →
          (t.live (t.idxs q) ↔ (q = [] ∨ ∃ s ∈ ss, q <+: s))) := by
  obtain ⟨t, D, hi, hG, hD, hm⟩ := holds_insert_all hAS hbytes ss t0 [] (fresh_good a t0 h0)
    (holds_fresh a t0 h0) hss
  have hDs : ∀ s, s ∈ D ↔ s ∈ ss := by
    intro s
    rw [hm]
    simp
  refine ⟨t, hi, hG, fun q hq => ⟨?_, fun hf => ?_⟩⟩
  · rw [hD.1]
    constructor
    · rintro ⟨s, hs, hp⟩
      have hs2 := (hDs s).1 hs
      exact ⟨s, hs2, (hG.idxs_prefix_iff hbytes s q (hss s hs2).2 hq).1 hp⟩
    · rintro ⟨s, hs, hp⟩
      exact ⟨s, (hDs s).2 hs, (hG.idxs_prefix_iff hbytes s q (hss s hs).2 hq).2 hp⟩
  · rw [hD.2 _ hf]
    have hnil : t.idxs q = [] ↔ q = [] := by simp [ftrie.idxs]
    rw [hnil]
    constructor
    · rintro (h | ⟨s, hs, hp⟩)
      · exact Or.inl h
      · have hs2 := (hDs s).1 hs
        exact Or.inr ⟨s, hs2, (hG.idxs_prefix_iff hbytes q s hq (hss s hs2).2).1 hp⟩
    · rintro (h | ⟨s, hs, hp⟩)
      · exact Or.inl h
      · exact Or.inr ⟨s, (hDs s).2 hs,
          (hG.idxs_prefix_iff hbytes q s hq (hss s hs).2).2 hp⟩

/-- C1: on the trie built from a fresh trie by inserting non-empty strings over
the alphabet, every insert returns, and `find(q)` for a query over the alphabet is
`HAS_PREFIX` exactly when an inserted string is a prefix of `q`; otherwise it is
`PREFIX_OF` exactly when `q` is empty or a prefix of an inserted string; otherwise
it is `NOT`. -/
theorem C1_find_characterisation {AS : Nat} (hAS : 0 < AS) (a : List Nat)
    (hbytes : ∀ c ∈ a, c < 256) (t0 : ftrie AS) (h0 : ftrie.ctor AS a = .ok t0)
    (ss : List (List Nat)) (hss : ∀ s ∈ ss, s ≠ [] ∧ ∀ c ∈ s, c ∈ a)
    (q : List Nat) (hq : ∀ c ∈ q, c ∈ a) :
    ∃ t, t0.insert_all ss = .ok t ∧
      (t.find q = .ok .HAS_PREFIX ↔ ∃ s ∈ ss, s <+: q) ∧
      ((¬ ∃ s ∈ ss, s <+: q) →
        (t.find q = .ok .PREFIX_OF ↔ (q = [] ∨ ∃ s ∈ ss, q <+: s))) ∧
      ((¬ ∃ s ∈ ss, s <+: q) → ¬ (q = [] ∨ ∃ s ∈ ss, q <+: s) → t.find q = .ok .NOT) := by
  obtain ⟨t, hi, hG, hch⟩ := insert_all_spec hAS a hbytes t0 h0 ss hss
  obtain ⟨hfin, hlive⟩ := hch q hq
  obtain ⟨hF1, hF2⟩ := find_spec hG.inv q (fun c hc => (hG.tr_valid hbytes q hq c hc).1)
  refine ⟨t, hi, ?_, ?_, ?_⟩
  · rw [← hfin]
    constructor
    · intro h
      by_contra hf
      by_cases hl : t.live (t.idxs q)
      · rw [(hF2 hf).2 hl] at h; cases h
      · rw [(hF2 hf).1 hl] at h; cases h
    · exact hF1
  · intro hn
    have hf : ¬ t.has_final (t.idxs q) := fun h => hn (hfin.1 h)
    rw [← hlive hf]
    constructor
    · intro h
      by_contra hl
      rw [(hF2 hf).1 hl] at h
      cases h
    · exact (hF2 hf).2
  · intro hn hl
    have hf : ¬ t.has_final (t.idxs q) := fun h => hn (hfin.1 h)
    exact (hF2 hf).1 (fun h => hl ((hlive hf).1 h))

/-- C1 for the strings "ACG", "AC", "GT" over `"ACGT"` and the query "ACT". -/
theorem C1_witness :
    ∃ t, fresh_ACGT.insert_all [[65, 67, 71], [65, 67], [71, 84]] = .ok t ∧
      (t.find [65, 67, 84] = .ok .HAS_PREFIX ↔
        ∃ s ∈ [[65, 67, 71], [65, 67], [71, 84]], s <+: [65, 67, 84]) ∧
      ((¬ ∃ s ∈ [[65, 67, 71], [65, 67], [71, 84]], s <+: [65, 67, 84]) →
        (t.find [65, 67, 84] = .ok .PREFIX_OF ↔
          ([65, 67, 84] = [] ∨ ∃ s ∈ [[65, 67, 71], [65, 67], [71, 84]], [65, 67, 84] <+: s))) ∧
      ((¬ ∃ s ∈ [[65, 67, 71], [65, 67], [71, 84]], s <+: [65, 67, 84]) →
        ¬ ([65, 67, 84] = [] ∨ ∃ s ∈ [[65, 67, 71], [65, 67], [71, 84]], [65, 67, 84] <+: s) →
        t.find [65, 67, 84] = .ok .NOT) :=
  C1_find_characterisation (by decide) ACGT (by decide) fresh_ACGT rfl
    [[65, 67, 71], [65, 67], [71, 84]] (by decide) [65, 67, 84] (by decide)

/-- The index strings that `all_mers` walks from a node reached from the root:
those of the right length, over the edge indices, that meet the sentinel or can
be walked to the end. -/
theorem paths_iff {AS : Nat} {t : ftrie AS} (hI : t.Inv) (d : Nat) :
    ∀ (pc : List Nat) (n : Nat) (w : List Nat), t.walk 0 pc = some n →
      (w ∈ t.paths d n ↔ w.length = d ∧ (∀ i ∈ w, i < AS) ∧
        ((∃ f, f <+: w ∧ t.walk n f = some 1) ∨ t.walk n w ≠ none)) := by
  induction d with
  | zero =>
    intro pc n w _
    simp only [ftrie.paths, List.mem_singleton, List.length_eq_zero]
    constructor
    · rintro rfl
      exact ⟨rfl, by simp, Or.inr (by simp [walk_nil])⟩
    · exact fun h => h.1
  | succ d ih =>
    intro pc n w hn
    rcases hI.state_of_walk pc n hn with ⟨hn1, hst⟩ | ⟨hn1, hst⟩
    · subst hn1
      simp only [ftrie.paths, hst, if_true, List.mem_flatMap, List.mem_range, List.mem_map]
      constructor
      · rintro ⟨i, hi, w2, hw2, rfl⟩
        obtain ⟨h1, h2, _⟩ := (ih pc 1 w2 hn).1 hw2
        refine ⟨by simp [h1], ?_, Or.inl ⟨[], by simp, rfl⟩⟩
        intro j hj
        rcases List.mem_cons.1 hj with rfl | hj
        · exact hi
        · exact h2 j hj
      · rintro ⟨h1, h2, _⟩
        cases w with
        | nil => simp at h1
        | cons i w2 =>
          refine ⟨i, h2 i (by simp), w2, ?_, rfl⟩
          rw [ih pc 1 w2 hn]
          exact ⟨by simpa using h1, fun j hj => h2 j (by simp [hj]),
            Or.inl ⟨[], by simp, rfl⟩⟩
    · have hst2 : (t.node_at n).state ≠ .FINAL := by rw [hst]; intro h; cases h
      simp only [ftrie.paths, hst2, if_false, List.mem_flatMap, List.mem_range]
      constructor
      · rintro ⟨i, hi, hw⟩
        by_cases he : t.edge n i = 0
        · simp [he] at hw
        · rw [if_pos he] at hw
          simp only [List.mem_map] at hw
          obtain ⟨w2, hw2, rfl⟩ := hw
          have hP : t.walk 0 (pc ++ [i]) = some (t.edge n i) := by
            rw [walk_snoc, hn]; simp [he]
          obtain ⟨h1, h2, h3⟩ := (ih _ _ w2 hP).1 hw2
          refine ⟨by simp [h1], ?_, ?_⟩
          · intro j hj
            rcases List.mem_cons.1 hj with rfl | hj
            · exact hi
            · exact h2 j hj
          · rcases h3 with ⟨f, hf, hw⟩ | h3
            · left
              exact ⟨i :: f, List.cons_prefix_cons.2 ⟨rfl, hf⟩, by
                rw [walk_cons, if_neg he]; exact hw⟩
            · right
              rw [walk_cons, if_neg he]; exact h3
      · rintro ⟨h1, h2, h3⟩
        cases w with
        | nil => simp at h1
        | cons i w2 =>
          have he : t.edge n i ≠ 0 := by
            intro he
            rcases h3 with ⟨f, hf, hw⟩ | h3
            · rcases List.prefix_cons_iff.1 hf with rfl | ⟨r, rfl, hr⟩
              · simp only [walk_nil, Option.some.injEq] at hw; exact hn1 hw
              · rw [walk_cons, if_pos he] at hw; cases hw
            · rw [walk_cons, if_pos he] at h3; exact h3 rfl
          have hP : t.walk 0 (pc ++ [i]) = some (t.edge n i) := by
            rw [walk_snoc, hn]; simp [he]
          refine ⟨i, h2 i (by simp), ?_⟩
          rw [if_pos he]
          simp only [List.mem_map, List.cons.injEq, true_and, exists_eq_right]
          rw [ih _ _ w2 hP]
          refine ⟨by simpa using h1, fun j hj => h2 j (by simp [hj]), ?_⟩
          rcases h3 with ⟨f, hf, hw⟩ | h3
          · rcases List.prefix_cons_iff.1 hf with rfl | ⟨r, rfl, hr⟩
            · simp only [walk_nil, Option.some.injEq] at hw; exact absurd hw hn1
            · rw [walk_cons, if_neg he] at hw
              exact Or.inl ⟨r, hr, hw⟩
          · rw [walk_cons, if_neg he] at h3
            exact Or.inr h3

theorem ftrie.Good.letters_idxs {AS : Nat} {a : List Nat} {t : ftrie AS} (hG : t.Good a)
    (hbytes : ∀ c ∈ a, c < 256) (q : List Nat) (hq : ∀ c ∈ q, c ∈ a) :
    t.letters (t.idxs q) = q := by
  induction q with
  | nil => rfl
  | cons c q ih =>
    simp only [ftrie.letters, ftrie.idxs, List.map_cons, List.map_map] at ih ⊢
    rw [ih (fun x hx => hq x (by simp [hx]))]
    congr 1
    rw [hG.alph]
    exact (tr_mem t a hG.trans c (hq c (by simp)) (hbytes c (hq c (by simp)))).2.2

theorem ftrie.Good.alphabet_length {AS : Nat} {a : List Nat} {t : ftrie AS} (hG : t.Good a) :
    a.length = AS := (create_translate_ok AS a _ hG.trans).1

theorem ftrie.Good.idxs_letters {AS : Nat} {a : List Nat} {t : ftrie AS} (hG : t.Good a)
    (hbytes : ∀ c ∈ a, c < 256) (hnd : a.Nodup) (w : List Nat) (hw : ∀ i ∈ w, i < AS) :
    t.idxs (t.letters w) = w ∧ ∀ c ∈ t.letters w, c ∈ a := by
  induction w with
  | nil => exact ⟨rfl, by simp [ftrie.letters]⟩
  | cons i w ih =>
    obtain ⟨ih1, ih2⟩ := ih (fun j hj => hw j (by simp [hj]))
    have hi : i < a.length := by rw [hG.alphabet_length]; exact hw i (by simp)
    have hmem : a.getD i 0 ∈ a := by
      rw [List.getD_eq_getElem _ _ hi]
      exact List.getElem_mem hi
    have hlet : t.letters (i :: w) = a.getD i 0 :: t.letters w := by
      simp only [ftrie.letters, List.map_cons, hG.alph]
    rw [hlet]
    refine ⟨?_, ?_⟩
    · have hidx : t.idxs (a.getD i 0 :: t.letters w) = t.idx (a.getD i 0) :: t.idxs (t.letters w) :=
        rfl
      rw [hidx, ih1]
      congr 1
      obtain ⟨_, h2, h3⟩ := tr_mem t a hG.trans _ hmem (hbytes _ hmem)
      have h2b : t.idx (a.getD i 0) < a.length := by rw [hG.alphabet_length]; exact h2
      have e1 : a.getD i 0 = a[i] := List.getD_eq_getElem _ _ hi
      have e2 : a.getD (t.idx (a.getD i 0)) 0 = a[t.idx (a.getD i 0)] :=
        List.getD_eq_getElem _ _ h2b
      exact (hnd.getElem_inj_iff).1 (by rw [← e2, h3, e1])
    · intro c hc
      rcases List.mem_cons.1 hc with rfl | hc
      · exact hmem
      · exact ih2 c hc

/-- C3 fails as stated: after `insert("AC")` the list `all_mers(1)` holds "A",
which is neither an inserted string nor an extension of one. -/
theorem C3_counterexample :
    fresh_ACGT.insert_all [[65, 67]] = .ok trie_AC ∧ [65] ∈ trie_AC.all_mers 1 ∧
      ¬ ∃ s ∈ [[65, 67]], s <+: [65] :=
  ⟨by rfl, by decide, by decide⟩

/-- C3, amended: on the trie built from a fresh trie over an alphabet of distinct
letters by inserting non-empty strings over the alphabet, `all_mers(d)` holds
exactly the strings of length `d` over the alphabet that have an inserted string
as a prefix, or are empty, or are a prefix of an inserted string. -/
theorem C3_all_mers_characterisation {AS : Nat} (hAS : 0 < AS) (a : List Nat)
    (hbytes : ∀ c ∈ a, c < 256) (hnd : a.Nodup) (t0 : ftrie AS)
    (h0 : ftrie.ctor AS a = .ok t0)
    (ss : List (List Nat)) (hss : ∀ s ∈ ss, s ≠ [] ∧ ∀ c ∈ s, c ∈ a)
    (d : Nat) (w : List Nat) :
    ∃ t, t0.insert_all ss = .ok t ∧
      (w ∈ t.all_mers d ↔ w.length = d ∧ (∀ c ∈ w, c ∈ a) ∧
        ((∃ s ∈ ss, s <+: w) ∨ w = [] ∨ ∃ s ∈ ss, w <+: s)) := by
  obtain ⟨t, hi, hG, hch⟩ := insert_all_spec hAS a hbytes t0 h0 ss hss
  refine ⟨t, hi, ?_⟩
  rw [all_mers_eq_paths, List.mem_map]
  have hp := paths_iff hG.inv d [] 0
  constructor
  · rintro ⟨p, hp1, rfl⟩
    obtain ⟨h1, h2, h3⟩ := (hp p rfl).1 hp1
    obtain ⟨h4, h5⟩ := hG.idxs_letters hbytes hnd p h2
    obtain ⟨hfin, hlive⟩ := hch (t.letters p) h5
    rw [h4] at hfin hlive
    refine ⟨by simp [ftrie.letters, h1], h5, ?_⟩
    by_cases hf : t.has_final p
    · exact Or.inl (hfin.1 hf)
    · right
      apply (hlive hf).1
      rcases h3 with h3 | h3
      · exact absurd h3 hf
      · exact h3
  · rintro ⟨h1, h2, h3⟩
    obtain ⟨hfin, hlive⟩ := hch w h2
    refine ⟨t.idxs w, ?_, hG.letters_idxs hbytes w h2⟩
    show t.idxs w ∈ t.paths d 0
    rw [hp _ rfl]
    refine ⟨by simp [ftrie.idxs, h1], ?_, ?_⟩
    · intro i hi2
      simp only [ftrie.idxs, List.mem_map] at hi2
      obtain ⟨c, hc, rfl⟩ := hi2
      exact (hG.tr_valid hbytes w h2 c hc).2
    · by_cases hf : t.has_final (t.idxs w)
      · exact Or.inl hf
      · right
        apply (hlive hf).2
        rcases h3 with h3 | h3
        · exact absurd (hfin.2 h3) hf
        · exact h3

/-- C3, amended, for the strings "AC", "GT" over `"ACGT"`, depth 1 and the
string "G". -/
theorem C3_witness :
    ∃ t, fresh_ACGT.insert_all [[65, 67], [71, 84]] = .ok t ∧
      ([71] ∈ t.all_mers 1 ↔ [71].length = 1 ∧ (∀ c ∈ [71], c ∈ ACGT) ∧
        ((∃ s ∈ [[65, 67], [71, 84]], s <+: [71]) ∨ [71] = [] ∨
          ∃ s ∈ [[65, 67], [71, 84]], [71] <+: s)) :=
  C3_all_mers_characterisation (by decide) ACGT (by decide) (by decide) fresh_ACGT rfl
    [[65, 67], [71, 84]] (by decide) 1 [71]

theorem equal_nodes_true {AS : Nat} (fuel : Nat) :
    ∀ (f1 f2 : ftrie AS) (c1 c2 : Nat),
      (∀ p m, f1.walk c1 p = some m → p.length < fuel) →
      (∀ p, f1.walk c1 p = none ↔ f2.walk c2 p = none) →
      ftrie.equal_nodes fuel f1 f2 (f1.node_at c1) (f2.node_at c2) = .ok true := by
  induction fuel with
  | zero =>
    intro f1 f2 c1 c2 hfuel _
    exact absurd (hfuel [] c1 rfl) (by simp)
  | succ fuel IH =>
    intro f1 f2 c1 c2 hfuel hshape
    have hloop : ∀ is : List Nat,
        equal_edges (ftrie.equal_nodes fuel f1 f2) f1 f2 (f1.node_at c1) (f2.node_at c2) is =
          .ok true := by
      intro is
      induction is with
      | nil => rfl
      | cons i is ih =>
        have hz : f1.edge c1 i = 0 ↔ f2.edge c2 i = 0 := by
          have := hshape [i]
          simp only [walk_cons, walk_nil] at this
          constructor
          · intro h
            by_contra h2
            rw [if_pos h, if_neg h2] at this
            simp at this
          · intro h
            by_contra h2
            rw [if_pos h, if_neg h2] at this
            simp at this
        have e1 : (f1.node_at c1).edges.getD i 0 = f1.edge c1 i := rfl
        have e2 : (f2.node_at c2).edges.getD i 0 = f2.edge c2 i := rfl
        simp only [equal_edges, e1, e2]
        rw [if_neg (by simp [hz])]
        by_cases h1 : f1.edge c1 i = 0
        · rw [if_neg (by simpa using h1)]
          exact ih
        · have h2 : f2.edge c2 i ≠ 0 := fun h => h1 (hz.2 h)
          rw [if_pos h1]
          rw [IH f1 f2 (f1.edge c1 i) (f2.edge c2 i)
            (fun p m hp => by
              have := hfuel (i :: p) m (by rw [walk_cons, if_neg h1]; exact hp)
              simp at this
              omega)
            (fun p => by
              have := hshape (i :: p)
              rw [walk_cons, if_neg h1, walk_cons, if_neg h2] at this
              exact this)]
          exact ih
    exact hloop (List.range AS)

theorem ftrie.Inv.live_iff {AS : Nat} {t : ftrie AS} (hI : t.Inv) (p : List Nat) :
    t.live p ↔ (¬ t.has_final p ∧ t.live p) ∨
      (t.has_final p ∧ ∀ f, f <+: p → f ≠ p → ¬ t.has_final f) := by
  constructor
  · intro hl
    by_cases hf : t.has_final p
    · right
      refine ⟨hf, ?_⟩
      rintro f ⟨r, rfl⟩ hne ⟨g, ⟨r2, rfl⟩, hg⟩
      have hr : r2 ++ r ≠ [] := by
        intro h
        simp only [List.append_eq_nil] at h
        apply hne
        simp [h.2]
      cases hw : t.walk 0 (g ++ r2 ++ r) with
      | none => exact hl hw
      | some m =>
        rw [List.append_assoc] at hw
        exact hI.walk_proper_ne_one 0 g (r2 ++ r) m 1 hr hg hw rfl
    · exact Or.inl ⟨hf, hl⟩
  · rintro (⟨_, hl⟩ | ⟨⟨f, hfp, hfw⟩, hmin⟩)
    · exact hl
    · by_cases hfe : f = p
      · subst hfe
        unfold ftrie.live
        rw [hfw]
        simp
      · exact absurd ⟨f, List.prefix_refl f, hfw⟩ (hmin f hfp hfe)

theorem live_congr {AS : Nat} {t1 t2 : ftrie AS} (h1 : t1.Inv) (h2 : t2.Inv)
    (hfin : ∀ p, t1.has_final p ↔ t2.has_final p)
    (hlive : ∀ p, ¬ t1.has_final p → (t1.live p ↔ t2.live p)) (p : List Nat) :
    t1.live p ↔ t2.live p := by
  rw [h1.live_iff, h2.live_iff]
  by_cases hf : t1.has_final p
  · have hf2 := (hfin p).1 hf
    simp only [hf, hf2, not_true, false_and, true_and, false_or]
    constructor
    · intro h f hfp hne hff
      exact h f hfp hne ((hfin f).2 hff)
    · intro h f hfp hne hff
      exact h f hfp hne ((hfin f).1 hff)
  · have hf2 : ¬ t2.has_final p := fun h => hf ((hfin p).2 h)
    simp only [hf, hf2, not_false_eq_true, true_and, false_and, or_false]
    exact hlive p hf

/-- Two tries in order with the same walkable paths compare equal. -/
theorem operator_eq_true {AS : Nat} {t1 t2 : ftrie AS} (h1 : t1.Inv)
    (hl : ∀ p, t1.live p ↔ t2.live p) : t1.operator_eq t2 = .ok true := by
  unfold ftrie.operator_eq
  apply equal_nodes_true
  · intro p m hp
    have := h1.walk_length_lt p m hp
    omega
  · intro p
    have := hl p
    unfold ftrie.live at this
    constructor
    · intro h
      by_contra h2
      exact (this.2 h2) h
    · intro h
      by_contra h2
      exact (this.1 h2) h

theorem idxs_append {AS : Nat} (t : ftrie AS) (s u : List Nat) :
    t.idxs (s ++ u) = t.idxs s ++ t.idxs u := by
  simp [ftrie.idxs]

/-- C7: on a trie reached by successful inserts, for a non-empty string `s` and a
string `u` over the alphabet, `insert(s·u); insert(s)` gives a trie that compares equal
(`operator==`) to the one `insert(s)` alone gives, and in it the path of `s` ends
at the sentinel unless a proper prefix of `s` was already stored (`find` of it
was `HAS_PREFIX`). -/
theorem C7_prefix_collapse {AS : Nat} (hAS : 0 < AS) (a : List Nat)
    (hbytes : ∀ c ∈ a, c < 256) (t : ftrie AS) (ht : t.ReachableOk a) (s u : List Nat)
    (hne : s ≠ []) (hs : ∀ c ∈ s, c ∈ a) (hu : ∀ c ∈ u, c ∈ a) :
    ∃ t1 t2 t3, t.insert (s ++ u) = .ok t1 ∧ t1.insert s = .ok t2 ∧ t.insert s = .ok t3 ∧
      t2.operator_eq t3 = .ok true ∧
      ((∀ s1, s1 <+: s → s1 ≠ s → t.find s1 ≠ .ok .HAS_PREFIX) →
        t2.walk root_offset (t2.idxs s) = some final_offset) := by
  have hG := reachableOk_good hAS ht
  have hsu : ∀ c ∈ s ++ u, c ∈ a := by
    intro c hc
    rcases List.mem_append.1 hc with h | h
    · exact hs c h
    · exact hu c h
  obtain ⟨t1, hi1, hI1, ha1, htr1, _, hF1, hL1⟩ := insert_abs hAS hG.inv (s ++ u) (by simp [hne])
    (hG.tr_valid hbytes _ hsu)
  have hG1 : t1.Good a := ⟨hI1, by rw [ha1]; exact hG.alph, by rw [htr1]; exact hG.trans⟩
  obtain ⟨t2, hi2, hI2, ha2, htr2, _, hF2, hL2⟩ := insert_abs hAS hI1 s hne
    (hG1.tr_valid hbytes _ hs)
  obtain ⟨t3, hi3, hI3, ha3, htr3, _, hF3, hL3⟩ := insert_abs hAS hG.inv s hne
    (hG.tr_valid hbytes _ hs)
  rw [idxs_congr t t1 htr1] at hF2 hL2
  rw [idxs_append] at hF1 hL1
  have hPP : t.idxs s <+: t.idxs s ++ t.idxs u := List.prefix_append _ _
  have hfin : ∀ p, t2.has_final p ↔ t3.has_final p := by
    intro p
    rw [hF2, hF3, hF1]
    constructor
    · rintro (h | h | h)
      · exact Or.inl h
      · exact Or.inl (hPP.trans h)
      · exact Or.inr h
    · rintro (h | h)
      · exact Or.inl h
      · exact Or.inr (Or.inr h)
  have hlive : ∀ p, ¬ t2.has_final p → (t2.live p ↔ t3.live p) := by
    intro p hp
    have hp1 : ¬ t1.has_final p := fun h => hp ((hF2 p).2 (Or.inr h))
    have hp3 : ¬ t3.has_final p := fun h => hp ((hfin p).2 h)
    have hPp : ¬ t.idxs s <+: p := fun h => hp ((hF2 p).2 (Or.inl h))
    rw [hL2 p hp, hL1 p hp1, hL3 p hp3]
    constructor
    · rintro (h | h | h)
      · exact Or.inl h
      · rcases List.prefix_or_prefix_of_prefix hPP h with h2 | h2
        · exact absurd h2 hPp
        · exact Or.inl h2
      · exact Or.inr h
    · rintro (h | h)
      · exact Or.inl h
      · exact Or.inr (Or.inr h)
  refine ⟨t1, t2, t3, hi1, hi2, hi3,
    operator_eq_true hI2 (live_congr hI2 hI3 hfin hlive), fun hprop => ?_⟩
  have hidx2 : t2.idxs s = t.idxs s := by
    rw [idxs_congr t1 t2 htr2, idxs_congr t t1 htr1]
  rw [hidx2]
  obtain ⟨f, hf, hw⟩ := (hF2 (t.idxs s)).2 (Or.inl (List.prefix_refl _))
  by_cases hfe : f = t.idxs s
  · rw [← hfe]; exact hw
  · exfalso
    have h1 : t2.has_final f := ⟨f, List.prefix_refl f, hw⟩
    rw [hF2, hF1] at h1
    have hlen : f.length < (t.idxs s).length := by
      have := hf.length_le
      have : f.length ≠ (t.idxs s).length := fun h => hfe (hf.eq_of_length h)
      omega
    rcases h1 with h1 | h1 | ⟨g, hg, hgw⟩
    · have := h1.length_le; omega
    · have := h1.length_le; simp at this; omega
    · -- a proper prefix of `s` is stored in `t`
      have hgs : g <+: t.idxs s := hg.trans hf
      have hglen : g.length < s.length := by
        have := hg.length_le
        simp [ftrie.idxs] at hlen
        omega
      have hg2 : g = t.idxs (s.take g.length) := by
        have := List.prefix_iff_eq_take.1 hgs
        rw [this]
        simp [ftrie.idxs, List.map_take]
      have htk : ∀ c ∈ s.take g.length, c ∈ a := fun c hc => hs c (List.mem_of_mem_take hc)
      apply hprop (s.take g.length) (List.take_prefix _ _)
      · intro h
        have := congrArg List.length h
        simp at this
        omega
      · apply (find_spec hG.inv _ (fun c hc => (hG.tr_valid hbytes _ htk c hc).1)).1
        exact ⟨g, by rw [← hg2], hgw⟩

/-- C7 on the fresh trie over `"ACGT"`, for "AC" and its extension "ACG". -/
theorem C7_witness :
    ∃ t1 t2 t3, fresh_ACGT.insert ([65, 67] ++ [71]) = .ok t1 ∧ t1.insert [65, 67] = .ok t2 ∧
      fresh_ACGT.insert [65, 67] = .ok t3 ∧ t2.operator_eq t3 = .ok true ∧
      ((∀ s1, s1 <+: [65, 67] → s1 ≠ [65, 67] → fresh_ACGT.find s1 ≠ .ok .HAS_PREFIX) →
        t2.walk root_offset (t2.idxs [65, 67]) = some final_offset) :=
  C7_prefix_collapse (by decide) ACGT (by decide) fresh_ACGT
    (ftrie.ReachableOk.fresh fresh_ACGT rfl) [65, 67] [71]
    (by decide) (by decide) (by decide)

theorem isdigit_not_isspace (c : Nat) (h : isdigit c = true) : isspace c = false := by
  simp only [isdigit, isspace, Bool.and_eq_true, decide_eq_true_eq, Bool.or_eq_false_iff,
    beq_eq_false_iff_ne, Bool.and_eq_false_iff, decide_eq_false_iff_not] at h ⊢
  omega

theorem decimal_rev_spec (fuel : Nat) : ∀ n, n < fuel →
    decimal_rev fuel n ≠ [] ∧ (∀ c ∈ decimal_rev fuel n, isdigit c = true) ∧
      (decimal_rev fuel n).foldr (fun c acc => acc * 10 + (c - 48)) 0 = n := by
  induction fuel with
  | zero => intro n h; omega
  | succ fuel ih =>
    intro n hn
    simp only [decimal_rev]
    by_cases h10 : n < 10
    · rw [if_pos h10]
      refine ⟨by simp, ?_, by simp⟩
      intro c hc
      simp only [List.mem_singleton] at hc
      subst hc
      simp only [isdigit, Bool.and_eq_true, decide_eq_true_eq]
      omega
    · rw [if_neg h10]
      obtain ⟨_, h2, h3⟩ := ih (n / 10) (by omega)
      refine ⟨by simp, ?_, ?_⟩
      · intro c hc
        rcases List.mem_cons.1 hc with rfl | hc
        · simp only [isdigit, Bool.and_eq_true, decide_eq_true_eq]
          omega
        · exact h2 c hc
      · simp only [List.foldr_cons, h3]
        omega

theorem read_digits_append (ds : List Nat) :
    ∀ (acc : Nat) (rest : List Nat), (∀ c ∈ ds, isdigit c = true) →
      (∀ c, rest.head? = some c → isdigit c = false) →
      read_digits (ds ++ rest) acc = (ds.foldl (fun a c => a * 10 + (c - 48)) acc, rest) := by
  induction ds with
  | nil =>
    intro acc rest _ hr
    cases rest with
    | nil => rfl
    | cons c rest =>
      simp only [List.nil_append, read_digits, List.foldl_nil]
      rw [if_neg (by simp [hr c rfl])]
  | cons d ds ih =>
    intro acc rest hd hr
    simp only [List.cons_append, read_digits, List.foldl_cons]
    rw [if_pos (hd d (by simp))]
    exact ih _ rest (fun c hc => hd c (by simp [hc])) hr

theorem decimal_spec (n : Nat) :
    (∃ d ds, decimal n = d :: ds ∧ isdigit d = true) ∧
      ∀ (rest : List Nat), (∀ c, rest.head? = some c → isdigit c = false) →
        read_digits (decimal n ++ rest) 0 = (n, rest) := by
  obtain ⟨h1, h2, h3⟩ := decimal_rev_spec (n + 1) n (by omega)
  have hd : ∀ c ∈ decimal n, isdigit c = true := by
    intro c hc
    simp only [decimal, List.mem_reverse] at hc
    exact h2 c hc
  constructor
  · cases h : decimal n with
    | nil =>
      simp only [decimal, List.reverse_eq_nil_iff] at h
      exact absurd h h1
    | cons d ds => exact ⟨d, ds, rfl, hd d (by rw [h]; simp)⟩
  · intro rest hr
    rw [read_digits_append _ 0 rest hd hr]
    simp only [decimal, List.foldl_reverse, h3]

theorem dropWhile_isspace_append (ws rest : List Nat) (hws : ∀ c ∈ ws, isspace c = true)
    (hr : ∀ c, rest.head? = some c → isspace c = false) :
    (ws ++ rest).dropWhile isspace = rest := by
  induction ws with
  | nil =>
    cases rest with
    | nil => rfl
    | cons c rest => simp [List.dropWhile, hr c rfl]
  | cons w ws ih =>
    simp only [List.cons_append, List.dropWhile, hws w (by simp)]
    exact ih (fun c hc => hws c (by simp [hc]))

/-- Reading back a number written in decimal, after white space and before a
character that is not a digit. -/
theorem extract_decimal (ws : List Nat) (n : Nat) (c : Nat) (rest : List Nat) (x : Nat)
    (hws : ∀ w ∈ ws, isspace w = true) (hc : isdigit c = false) :
    (istream.mk (ws ++ decimal n ++ c :: rest) false false).extract x =
      (⟨c :: rest, false, false⟩, n) := by
  obtain ⟨⟨d, ds, hd, hdd⟩, hrd⟩ := decimal_spec n
  have hdrop : (ws ++ decimal n ++ c :: rest).dropWhile isspace = d :: (ds ++ c :: rest) := by
    rw [List.append_assoc, dropWhile_isspace_append ws _ hws, hd]
    · rfl
    · intro y hy
      rw [hd] at hy
      simp only [List.cons_append, List.head?_cons, Option.some.injEq] at hy
      subst hy
      exact isdigit_not_isspace _ hdd
  have hread : read_digits (d :: (ds ++ c :: rest)) 0 = (n, c :: rest) := by
    have := hrd (c :: rest) (by intro y hy; simp at hy; subst hy; exact hc)
    rw [hd] at this
    exact this
  simp only [istream.extract, istream.good, Bool.not_false, Bool.and_self, if_true, hdrop,
    hdd, hread, List.isEmpty_cons]

theorem read_edges_bad (is : List Nat) :
    ∀ (b : List Nat) (f : Bool) (es : List Nat),
      (read_edges is ⟨b, true, f⟩ es).1.eofbit = true := by
  induction is with
  | nil => intro b f es; rfl
  | cons i is ih =>
    intro b f es
    simp only [read_edges, istream.extract, istream.good, Bool.not_true, Bool.false_and,
      Bool.false_eq_true, if_false]
    exact ih _ _ _

theorem read_edges_dump (g : Nat → Nat) (is : List Nat) :
    ∀ (rest es : List Nat),
      read_edges is ⟨is.flatMap (fun i => 32 :: decimal (g i)) ++ 10 :: rest, false, false⟩ es =
        (⟨10 :: rest, false, false⟩, is.foldl (fun es i => es.set i (g i)) es) := by
  induction is with
  | nil => intro rest es; rfl
  | cons i is ih =>
    intro rest es
    have hsp : ∀ w ∈ [32], isspace w = true := by
      intro w hw; simp only [List.mem_singleton] at hw; subst hw; rfl
    have key : ∀ x, (istream.mk ((i :: is).flatMap (fun i => 32 :: decimal (g i)) ++ 10 :: rest)
        false false).extract x =
        (⟨is.flatMap (fun i => 32 :: decimal (g i)) ++ 10 :: rest, false, false⟩, g i) := by
      intro x
      cases is with
      | nil =>
        have := extract_decimal [32] (g i) 10 rest x hsp (by rfl)
        simpa using this
      | cons j is =>
        have := extract_decimal [32] (g i) 32
          (decimal (g j) ++ (is.flatMap (fun i => 32 :: decimal (g i)) ++ 10 :: rest)) x hsp
          (by rfl)
        simpa using this
    simp only [read_edges, key, List.foldl_cons]
    exact ih rest _

theorem foldl_set_getD (g : Nat → Nat) (is : List Nat) :
    ∀ (es : List Nat),
      (is.foldl (fun es i => es.set i (g i)) es).length = es.length ∧
      ∀ j, (is.foldl (fun es i => es.set i (g i)) es).getD j 0 =
        if j ∈ is ∧ j < es.length then g j else es.getD j 0 := by
  induction is with
  | nil => intro es; simp
  | cons i is ih =>
    intro es
    obtain ⟨h1, h2⟩ := ih (es.set i (g i))
    simp only [List.foldl_cons]
    refine ⟨by rw [h1]; simp, fun j => ?_⟩
    rw [h2 j, List.length_set, getD_set_list]
    by_cases hj : j ∈ is ∧ j < es.length
    · rw [if_pos hj, if_pos ⟨by simp [hj.1], hj.2⟩]
    · rw [if_neg hj]
      by_cases hij : i = j ∧ i < es.length
      · rw [if_pos hij, if_pos ⟨by simp [hij.1], by rw [← hij.1]; exact hij.2⟩, hij.1]
      · rw [if_neg hij, if_neg]
        rintro ⟨h3, h4⟩
        rcases List.mem_cons.1 h3 with rfl | h3
        · exact hij ⟨rfl, h4⟩
        · exact hj ⟨h3, h4⟩

theorem foldl_set_range (AS : Nat) (orig es : List Nat) (ho : orig.length = AS)
    (he : es.length = AS) :
    (List.range AS).foldl (fun es i => es.set i (orig.getD i 0)) es = orig := by
  obtain ⟨h1, h2⟩ := foldl_set_getD (fun i => orig.getD i 0) (List.range AS) es
  apply List.ext_getElem
  · rw [h1, he, ho]
  · intro j hj1 hj2
    have := h2 j
    rw [if_pos ⟨by rw [List.mem_range]; omega, by omega⟩] at this
    rw [List.getD_eq_getElem _ _ hj1, List.getD_eq_getElem _ _ hj2] at this
    exact this

theorem state_cast_toNat (s : STATE) : STATE.cast s.toNat = s ∧ s.toNat ≤ 2 := by
  cases s <;> exact ⟨rfl, by decide⟩

theorem extract_unsigned_small (is : istream) (x : Nat) (r : istream) (v : Nat)
    (h : is.extract x = (r, v)) (hv : v < 2 ^ 32) : is.extract_unsigned x = (r, v) := by
  simp only [istream.extract_unsigned, h]
  rw [if_pos hv]

/-- The first number of the text of a node is followed by a character that is not
a digit. -/
theorem dump_node_shape (AS : Nat) (nd : node) (more : List Nat) :
    ∃ c rest, isdigit c = false ∧
      dump_node AS nd ++ more = decimal nd.state.toNat ++ c :: rest ∧
      c :: rest = (List.range AS).flatMap (fun i => 32 :: decimal (nd.edges.getD i 0)) ++
        10 :: more := by
  cases h : (List.range AS).flatMap (fun i => 32 :: decimal (nd.edges.getD i 0)) with
  | nil =>
    refine ⟨10, more, by rfl, ?_, by simp⟩
    simp only [dump_node, h, List.append_nil, List.append_assoc, List.singleton_append]
  | cons c rest =>
    have hc : c = 32 := by
      cases hr : List.range AS with
      | nil => rw [hr] at h; simp at h
      | cons i is =>
        rw [hr] at h
        simp only [List.flatMap_cons, List.cons_append, List.cons.injEq] at h
        exact h.1.symm
    refine ⟨c, rest ++ 10 :: more, by rw [hc]; rfl, ?_, by simp⟩
    simp only [dump_node, h, List.append_assoc, List.cons_append, List.singleton_append,
      List.nil_append]

theorem load_loop_dump (AS : Nat) (rem : List node) :
    ∀ (done : List node) (fuel : Nat) (s : Nat → Nat) (n : node), rem.length < fuel →
      n.edges.length = AS → 2 ≤ (done ++ rem).length →
      (∀ nd ∈ rem, nd.edges.length = AS) →
      (∀ nd, (done ++ rem)[0]? = some nd → nd.state = .INTERNAL) →
      (∀ nd, (done ++ rem)[1]? = some nd → nd.state = .FINAL) →
      load_loop AS fuel ⟨10 :: rem.flatMap (dump_node AS), false, false⟩ done.length s n done =
        if s (done.length + rem.length) % 2 ^ 32 ≤ 2 then .ok (done ++ rem)
        else .error .invalid_node_state := by
  induction rem with
  | nil =>
    intro done fuel s n hfuel hn hlen _ _ _
    obtain ⟨fuel, rfl⟩ : ∃ k, fuel = k + 1 := ⟨fuel - 1, by omega⟩
    simp only [List.append_nil, List.length_nil, Nat.add_zero] at hlen ⊢
    have hlt : s done.length % 2 ^ 32 < 2 ^ 32 := Nat.mod_lt _ (by decide)
    have hex : (istream.mk [10] false false).extract_unsigned (s done.length % 2 ^ 32) =
        (⟨[], true, true⟩, s done.length % 2 ^ 32) := by
      apply extract_unsigned_small _ _ _ _ _ hlt
      rfl
    have hfin2 : STATE.FINAL.toNat = 2 := rfl
    simp only [load_loop, List.flatMap_nil, hex, hfin2]
    by_cases hs : s done.length % 2 ^ 32 ≤ 2
    · rw [if_neg (by omega), if_neg (by omega), if_neg (by omega), read_edges_bad, if_pos rfl,
        if_pos hs]
    · rw [if_pos (by omega), if_neg hs]
  | cons nd rem ih =>
    intro done fuel s n hfuel hn hlen hel h0 h1
    obtain ⟨fuel, rfl⟩ : ∃ k, fuel = k + 1 := ⟨fuel - 1, by omega⟩
    obtain ⟨hcast, hst2⟩ := state_cast_toNat nd.state
    obtain ⟨c, rest, hc, hshape, hrest⟩ := dump_node_shape AS nd (rem.flatMap (dump_node AS))
    have hnl : ∀ w ∈ [10], isspace w = true := by
      intro w hw; simp only [List.mem_singleton] at hw; subst hw; rfl
    have hex : (istream.mk (10 :: (nd :: rem).flatMap (dump_node AS)) false false).extract_unsigned
        (s done.length % 2 ^ 32) =
        (⟨(List.range AS).flatMap (fun i => 32 :: decimal (nd.edges.getD i 0)) ++
          10 :: rem.flatMap (dump_node AS), false, false⟩, nd.state.toNat) := by
      apply extract_unsigned_small _ _ _ _ _ (by omega)
      have := extract_decimal [10] nd.state.toNat c rest (s done.length % 2 ^ 32) hnl hc
      rw [← hrest]
      rw [← this]
      congr 2
      simp only [List.flatMap_cons, List.singleton_append, List.cons_append, hshape,
        List.append_assoc, List.nil_append]
    have hedges : read_edges (List.range AS)
        ⟨(List.range AS).flatMap (fun i => 32 :: decimal (nd.edges.getD i 0)) ++
          10 :: rem.flatMap (dump_node AS), false, false⟩ n.edges =
        (⟨10 :: rem.flatMap (dump_node AS), false, false⟩, nd.edges) := by
      rw [read_edges_dump (fun i => nd.edges.getD i 0)]
      rw [foldl_set_range AS nd.edges n.edges (hel nd (by simp)) hn]
    have hnode : (⟨nd.state, nd.edges⟩ : node) = nd := by cases nd; rfl
    have hc0 : ¬ (done.length = 0 ∧ nd.state ≠ .INTERNAL) := by
      rintro ⟨hd, hne⟩
      apply hne
      apply h0 nd
      have : done = [] := List.length_eq_zero.1 hd
      subst this
      simp
    have hc1 : ¬ (done.length = 1 ∧ nd.state ≠ .FINAL) := by
      rintro ⟨hd, hne⟩
      apply hne
      apply h1 nd
      rw [List.getElem?_append_right (by omega), hd]
      simp
    simp only [load_loop, hex, hcast, hedges, hnode, istream.good]
    have hfin2 : STATE.FINAL.toNat = 2 := rfl
    rw [if_neg (by rw [hfin2]; omega), if_neg hc0, if_neg hc1]
    simp only [Bool.false_eq_true, if_false, Bool.not_false, Bool.and_self, Bool.not_true]
    have := ih (done ++ [nd]) fuel s nd (by simp at hfuel; omega)
      (hel nd (by simp)) (by simpa using hlen)
      (fun x hx => hel x (by simp [hx]))
      (by simpa using h0) (by simpa using h1)
    simp only [List.length_append, List.length_singleton, List.append_assoc,
      List.singleton_append] at this
    have hl : done.length + (nd :: rem).length = done.length + 1 + rem.length := by
      simp only [List.length_cons]; omega
    rw [hl]
    exact this

theorem getline_spec (a rest : List Nat) (h : 10 ∉ a) :
    (istream.mk (a ++ 10 :: rest) false false).getline = (⟨rest, false, false⟩, a) := by
  have h1 : (a ++ 10 :: rest).dropWhile (fun c => c != 10) = 10 :: rest := by
    induction a with
    | nil => simp [List.dropWhile]
    | cons x a ih =>
      simp only [List.mem_cons, not_or] at h
      have hx : (x != 10) = true := by simpa using Ne.symm h.1
      simp only [List.cons_append, List.dropWhile, hx]
      exact ih h.2
  have h2 : (a ++ 10 :: rest).takeWhile (fun c => c != 10) = a := by
    clear h1
    induction a with
    | nil => simp [List.takeWhile]
    | cons x a ih =>
      simp only [List.mem_cons, not_or] at h
      have hx : (x != 10) = true := by simpa using Ne.symm h.1
      simp only [List.cons_append, List.takeWhile, hx]
      exact congrArg (fun l => x :: l) (ih h.2)
  simp only [istream.getline, istream.good, Bool.not_false, Bool.and_self, if_true, h1, h2]

theorem length_le_flatMap_dump (AS : Nat) (nodes : List node) :
    nodes.length ≤ (nodes.flatMap (dump_node AS)).length := by
  induction nodes with
  | nil => simp
  | cons nd nodes ih =>
    simp only [List.flatMap_cons, List.length_cons, List.length_append, dump_node]
    omega

/-- Loading the text that `dump` writes for a trie in order gives the trie back
when the value that the local `s` holds at the turn after the last node is a
state, and throws otherwise. -/
theorem load_dump {AS : Nat} {a : List Nat} {t : ftrie AS} (hG : t.Good a) (hLF : 10 ∉ a)
    (s : Nat → Nat) :
    ftrie.load AS s ⟨t.dump, false, false⟩ =
      if s t.nodes.length % 2 ^ 32 ≤ 2 then .ok t else .error .invalid_node_state := by
  have hI := hG.inv
  have hdump : t.dump = a ++ 10 :: (decimal t.empty_head ++
      10 :: t.nodes.flatMap (dump_node AS)) := by
    simp [ftrie.dump, hG.alph]
  have hctor : ftrie.ctor AS a =
      .ok ⟨a, t.translate, 0, [node.ctor AS .INTERNAL, node.ctor AS .FINAL]⟩ := by
    unfold ftrie.ctor
    rw [hG.trans]
  have hex : ∀ x, (istream.mk (decimal t.empty_head ++ 10 :: t.nodes.flatMap (dump_node AS))
      false false).extract x =
      (⟨10 :: t.nodes.flatMap (dump_node AS), false, false⟩, t.empty_head) := by
    intro x
    have := extract_decimal [] t.empty_head 10 (t.nodes.flatMap (dump_node AS)) x (by simp)
      (by rfl)
    simpa using this
  have hnode : ∀ i nd, t.nodes[i]? = some nd → t.node_at i = nd := by
    intro i nd h
    simp [ftrie.node_at, h]
  have hloop := load_loop_dump AS t.nodes [] ((10 :: t.nodes.flatMap (dump_node AS)).length + 1)
    s (node.ctor AS .EMPTY)
    (by have := length_le_flatMap_dump AS t.nodes; simp only [List.length_cons]; omega)
    (by simp [node.ctor]) (by simpa using hI.size)
    (fun nd hnd => by
      obtain ⟨i, hi, rfl⟩ := List.mem_iff_getElem.1 hnd
      have := hI.edges_len i hi
      rw [hnode i _ (List.getElem?_eq_getElem hi)] at this
      exact this)
    (fun nd h => by
      rw [← hnode 0 nd (by simpa using h)]
      exact hI.root)
    (fun nd h => by
      rw [← hnode 1 nd (by simpa using h), hI.final]
      rfl)
  simp only [List.length_nil, List.nil_append, Nat.zero_add] at hloop
  by_cases hs : s t.nodes.length % 2 ^ 32 ≤ 2
  · rw [if_pos hs] at hloop ⊢
    simp only [ftrie.load, hdump, getline_spec a _ hLF, hctor, hex, istream.good, hloop]
    cases t with
    | mk al tr hd nodes =>
      have : al = a := hG.alph
      subst this
      rfl
  · rw [if_neg hs] at hloop ⊢
    simp only [ftrie.load, hdump, getline_spec a _ hLF, hctor, hex, istream.good, hloop]
    rfl

/-- C8: for a trie reached by successful inserts over an alphabet without a line
feed, the stream constructor on the text written by `dump` reads the local `s` of
its loop, which has no value, at the turn after the last node. When the value it
finds there is a state (at most `FINAL`) the constructor returns a trie with the
same alphabet, `empty_head` and nodes, which compares equal to the trie
(`operator==`) and gives the same `all_mers(d)` and `size(d)` for every `d`; when
the value is larger the constructor throws `invalid_node_state`. -/
theorem C8_load_dump_reads_uninitialised {AS : Nat} (hAS : 0 < AS) (a : List Nat)
    (hLF : 10 ∉ a) (t : ftrie AS) (ht : t.ReachableOk a) (s : Nat → Nat) :
    (s t.nodes.length % 2 ^ 32 ≤ STATE.FINAL.toNat →
      ∃ t1, ftrie.load AS s ⟨t.dump, false, false⟩ = .ok t1 ∧
        t1.operator_eq t = .ok true ∧ t1.alphabet = t.alphabet ∧
        t1.empty_head = t.empty_head ∧ t1.nodes = t.nodes ∧
        ∀ d, t1.all_mers d = t.all_mers d ∧ t1.size d = t.size d) ∧
      (STATE.FINAL.toNat < s t.nodes.length % 2 ^ 32 →
        ftrie.load AS s ⟨t.dump, false, false⟩ = .error .invalid_node_state) := by
  have hG := reachableOk_good hAS ht
  have hfin2 : STATE.FINAL.toNat = 2 := rfl
  rw [hfin2]
  constructor
  · intro hs
    refine ⟨t, ?_, operator_eq_true hG.inv (fun _ => Iff.rfl), rfl, rfl, rfl,
      fun _ => ⟨rfl, rfl⟩⟩
    rw [load_dump hG hLF s, if_pos hs]
  · intro hs
    rw [load_dump hG hLF s, if_neg (by omega)]

/-- C8 on the trie holding "AC", whose dump has three nodes: when the local `s`
holds 3 at the fourth turn, the constructor throws `invalid_node_state` on the
text that `dump` wrote. -/
theorem C8_witness :
    ftrie.load 4 (fun _ => 3) ⟨trie_AC.dump, false, false⟩ = .error .invalid_node_state :=
  (C8_load_dump_reads_uninitialised (by decide) ACGT (by decide) trie_AC trie_AC_reachableOk
    (fun _ => 3)).2 (by decide)

/-- `find` on a string whose first letter outside the alphabet is `x`, after the
letters `u`: it throws when `find(u)` is `PREFIX_OF` and otherwise does what
`find(u)` does. -/
theorem find_from_invalid {AS : Nat} (t : ftrie AS) (u : List Nat) :
    ∀ (cur x : Nat) (r : List Nat), (∀ c ∈ u, 0 ≤ t.tr c) → t.tr x < 0 →
      (t.find_from u cur = .ok .PREFIX_OF →
        t.find_from (u ++ x :: r) cur = .error .invalid_letter) ∧
      (t.find_from u cur ≠ .ok .PREFIX_OF →
        t.find_from (u ++ x :: r) cur = t.find_from u cur) := by
  induction u with
  | nil =>
    intro cur x r _ hx
    simp only [List.nil_append, ftrie.find_from]
    by_cases h1 : (t.node_at cur).state = .EMPTY
    · simp [h1]
    · by_cases h2 : (t.node_at cur).state = .FINAL
      · simp [h1, h2]
      · simp [h1, h2, hx]
  | cons c u ih =>
    intro cur x r hu hx
    have hc : ¬ t.tr c < 0 := by have := hu c (by simp); omega
    simp only [List.cons_append, ftrie.find_from]
    by_cases h1 : (t.node_at cur).state = .EMPTY
    · simp [h1]
    · by_cases h2 : (t.node_at cur).state = .FINAL
      · simp [h1, h2]
      · by_cases h3 : t.edge cur (t.tr c).toNat = 0
        · simp [h1, h2, hc, h3]
        · simp only [h1, h2, hc, h3, if_false]
          exact ih _ x r (fun y hy => hu y (by simp [hy])) hx

/-- C11 fails as stated: on the trie holding "AC" the query "ACX" contains the
letter `X`, which is not in `"ACGT"`, and `find` returns `HAS_PREFIX`; on the fresh
trie the query "GX" returns `NOT`. -/
theorem C11_counterexample :
    (∃ c ∈ [65, 67, 88], c ∉ trie_AC.alphabet) ∧
      trie_AC.find [65, 67, 88] = .ok .HAS_PREFIX ∧
      (∃ c ∈ [71, 88], c ∉ fresh_ACGT.alphabet) ∧ fresh_ACGT.find [71, 88] = .ok .NOT :=
  ⟨by decide, by rfl, by decide, by rfl⟩

/-- C11, amended: on every trie (whose translation table is the one made from its
alphabet), let `x` be the first letter of the query that is not in the alphabet,
with a code below 128, and `u` the letters before it. `find` throws `invalid_letter` when `find(u)` is
`PREFIX_OF`, and returns `HAS_PREFIX` or `NOT` when `find(u)` does. -/
theorem C11_find_invalid_letter {AS : Nat} (t : ftrie AS)
    (htr : create_translate AS t.alphabet = .ok t.translate)
    (hbytes : ∀ c ∈ t.alphabet, c < 256)
    (u : List Nat) (x : Nat) (r : List Nat) (hu : ∀ c ∈ u, c ∈ t.alphabet)
    (hx : x < 128 ∧ x ∉ t.alphabet) :
    (t.find u = .ok .PREFIX_OF → t.find (u ++ x :: r) = .error .invalid_letter) ∧
      (t.find u = .ok .HAS_PREFIX → t.find (u ++ x :: r) = .ok .HAS_PREFIX) ∧
      (t.find u = .ok .NOT → t.find (u ++ x :: r) = .ok .NOT) := by
  have hv : ∀ c ∈ u, 0 ≤ t.tr c := fun c hc =>
    (tr_mem t t.alphabet htr c (hu c hc) (hbytes c (hu c hc))).1
  obtain ⟨h1, h2⟩ := find_from_invalid t u root_offset x r hv
    (tr_not_mem t t.alphabet htr x hx.2)
  refine ⟨h1, fun h => ?_, fun h => ?_⟩
  · have := h2 (by unfold ftrie.find at h; rw [h]; intro h3; cases h3)
    unfold ftrie.find
    rw [this]; exact h
  · have := h2 (by unfold ftrie.find at h; rw [h]; intro h3; cases h3)
    unfold ftrie.find
    rw [this]; exact h

/-- C11, amended, on the trie holding "AC": `find("AX")` throws, since `find("A")`
is `PREFIX_OF`. -/
theorem C11_witness :
    trie_AC.find ([65] ++ 88 :: []) = .error .invalid_letter :=
  (C11_find_invalid_letter trie_AC (by rfl) (by decide) [65] 88 [] (by decide)
    (by decide)).1 (by rfl)

/-- C12 fails as stated: on the fresh trie over `"ACGT"`, `find("AC")` is `NOT`. -/
theorem C12_counterexample :
    ftrie.ctor 4 ACGT = .ok fresh_ACGT ∧ fresh_ACGT.find [65, 67] = .ok .NOT :=
  ⟨by rfl, by rfl⟩

/-- C12, amended: on a freshly constructed trie `find` returns `PREFIX_OF` for the
empty query and `NOT` for every non-empty query over the alphabet. -/
theorem C12_find_on_fresh {AS : Nat} (a : List Nat) (hbytes : ∀ c ∈ a, c < 256)
    (t0 : ftrie AS) (h0 : ftrie.ctor AS a = .ok t0) (q : List Nat)
    (hq : ∀ c ∈ q, c ∈ a) :
    (q = [] → t0.find q = .ok .PREFIX_OF) ∧ (q ≠ [] → t0.find q = .ok .NOT) := by
  have hG := fresh_good a t0 h0
  obtain ⟨_, _, _, _, hw⟩ := fresh_inv AS a t0 h0
  obtain ⟨_, hF⟩ := find_spec hG.inv q (fun c hc => (tr_mem t0 a hG.trans c (hq c hc)
    (hbytes c (hq c hc))).1)
  have hnf : ¬ t0.has_final (t0.idxs q) := by
    rintro ⟨f, _, hf⟩
    rw [hw] at hf
    split at hf <;> cases hf
  have hl : t0.live (t0.idxs q) ↔ q = [] := by
    unfold ftrie.live
    rw [hw]
    have hnil : t0.idxs q = [] ↔ q = [] := by simp [ftrie.idxs]
    by_cases hq0 : q = []
    · rw [if_pos (hnil.2 hq0)]
      simp [hq0]
    · rw [if_neg (fun h => hq0 (hnil.1 h))]
      simp [hq0]
  exact ⟨fun h => (hF hnf).2 (hl.2 h), fun h => (hF hnf).1 (fun h2 => h (hl.1 h2))⟩

/-- C12, amended, on the fresh trie over `"ACGT"` and the query "AC". -/
theorem C12_witness :
    ([65, 67] = [] → fresh_ACGT.find [65, 67] = .ok .PREFIX_OF) ∧
      ([65, 67] ≠ [] → fresh_ACGT.find [65, 67] = .ok .NOT) :=
  C12_find_on_fresh ACGT (by decide) fresh_ACGT (by rfl) [65, 67] (by decide)

/-- One turn of the loop of the stream constructor, given what the extraction of
the state and the extractions of the edges return. -/
theorem load_loop_step (AS fuel : Nat) (is : istream) (cur : Nat) (s : Nat → Nat) (n : node)
    (nodes : List node) (is1 is2 : istream) (v : Nat) (es : List Nat)
    (h1 : is.extract_unsigned (s cur % 2 ^ 32) = (is1, v))
    (h2 : read_edges (List.range AS) is1 n.edges = (is2, es)) :
    load_loop AS (fuel + 1) is cur s n nodes =
      if v > STATE.FINAL.toNat then .error .invalid_node_state
      else if cur = 0 ∧ STATE.cast v ≠ .INTERNAL then .error .root_not_internal
      else if cur = 1 ∧ STATE.cast v ≠ .FINAL then .error .guard_not_final
      else if is2.eofbit then .ok nodes
      else if !is2.good then .error .incomplete_file
      else load_loop AS fuel is2 (cur + 1) s ⟨STATE.cast v, es⟩ (nodes ++ [⟨STATE.cast v,
        es⟩]) := by
  simp only [load_loop, h1, h2]

/-- The stream constructor returns when the alphabet and `empty_head` are read
and the loop over the nodes returns. -/
theorem load_of_loop (AS : Nat) (s : Nat → Nat) (is is1 : istream) (t0 : ftrie AS) (eh : Nat)
    (nodes : List node) (hc : ftrie.ctor AS is.getline.2 = .ok t0)
    (he : is.getline.1.extract t0.empty_head = (is1, eh)) (hg : is1.good = true)
    (fuel : Nat) (hf : is1.buf.length + 1 = fuel)
    (hl : load_loop AS fuel is1 0 s (node.ctor AS .EMPTY) [] = .ok nodes) :
    ftrie.load AS s is = .ok ⟨t0.alphabet, t0.translate, eh, nodes⟩ := by
  subst hf
  unfold ftrie.load
  rw [hc]
  simp only [he, hg, hl, Bool.not_true, Bool.false_eq_true, if_false]

/-- C13: the stream constructor on a dump whose third node ends after two of its
four edges returns a trie of two nodes; it does not throw. Every extraction of
`s` writes a value, so the values `s0` that the local holds before are not read. -/
theorem C13_truncated_stream_loads (s0 : Nat → Nat) :
    ftrie.load 4 s0 ⟨truncated_dump, false, false⟩ =
      .ok ⟨ACGT, fresh_ACGT.translate, 0, [⟨.INTERNAL, [0, 0, 0, 0]⟩, ⟨.FINAL, [0, 0, 0, 0]⟩]⟩ := by
  have hc : ftrie.ctor 4 (istream.mk truncated_dump false false).getline.2 = .ok fresh_ACGT := by
    rfl
  have he : (istream.mk truncated_dump false false).getline.1.extract fresh_ACGT.empty_head =
      (⟨[10, 49, 32, 48, 32, 48, 32, 48, 32, 48, 10, 50, 32, 48, 32, 48, 32, 48, 32, 48, 10,
        49, 32, 48, 32, 48], false, false⟩, 0) := by
    rfl
  have hl : load_loop 4 (26 + 1) ⟨[10, 49, 32, 48, 32, 48, 32, 48, 32, 48, 10, 50, 32, 48, 32,
    48, 32, 48, 32, 48, 10, 49, 32, 48, 32, 48], false, false⟩ 0 s0 (node.ctor 4 .EMPTY) [] =
      .ok [⟨.INTERNAL, [0, 0, 0, 0]⟩, ⟨.FINAL, [0, 0, 0, 0]⟩] := by
    rw [load_loop_step 4 26 _ 0 s0 _ _
      ⟨[32, 48, 32, 48, 32, 48, 32, 48, 10, 50, 32, 48, 32, 48, 32, 48, 32, 48, 10, 49, 32,
        48, 32, 48], false, false⟩
      ⟨[10, 50, 32, 48, 32, 48, 32, 48, 32, 48, 10, 49, 32, 48, 32, 48], false, false⟩ 1 [0,
        0, 0, 0] (by rfl) (by rfl)]
    rw [if_neg (by decide), if_neg (by decide), if_neg (by decide), if_neg (by decide),
      if_neg (by decide)]
    show load_loop 4 (25 + 1) _ 1 s0 _ _ = _
    rw [load_loop_step 4 25 _ 1 s0 _ _
      ⟨[32, 48, 32, 48, 32, 48, 32, 48, 10, 49, 32, 48, 32, 48], false, false⟩
      ⟨[10, 49, 32, 48, 32, 48], false, false⟩ 2 [0, 0, 0, 0] (by rfl) (by rfl)]
    rw [if_neg (by decide), if_neg (by decide), if_neg (by decide), if_neg (by decide),
      if_neg (by decide)]
    show load_loop 4 (24 + 1) _ 2 s0 _ _ = _
    rw [load_loop_step 4 24 _ 2 s0 _ _
      ⟨[32, 48, 32, 48], false, false⟩
      ⟨[], true, true⟩ 1 [0, 0, 0, 0] (by rfl) (by rfl)]
    rw [if_neg (by decide), if_neg (by decide), if_neg (by decide), if_pos (by rfl)]
    rfl
  have h := load_of_loop 4 s0 ⟨truncated_dump, false, false⟩
    ⟨[10, 49, 32, 48, 32, 48, 32, 48, 32, 48, 10, 50, 32, 48, 32, 48, 32, 48, 32, 48, 10, 49,
      32, 48, 32, 48], false, false⟩ fresh_ACGT 0
    [⟨.INTERNAL, [0, 0, 0, 0]⟩, ⟨.FINAL, [0, 0, 0, 0]⟩] hc he rfl (26 + 1) (by decide) hl
  exact h

/-- C15: on the fresh trie over `"ACGT"` the call `insert("AX")` throws and leaves
node 2 reachable from the root (below the edge for `A`), `INTERNAL` and without
any edge. -/
theorem C15_dead_end_after_failed_insert :
    fresh_ACGT.insert [65, 88] = .error (.invalid_letter, fresh_ACGT.after_insert [65, 88]) ∧
      (fresh_ACGT.after_insert [65, 88]).walk root_offset [0] = some 2 ∧
      (fresh_ACGT.after_insert [65, 88]).node_at 2 = ⟨.INTERNAL, [0, 0, 0, 0]⟩ := by
  refine ⟨by rfl, by rfl, by rfl⟩

/-- C20: on a trie reached by successful inserts, for non-empty strings `x` and `y`
over the alphabet, `insert(x); insert(y)` and `insert(y); insert(x)` both return
and give tries that compare equal (`operator==`). -/
theorem C20_insert_order {AS : Nat} (hAS : 0 < AS) (a : List Nat)
    (hbytes : ∀ c ∈ a, c < 256) (t : ftrie AS) (ht : t.ReachableOk a) (x y : List Nat)
    (hxne : x ≠ []) (hx : ∀ c ∈ x, c ∈ a) (hyne : y ≠ []) (hy : ∀ c ∈ y, c ∈ a) :
    ∃ t1 t2 t3 t4, t.insert x = .ok t1 ∧ t1.insert y = .ok t2 ∧
      t.insert y = .ok t3 ∧ t3.insert x = .ok t4 ∧ t2.operator_eq t4 = .ok true := by
  have hG := reachableOk_good hAS ht
  obtain ⟨t1, hi1, hI1, ha1, htr1, _, hF1, hL1⟩ := insert_abs hAS hG.inv x hxne
    (hG.tr_valid hbytes _ hx)
  have hG1 : t1.Good a := ⟨hI1, by rw [ha1]; exact hG.alph, by rw [htr1]; exact hG.trans⟩
  obtain ⟨t2, hi2, hI2, _, _, _, hF2, hL2⟩ := insert_abs hAS hI1 y hyne
    (hG1.tr_valid hbytes _ hy)
  obtain ⟨t3, hi3, hI3, ha3, htr3, _, hF3, hL3⟩ := insert_abs hAS hG.inv y hyne
    (hG.tr_valid hbytes _ hy)
  have hG3 : t3.Good a := ⟨hI3, by rw [ha3]; exact hG.alph, by rw [htr3]; exact hG.trans⟩
  obtain ⟨t4, hi4, hI4, _, _, _, hF4, hL4⟩ := insert_abs hAS hI3 x hxne
    (hG3.tr_valid hbytes _ hx)
  rw [idxs_congr t t1 htr1 y] at hF2 hL2
  rw [idxs_congr t t3 htr3 x] at hF4 hL4
  have hfin : ∀ p, t2.has_final p ↔ t4.has_final p := by
    intro p
    rw [hF2, hF4, hF1, hF3]
    constructor
    · rintro (h | h | h)
      · exact Or.inr (Or.inl h)
      · exact Or.inl h
      · exact Or.inr (Or.inr h)
    · rintro (h | h | h)
      · exact Or.inr (Or.inl h)
      · exact Or.inl h
      · exact Or.inr (Or.inr h)
  have hlive : ∀ p, ¬ t2.has_final p → (t2.live p ↔ t4.live p) := by
    intro p hp
    have hp4 : ¬ t4.has_final p := fun h => hp ((hfin p).2 h)
    have hp1 : ¬ t1.has_final p := fun h => hp ((hF2 p).2 (Or.inr h))
    have hp3 : ¬ t3.has_final p := fun h => hp4 ((hF4 p).2 (Or.inr h))
    rw [hL2 p hp, hL4 p hp4, hL1 p hp1, hL3 p hp3]
    constructor
    · rintro (h | h | h)
      · exact Or.inr (Or.inl h)
      · exact Or.inl h
      · exact Or.inr (Or.inr h)
    · rintro (h | h | h)
      · exact Or.inr (Or.inl h)
      · exact Or.inl h
      · exact Or.inr (Or.inr h)
  exact ⟨t1, t2, t3, t4, hi1, hi2, hi3, hi4,
    operator_eq_true hI2 (live_congr hI2 hI4 hfin hlive)⟩

/-- C20 on the trie holding "AC", for the strings "ACG" and "GT". -/
theorem C20_witness :
    ∃ t1 t2 t3 t4, trie_AC.insert [65, 67, 71] = .ok t1 ∧ t1.insert [71, 84] = .ok t2 ∧
      trie_AC.insert [71, 84] = .ok t3 ∧ t3.insert [65, 67, 71] = .ok t4 ∧
      t2.operator_eq t4 = .ok true :=
  C20_insert_order (by decide) ACGT (by decide) trie_AC trie_AC_reachableOk
    [65, 67, 71] [71, 84] (by decide) (by decide) (by decide) (by decide)

theorem find_ok_of_valid {AS : Nat} {t : ftrie AS} (hI : t.Inv) (s : List Nat)
    (hs : ∀ c ∈ s, 0 ≤ t.tr c) : ∃ r, t.find s = .ok r := by
  obtain ⟨h1, h2⟩ := find_spec hI s hs
  by_cases hf : t.has_final (t.idxs s)
  · exact ⟨_, h1 hf⟩
  · by_cases hl : t.live (t.idxs s)
    · exact ⟨_, (h2 hf).2 hl⟩
    · exact ⟨_, (h2 hf).1 hl⟩

/-- On a trie in order `find` returns or throws `invalid_letter`. -/
theorem find_cases {AS : Nat} {t : ftrie AS} (hI : t.Inv) (s : List Nat) :
    (∃ r, t.find s = .ok r) ∨ t.find s = .error .invalid_letter := by
  rcases split_invalid t s with h | ⟨u, x, r, rfl, hu, hx⟩
  · exact Or.inl (find_ok_of_valid hI s h)
  · obtain ⟨res, hres⟩ := find_ok_of_valid hI u hu
    obtain ⟨h1, h2⟩ := find_from_invalid t u root_offset x r hu hx
    by_cases hp : t.find_from u root_offset = .ok .PREFIX_OF
    · exact Or.inr (h1 hp)
    · left
      refine ⟨res, ?_⟩
      unfold ftrie.find at hres ⊢
      rw [h2 hp]; exact hres

/-- C16: on a trie reached by inserts of strings of characters with codes below
128, every non-zero edge of a node reachable from the root is an offset inside the
arena, not the root, whose node is `INTERNAL` or is the sentinel, and so not
`EMPTY`; and neither `find` nor `insert` fails an assertion on any string of
characters with codes below 128. -/
theorem C16_edges_and_assertions {AS : Nat} (hAS : 0 < AS) (a : List Nat) (t : ftrie AS)
    (ht : t.Reachable a) :
    (∀ p n v, t.walk root_offset p = some n → t.edge n v ≠ 0 →
      t.edge n v < t.nodes.length ∧ t.edge n v ≠ root_offset ∧
      ((t.node_at (t.edge n v)).state = .INTERNAL ∨ t.edge n v = final_offset) ∧
      (t.node_at (t.edge n v)).state ≠ .EMPTY) ∧
    (∀ s, (∀ c ∈ s, c < 128) → t.find s ≠ .error .assertion_failed) ∧
    (∀ s t1, (∀ c ∈ s, c < 128) → t.insert s ≠ .error (.assertion_failed, t1)) := by
  have hG := reachable_good hAS ht
  refine ⟨?_, ?_, ?_⟩
  · intro p n v hp he
    have hw : t.walk 0 (p ++ [v]) = some (t.edge n v) := by
      rw [walk_snoc]
      have : t.walk 0 p = some n := hp
      rw [this]
      simp [he]
    obtain ⟨h1, h2⟩ := hG.inv.reach _ _ hw
    refine ⟨h1, he, ?_, ?_⟩
    · by_cases h : t.edge n v = 1
      · exact Or.inr h
      · exact Or.inl (h2 h)
    · rcases hG.inv.state_of_walk _ _ hw with ⟨_, hs⟩ | ⟨_, hs⟩
      · rw [hs]; intro h; cases h
      · rw [hs]; intro h; cases h
  · intro s _ h
    rcases find_cases hG.inv s with ⟨r, hr⟩ | hr
    · rw [hr] at h; cases h
    · rw [hr] at h; cases h
  · intro s t1 _ h
    rcases hG.insert_cases hAS s with ⟨t2, h2, _⟩ | ⟨t2, h2, _⟩
    · rw [h2] at h; cases h
    · rw [h2] at h; cases h

/-- C16 on the trie holding "AC". -/
theorem C16_witness :
    (∀ p n v, trie_AC.walk root_offset p = some n → trie_AC.edge n v ≠ 0 →
      trie_AC.edge n v < trie_AC.nodes.length ∧ trie_AC.edge n v ≠ root_offset ∧
      ((trie_AC.node_at (trie_AC.edge n v)).state = .INTERNAL ∨
        trie_AC.edge n v = final_offset) ∧
      (trie_AC.node_at (trie_AC.edge n v)).state ≠ .EMPTY) ∧
    (∀ s, (∀ c ∈ s, c < 128) → trie_AC.find s ≠ .error .assertion_failed) ∧
    (∀ s t1, (∀ c ∈ s, c < 128) → trie_AC.insert s ≠ .error (.assertion_failed, t1)) :=
  C16_edges_and_assertions (by decide) ACGT trie_AC trie_AC_reachable

/-- C18: on a trie reached by inserts of strings of characters with codes below
128, over an alphabet of distinct letters, `all_mers(d)` holds exactly the strings of length `d` over the alphabet for which
`find` does not return `NOT`. -/
theorem C18_all_mers_iff_find {AS : Nat} (hAS : 0 < AS) (a : List Nat)
    (hbytes : ∀ c ∈ a, c < 256) (hnd : a.Nodup) (t : ftrie AS) (ht : t.Reachable a)
    (d : Nat) (w : List Nat) :
    w ∈ t.all_mers d ↔ w.length = d ∧ (∀ c ∈ w, c ∈ a) ∧ t.find w ≠ .ok .NOT := by
  have hG := reachable_good hAS ht
  rw [all_mers_eq_paths, List.mem_map]
  have hp := paths_iff hG.inv d [] 0
  constructor
  · rintro ⟨p, hp1, rfl⟩
    obtain ⟨h1, h2, h3⟩ := (hp p rfl).1 hp1
    obtain ⟨h4, h5⟩ := hG.idxs_letters hbytes hnd p h2
    obtain ⟨hF1, hF2⟩ := find_spec hG.inv (t.letters p)
      (fun c hc => (hG.tr_valid hbytes _ h5 c hc).1)
    rw [h4] at hF1 hF2
    refine ⟨by simp [ftrie.letters, h1], h5, ?_⟩
    by_cases hf : t.has_final p
    · rw [hF1 hf]; intro h; cases h
    · have hl : t.live p := by
        rcases h3 with h3 | h3
        · exact absurd h3 hf
        · exact h3
      rw [(hF2 hf).2 hl]; intro h; cases h
  · rintro ⟨h1, h2, h3⟩
    obtain ⟨hF1, hF2⟩ := find_spec hG.inv w (fun c hc => (hG.tr_valid hbytes _ h2 c hc).1)
    refine ⟨t.idxs w, ?_, hG.letters_idxs hbytes w h2⟩
    show t.idxs w ∈ t.paths d 0
    rw [hp _ rfl]
    refine ⟨by simp [ftrie.idxs, h1], ?_, ?_⟩
    · intro i hi2
      simp only [ftrie.idxs, List.mem_map] at hi2
      obtain ⟨c, hc, rfl⟩ := hi2
      exact (hG.tr_valid hbytes w h2 c hc).2
    · by_cases hf : t.has_final (t.idxs w)
      · exact Or.inl hf
      · by_cases hl : t.live (t.idxs w)
        · exact Or.inr hl
        · exact absurd ((hF2 hf).1 hl) h3

/-- C18 on the trie holding "AC": "A" is in `all_mers(1)`, as `find("A")` is
`PREFIX_OF`. -/
theorem C18_witness :
    [65] ∈ trie_AC.all_mers 1 ↔
      [65].length = 1 ∧ (∀ c ∈ [65], c ∈ ACGT) ∧ trie_AC.find [65] ≠ .ok .NOT :=
  C18_all_mers_iff_find (by decide) ACGT (by decide) (by decide) trie_AC trie_AC_reachable
    1 [65]

/-- C14: on a trie reached by calls of `insert` on strings of characters with
codes below 128, whether they return or throw, the free list is a finite chain
without repetition from `empty_head` along edge 0 to 0, it is the only such chain,
and every slot of the arena other than the sentinel is reachable from the root or
on the free list, and never both. -/
theorem C14_arena_partition {AS : Nat} (hAS : 0 < AS) (a : List Nat) (t : ftrie AS)
    (ht : t.Reachable a) :
    ∃ fl : List Nat, t.seg t.empty_head fl 0 ∧ fl.Nodup ∧
      (∀ fl2, t.seg t.empty_head fl2 0 → fl2 = fl) ∧
      ∀ n, n < t.nodes.length → n ≠ final_offset →
        ((∃ p, t.walk root_offset p = some n) ∨ n ∈ fl) ∧
        ¬ ((∃ p, t.walk root_offset p = some n) ∧ n ∈ fl) := by
  have hG := reachable_good hAS ht
  obtain ⟨fl, hseg, hnd, hfl, hcov⟩ := hG.inv.free_cover
  refine ⟨fl, hseg, hnd, fun fl2 h2 => seg_unique t fl2 _ fl h2 hseg, fun n hn h1 => ⟨?_, ?_⟩⟩
  · by_cases hm : n ∈ fl
    · exact Or.inr hm
    · exact Or.inl (hcov n hn h1 hm)
  · rintro ⟨⟨p, hp⟩, hm⟩
    exact (hfl n hm).2.2 p hp

/-- C14 on the trie after `insert("AC"); insert("A")`, whose free list holds the
node that was below "A". -/
theorem C14_witness :
    ∃ fl : List Nat, (trie_AC.after_insert [65]).seg (trie_AC.after_insert [65]).empty_head fl 0 ∧
      fl.Nodup ∧
      (∀ fl2, (trie_AC.after_insert [65]).seg (trie_AC.after_insert [65]).empty_head fl2 0 →
        fl2 = fl) ∧
      ∀ n, n < (trie_AC.after_insert [65]).nodes.length → n ≠ final_offset →
        ((∃ p, (trie_AC.after_insert [65]).walk root_offset p = some n) ∨ n ∈ fl) ∧
        ¬ ((∃ p, (trie_AC.after_insert [65]).walk root_offset p = some n) ∧ n ∈ fl) :=
  C14_arena_partition (by decide) ACGT (trie_AC.after_insert [65])
    (ftrie.Reachable.insert trie_AC [65] trie_AC_reachable (by decide))

/-- C17: on a freshly constructed trie and on a trie reached from one by calls
of `insert` on strings of characters with codes below 128, the node at offset 0 is `INTERNAL`, the node at offset 1 is `FINAL` with all its
edges zero, and no other node of the arena is `FINAL`. -/
theorem C17_sentinel_states {AS : Nat} (hAS : 0 < AS) (a : List Nat) (t : ftrie AS)
    (ht : t.Reachable a) :
    (t.node_at root_offset).state = .INTERNAL ∧
      (t.node_at final_offset).state = .FINAL ∧
      (t.node_at final_offset).edges = List.replicate AS 0 ∧
      (∀ v, t.edge final_offset v = 0) ∧
      ∀ n, n < t.nodes.length → n ≠ final_offset → (t.node_at n).state ≠ .FINAL := by
  have hG := reachable_good hAS ht
  obtain ⟨fl, hseg, hnd, hfl, hcov⟩ := hG.inv.free_cover
  have hfin : t.node_at final_offset = node.ctor AS .FINAL := hG.inv.final
  refine ⟨hG.inv.root, by rw [hfin]; rfl, by rw [hfin]; rfl,
    fun v => edge_ctor t 1 v .FINAL hG.inv.final, fun n hn h1 => ?_⟩
  by_cases hm : n ∈ fl
  · rw [(hfl n hm).2.1]
    intro h; cases h
  · obtain ⟨p, hp⟩ := hcov n hn h1 hm
    rw [(hG.inv.reach p n hp).2 h1]
    intro h; cases h

/-- C17 on the trie holding "AC". -/
theorem C17_witness :
    (trie_AC.node_at root_offset).state = .INTERNAL ∧
      (trie_AC.node_at final_offset).state = .FINAL ∧
      (trie_AC.node_at final_offset).edges = List.replicate 4 0 ∧
      (∀ v, trie_AC.edge final_offset v = 0) ∧
      ∀ n, n < trie_AC.nodes.length → n ≠ final_offset →
        (trie_AC.node_at n).state ≠ .FINAL :=
  C17_sentinel_states (by decide) ACGT trie_AC trie_AC_reachable

theorem equal_edges_true {AS : Nat} (eq : node → node → Except Error Bool) (f1 f2 : ftrie AS)
    (n1 n2 : node) : ∀ is : List Nat, equal_edges eq f1 f2 n1 n2 is = .ok true →
    ∀ i ∈ is, (n1.edges.getD i 0 = 0 ↔ n2.edges.getD i 0 = 0) ∧
      (n1.edges.getD i 0 ≠ 0 →
        eq (f1.node_at (n1.edges.getD i 0)) (f2.node_at (n2.edges.getD i 0)) = .ok true) := by
  intro is
  induction is with
  | nil => intro _ i hi; cases hi
  | cons j is ih =>
    intro h i hi
    unfold equal_edges at h
    by_cases hd : decide (n1.edges.getD j 0 = 0) ≠ decide (n2.edges.getD j 0 = 0)
    · rw [if_pos hd] at h; cases h
    · rw [if_neg hd] at h
      have hiff : n1.edges.getD j 0 = 0 ↔ n2.edges.getD j 0 = 0 := by
        have := not_not.1 hd
        simpa using this
      by_cases h0 : n1.edges.getD j 0 ≠ 0
      · rw [if_pos h0] at h
        cases he : eq (f1.node_at (n1.edges.getD j 0)) (f2.node_at (n2.edges.getD j 0)) with
        | error e => rw [he] at h; cases h
        | ok b =>
          rw [he] at h
          cases b with
          | false => cases h
          | true =>
            rcases List.mem_cons.1 hi with rfl | hi
            · exact ⟨hiff, fun _ => he⟩
            · exact ih h i hi
      · rw [if_neg h0] at h
        rcases List.mem_cons.1 hi with rfl | hi
        · exact ⟨hiff, fun h1 => absurd h1 h0⟩
        · exact ih h i hi

/-- When `equal_nodes` returns true, the same paths over the edge indices can
be walked from the two nodes. -/
theorem equal_nodes_shape {AS : Nat} (fuel : Nat) :
    ∀ (f1 f2 : ftrie AS) (c1 c2 : Nat),
      ftrie.equal_nodes fuel f1 f2 (f1.node_at c1) (f2.node_at c2) = .ok true →
      ∀ p, (∀ i ∈ p, i < AS) → (f1.walk c1 p = none ↔ f2.walk c2 p = none) := by
  induction fuel with
  | zero =>
    intro f1 f2 c1 c2 h
    cases h
  | succ fuel IH =>
    intro f1 f2 c1 c2 h p hp
    cases p with
    | nil => simp [ftrie.walk]
    | cons v p =>
      unfold ftrie.equal_nodes at h
      obtain ⟨h1, h2⟩ := equal_edges_true _ f1 f2 _ _ _ h v
        (List.mem_range.2 (hp v (by simp)))
      rw [walk_cons, walk_cons]
      by_cases h0 : f1.edge c1 v = 0
      · have h0b : f2.edge c2 v = 0 := h1.1 h0
        rw [if_pos h0, if_pos h0b]
      · have h0b : f2.edge c2 v ≠ 0 := fun h => h0 (h1.2 h)
        rw [if_neg h0, if_neg h0b]
        exact IH f1 f2 _ _ (h2 h0) p (fun i hi => hp i (by simp [hi]))

theorem ftrie.Inv.walk_index_lt {AS : Nat} {t : ftrie AS} (hI : t.Inv) (p : List Nat) :
    ∀ n, t.walk 0 p = some n → ∀ i ∈ p, i < AS := by
  induction p using List.reverseRecOn with
  | nil => intro _ _ i hi; cases hi
  | append_singleton q w ih =>
    intro n hn i hi
    rw [walk_snoc] at hn
    cases hq : t.walk 0 q with
    | none => rw [hq] at hn; cases hn
    | some m =>
      rw [hq] at hn
      simp only [Option.some_bind] at hn
      rcases List.mem_append.1 hi with h | h
      · exact ih m hq i h
      · simp only [List.mem_singleton] at h
        subst h
        by_contra hlt
        have := edge_ge t m i (by rw [hI.edges_len m (hI.reach q m hq).1]; omega)
        rw [if_pos this] at hn
        cases hn

/-- Two tries in order that compare equal have the same walkable paths. -/
theorem operator_eq_live {AS : Nat} {t1 t2 : ftrie AS} (h1 : t1.Inv) (h2 : t2.Inv)
    (heq : t1.operator_eq t2 = .ok true) (p : List Nat) : t1.live p ↔ t2.live p := by
  unfold ftrie.operator_eq at heq
  have hs := equal_nodes_shape _ t1 t2 0 0 heq p
  unfold ftrie.live
  constructor
  · intro hl
    cases hw : t1.walk 0 p with
    | none => exact absurd hw hl
    | some n =>
      have := hs (h1.walk_index_lt p n hw)
      intro hn
      rw [this.2 hn] at hw
      cases hw
  · intro hl
    cases hw : t2.walk 0 p with
    | none => exact absurd hw hl
    | some n =>
      have := hs (h2.walk_index_lt p n hw)
      intro hn
      rw [this.1 hn] at hw
      cases hw

/-- In a trie that holds the strings `D`, every walkable path other than the
empty one goes on to the sentinel. -/
theorem holds_no_dead_end {AS : Nat} {t : ftrie AS} (hI : t.Inv) (D : List (List Nat))
    (hD : t.Holds D) (p : List Nat) (hp : p ≠ []) (hl : t.live p) :
    ∃ r, t.walk 0 (p ++ r) = some 1 := by
  by_cases hf : t.has_final p
  · obtain ⟨f, ⟨r, rfl⟩, hw⟩ := hf
    by_cases hr : r = []
    · subst hr
      exact ⟨[], by simpa using hw⟩
    · exfalso
      apply hl
      rw [walk_append, hw]
      cases r with
      | nil => exact absurd rfl hr
      | cons w r => exact walk_final_cons t hI.final w r
  · rcases (hD.2 p hf).1 hl with h | ⟨s, hs, hps⟩
    · exact absurd h hp
    · obtain ⟨f, hfs, hw⟩ := (hD.1 (t.idxs s)).2 ⟨s, hs, List.prefix_refl _⟩
      rcases List.prefix_or_prefix_of_prefix hps hfs with h | h
      · obtain ⟨r, rfl⟩ := h
        exact ⟨r, hw⟩
      · exact absurd ⟨f, h, hw⟩ hf

theorem final_of_live {AS : Nat} {t1 t2 : ftrie AS} (h1 : t1.Inv)
    (hl : ∀ p, t1.live p ↔ t2.live p)
    (hdead : ∀ p, p ≠ [] → t2.live p → ∃ r, t2.walk 0 (p ++ r) = some 1)
    (f : List Nat) (hw : t1.walk 0 f = some 1) : t2.walk 0 f = some 1 := by
  have hne : f ≠ [] := by
    rintro rfl
    cases hw
  have hl1 : t1.live f := by
    unfold ftrie.live; rw [hw]; simp
  obtain ⟨r, hr⟩ := hdead f hne ((hl f).1 hl1)
  cases r with
  | nil => simpa using hr
  | cons w r =>
    exfalso
    have : t2.live (f ++ w :: r) := by
      unfold ftrie.live; rw [hr]; simp
    apply (hl _).2 this
    rw [walk_append, hw]
    exact walk_final_cons t1 h1.final w r

/-- Two tries in order in which the same paths can be walked and the same paths
end at the sentinel list the same paths from nodes that the same path leads to. -/
theorem paths_congr {AS : Nat} {t1 t2 : ftrie AS} (h1 : t1.Inv) (h2 : t2.Inv)
    (hl : ∀ p, t1.live p ↔ t2.live p)
    (hone : ∀ f, t1.walk 0 f = some 1 ↔ t2.walk 0 f = some 1) (d : Nat) :
    ∀ (p : List Nat) (c1 c2 : Nat), t1.walk 0 p = some c1 → t2.walk 0 p = some c2 →
      t1.paths d c1 = t2.paths d c2 := by
  induction d with
  | zero => intro p c1 c2 _ _; rfl
  | succ d ih =>
    intro p c1 c2 hc1 hc2
    have hfin : (t1.node_at c1).state = .FINAL ↔ (t2.node_at c2).state = .FINAL := by
      rw [h1.state_final_iff p c1 hc1, h2.state_final_iff p c2 hc2]
      constructor
      · rintro rfl
        have := (hone p).1 hc1
        rw [hc2] at this
        exact Option.some.inj this
      · rintro rfl
        have := (hone p).2 hc2
        rw [hc1] at this
        exact Option.some.inj this
    unfold ftrie.paths
    by_cases hf : (t1.node_at c1).state = .FINAL
    · rw [if_pos hf, if_pos (hfin.1 hf), ih p c1 c2 hc1 hc2]
    · rw [if_neg hf, if_neg (fun h => hf (hfin.2 h))]
      apply List.flatMap_congr
      intro i _
      have hw1 : t1.walk 0 (p ++ [i]) =
          if t1.edge c1 i = 0 then none else some (t1.edge c1 i) := by
        rw [walk_snoc, hc1]; rfl
      have hw2 : t2.walk 0 (p ++ [i]) =
          if t2.edge c2 i = 0 then none else some (t2.edge c2 i) := by
        rw [walk_snoc, hc2]; rfl
      have hli := hl (p ++ [i])
      unfold ftrie.live at hli
      rw [hw1, hw2] at hli
      by_cases he : t1.edge c1 i = 0
      · have he2 : t2.edge c2 i = 0 := by
          by_contra h
          rw [if_pos he, if_neg h] at hli
          exact (hli.2 (by simp)) rfl
        simp [he, he2]
      · have he2 : t2.edge c2 i ≠ 0 := by
          intro h
          rw [if_neg he, if_pos h] at hli
          exact (hli.1 (by simp)) rfl
        rw [if_pos he, if_pos he2]
        rw [ih (p ++ [i]) _ _ (by rw [hw1, if_neg he]) (by rw [hw2, if_neg he2])]

/-- C19: two tries built from the freshly constructed trie over an alphabet by
inserts of non-empty strings over the alphabet, all of which return, and that
compare equal under `operator==`, give the same `find` result for every query
over the alphabet, the same `all_mers(d)` and the same `size(d)` for every depth. -/
theorem C19_equal_tries_observably_equal {AS : Nat} (hAS : 0 < AS) (a : List Nat)
    (hbytes : ∀ c ∈ a, c < 256) (t0 t1 t2 : ftrie AS) (h0 : ftrie.ctor AS a = .ok t0)
    (D1 D2 : List (List Nat))
    (hD1 : ∀ s ∈ D1, s ≠ [] ∧ ∀ c ∈ s, c ∈ a) (hD2 : ∀ s ∈ D2, s ≠ [] ∧ ∀ c ∈ s, c ∈ a)
    (hb1 : t0.insert_all D1 = .ok t1) (hb2 : t0.insert_all D2 = .ok t2)
    (heq : t1.operator_eq t2 = .ok true) :
    (∀ q, (∀ c ∈ q, c ∈ a) → t1.find q = t2.find q) ∧
      (∀ d, t1.all_mers d = t2.all_mers d) ∧ (∀ d, t1.size d = t2.size d) := by
  obtain ⟨u1, E1, hi1, hG1, hH1, _⟩ := holds_insert_all hAS hbytes D1 t0 []
    (fresh_good a t0 h0) (holds_fresh a t0 h0) hD1
  obtain ⟨u2, E2, hi2, hG2, hH2, _⟩ := holds_insert_all hAS hbytes D2 t0 []
    (fresh_good a t0 h0) (holds_fresh a t0 h0) hD2
  rw [hb1] at hi1
  rw [hb2] at hi2
  cases hi1
  cases hi2
  have hl := operator_eq_live hG1.inv hG2.inv heq
  have hone : ∀ f, t1.walk 0 f = some 1 ↔ t2.walk 0 f = some 1 := fun f =>
    ⟨final_of_live hG1.inv hl (holds_no_dead_end hG2.inv E2 hH2) f,
      final_of_live hG2.inv (fun p => (hl p).symm) (holds_no_dead_end hG1.inv E1 hH1) f⟩
  have hfin : ∀ p, t1.has_final p ↔ t2.has_final p := by
    intro p
    constructor
    · rintro ⟨f, hf, hw⟩
      exact ⟨f, hf, (hone f).1 hw⟩
    · rintro ⟨f, hf, hw⟩
      exact ⟨f, hf, (hone f).2 hw⟩
  have htr : t2.translate = t1.translate := by
    have := hG1.trans.symm.trans hG2.trans
    exact (Except.ok.inj this).symm
  have hpaths : ∀ d, t1.paths d 0 = t2.paths d 0 := fun d =>
    paths_congr hG1.inv hG2.inv hl hone d [] 0 0 rfl rfl
  refine ⟨fun q hq => ?_, fun d => ?_, fun d => ?_⟩
  · obtain ⟨hA1, hB1⟩ := find_spec hG1.inv q (fun c hc => (hG1.tr_valid hbytes q hq c hc).1)
    obtain ⟨hA2, hB2⟩ := find_spec hG2.inv q (fun c hc => (hG2.tr_valid hbytes q hq c hc).1)
    rw [idxs_congr t1 t2 htr q] at hA2 hB2
    by_cases hf : t1.has_final (t1.idxs q)
    · rw [hA1 hf, hA2 ((hfin _).1 hf)]
    · have hf2 : ¬ t2.has_final (t1.idxs q) := fun h => hf ((hfin _).2 h)
      by_cases hv : t1.live (t1.idxs q)
      · rw [(hB1 hf).2 hv, (hB2 hf2).2 ((hl _).1 hv)]
      · rw [(hB1 hf).1 hv, (hB2 hf2).1 (fun h => hv ((hl _).2 h))]
  · rw [all_mers_eq_paths, all_mers_eq_paths]
    show (t1.paths d 0).map t1.letters = (t2.paths d 0).map t2.letters
    rw [hpaths d]
    have : t1.letters = t2.letters := by
      funext w
      unfold ftrie.letters
      rw [hG1.alph, hG2.alph]
    rw [this]
  · unfold ftrie.size
    rw [size_from_eq_length t1 (by rw [hG1.alph]; exact hG1.alphabet_length) d,
      size_from_eq_length t2 (by rw [hG2.alph]; exact hG2.alphabet_length) d]
    show (t1.paths d 0).length = (t2.paths d 0).length
    rw [hpaths d]

/-- C19 on the tries after `insert("AC"); insert("GT")` and after
`insert("GT"); insert("AC")`, which compare equal. -/
theorem C19_witness :
    (∀ q, (∀ c ∈ q, c ∈ ACGT) →
      ((fresh_ACGT.after_insert [65, 67]).after_insert [71, 84]).find q =
        ((fresh_ACGT.after_insert [71, 84]).after_insert [65, 67]).find q) ∧
    (∀ d, ((fresh_ACGT.after_insert [65, 67]).after_insert [71, 84]).all_mers d =
      ((fresh_ACGT.after_insert [71, 84]).after_insert [65, 67]).all_mers d) ∧
    (∀ d, ((fresh_ACGT.after_insert [65, 67]).after_insert [71, 84]).size d =
      ((fresh_ACGT.after_insert [71, 84]).after_insert [65, 67]).size d) :=
  C19_equal_tries_observably_equal (by decide) ACGT (by decide) fresh_ACGT
    ((fresh_ACGT.after_insert [65, 67]).after_insert [71, 84])
    ((fresh_ACGT.after_insert [71, 84]).after_insert [65, 67]) rfl
    [[65, 67], [71, 84]] [[71, 84], [65, 67]] (by decide) (by decide) (by rfl) (by rfl)
    (by rfl)
